import Mathlib

/-!
# shgen: cubemap to spherical-harmonics projection

A shallow embedding of the `ibl` library of shgen (vec3.h, image.h/.cpp,
cubemap.h/.cpp, spherical_harmonics.cpp) and theorems about it.

Conventions of the embedding.

* `float` and `double` values are read as the real numbers they stand for, so
  every arithmetic operation is exact; `std::sqrt` is `Real.sqrt` and
  `std::atan2` is the two-argument arctangent `atan2` defined below.  The
  constant `PI` of spherical_harmonics.cpp, written there as the decimal
  expansion of pi to 32 significant digits, is read as the real number pi.
* `size_t` is an unsigned 64-bit integer: a natural number, reduced modulo
  `2^64` where the source arithmetic can wrap.  Pointers are 64-bit byte
  addresses, `nullptr` is address `0`.
* Pixel memory maps the byte address of a texel to the texel (three floats)
  stored there.
* The six face tasks started with `std::async` are run one after the other
  in face-index order.
-/

namespace ibl

/-- Number of values of a `size_t`: `2^64`. -/
def SIZE_WRAP : ℕ := 2 ^ 64

/-- Pointers are byte addresses; the null pointer is address `0`. -/
abbrev Ptr := ℕ

namespace math

/-- Vector `TVec3<T>` of vec3.h: the union members `x/s/r`, `y/t/g`, `z/p/b`
name the same three components, kept here as `x`, `y`, `z`. -/
@[ext] structure TVec3 (T : Type) where
  x : T
  y : T
  z : T

namespace TVec3

variable {T : Type}

/-- Constructor `TVec3(A v)`: all three components set to `v`. -/
def splat (v : T) : TVec3 T := ⟨v, v, v⟩

/-- Member `operator+=`: component-wise sum. -/
def add [Add T] (a v : TVec3 T) : TVec3 T := ⟨a.x + v.x, a.y + v.y, a.z + v.z⟩

/-- Both `operator*=` and the free `operator*(vec3, scalar)`: every component
times the scalar `b`. -/
def mul [Mul T] (a : TVec3 T) (b : T) : TVec3 T := ⟨a.x * b, a.y * b, a.z * b⟩

instance [Add T] : Add (TVec3 T) := ⟨add⟩

instance [Mul T] : HMul (TVec3 T) T (TVec3 T) := ⟨mul⟩

instance [Zero T] : Zero (TVec3 T) := ⟨splat 0⟩

end TVec3

/-- Type `float3`, its components read as reals. -/
abbrev float3 := TVec3 ℝ

/-- Type `double3`, its components read as reals. -/
abbrev double3 := TVec3 ℝ

end math

open math

/-- Value of `sizeof(math::float3)`: three 4-byte floats. -/
def sizeofFloat3 : ℕ := 12

/-- Pixel memory: the texel stored at each byte address. -/
abbrev Memory := Ptr → float3

/-- Class `Image` of image.h: a descriptor of one face's pixel buffer.
`mOwnedData` is the address held by the owning `unique_ptr`, `none` when the
image owns nothing. -/
structure Image where
  mBpr : ℕ
  mWidth : ℕ
  mHeight : ℕ
  mOwnedData : Option Ptr
  mData : Ptr
deriving DecidableEq, Repr

namespace Image

/-- Default constructor `Image()`. -/
def default : Image :=
  { mBpr := 0, mWidth := 0, mHeight := 0, mOwnedData := none, mData := 0 }

/-- Constructor `Image(w, h, stride)`; `alloc n` is the address returned by
`new uint8_t[n]`. -/
def create (alloc : ℕ → Ptr) (w h : ℕ) (stride : ℕ) : Image :=
  let bpr := ((if stride ≠ 0 then stride else w) * sizeofFloat3) % SIZE_WRAP
  let p := alloc ((bpr * h) % SIZE_WRAP)
  { mBpr := bpr, mWidth := w, mHeight := h, mOwnedData := some p, mData := p }

/-- Number of bytes `mBpr * h` that `Image(w, h, stride)` requests from
`new uint8_t[...]`: the size of the buffer of the created image. -/
def createSize (w h : ℕ) (stride : ℕ) : ℕ :=
  ((((if stride ≠ 0 then stride else w) * sizeofFloat3) % SIZE_WRAP) * h) % SIZE_WRAP

/-- Constructor `Image(data, w, h)`: wraps caller memory. -/
def wrap (data : Ptr) (w h : ℕ) : Image :=
  { mBpr := (w * sizeofFloat3) % SIZE_WRAP, mWidth := w, mHeight := h,
    mOwnedData := none, mData := data }

/-- Method `Image::reset`. -/
def reset (_self : Image) : Image :=
  { mBpr := 0, mWidth := 0, mHeight := 0, mOwnedData := none, mData := 0 }

/-- Method `Image::isValid`. -/
def isValid (self : Image) : Bool := self.mData != 0

/-- Method `Image::getWidth`. -/
def getWidth (self : Image) : ℕ := self.mWidth

/-- Method `Image::getHeight`. -/
def getHeight (self : Image) : ℕ := self.mHeight

/-- Method `Image::getData`. -/
def getData (self : Image) : Ptr := self.mData

/-- Method `Image::getBytesPerRow`. -/
def getBytesPerRow (self : Image) : ℕ := self.mBpr

/-- Method `Image::getBytesPerPixel`. -/
def getBytesPerPixel (_self : Image) : ℕ := sizeofFloat3

/-- Method `Image::getPixelRef`: the byte address
`mData + y * bytesPerRow + x * bytesPerPixel` in the 64-bit address space. -/
def getPixelRef (self : Image) (x y : ℕ) : Ptr :=
  (self.mData + y * self.getBytesPerRow + x * self.getBytesPerPixel) % SIZE_WRAP

/-- Method `Image::set`: copies the descriptor of `image`, owning nothing. -/
def set (_self : Image) (image : Image) : Image :=
  { mBpr := image.mBpr, mWidth := image.mWidth, mHeight := image.mHeight,
    mOwnedData := none, mData := image.mData }

/-- Method `Image::subset`: a window of `image` starting at texel `(x, y)`. -/
def subset (_self : Image) (image : Image) (x y w h : ℕ) : Image :=
  { mBpr := image.mBpr, mWidth := w, mHeight := h,
    mOwnedData := none, mData := image.getPixelRef x y }

/-- Image-plane invariant of the specification: a row of `width` texels of 12
bytes fits in `bytesPerRow` bytes. -/
def RowFits (img : Image) : Prop := img.getWidth * sizeofFloat3 ≤ img.getBytesPerRow

instance (img : Image) : Decidable img.RowFits :=
  inferInstanceAs (Decidable (img.getWidth * sizeofFloat3 ≤ img.getBytesPerRow))

end Image

/-- Enumeration `Cubemap::Face`, in declaration order `NX = 0, PX, NY, PY, NZ, PZ`. -/
inductive Face where
  | NX | PX | NY | PY | NZ | PZ
deriving DecidableEq, Repr

namespace Face

/-- Underlying value `int(face)`. -/
def toIndex : Face → ℕ
  | NX => 0 | PX => 1 | NY => 2 | PY => 3 | NZ => 4 | PZ => 5

/-- Cast `(Cubemap::Face)faceIndex` for `faceIndex < 6`. -/
def ofIndex : ℕ → Face
  | 0 => NX | 1 => PX | 2 => NY | 3 => PY | 4 => NZ | _ => PZ

/-- The six faces in index order, as the loops `faceIndex = 0 .. 5` visit them. -/
def all : List Face := (List.range 6).map ofIndex

end Face

/-- Structure `Cubemap::Address`. -/
structure Address where
  face : Face
  s : ℝ
  t : ℝ

/-- Class `Cubemap` of cubemap.h; `mFaces` is the array `Image mFaces[6]`
indexed by face. -/
structure Cubemap where
  mDimensions : ℕ
  mScale : ℝ
  mUpperBound : ℝ
  mFaces : Face → Image

noncomputable section

namespace Cubemap

/-- Method `Cubemap::resetDimensions`; `nextafter` stands for `std::nextafter`,
whose result is stored in `mUpperBound` and never read. -/
def resetDimensions (nextafter : ℝ → ℝ → ℝ) (self : Cubemap) (dim : ℕ) : Cubemap :=
  { mDimensions := dim
    mScale := 2 / (dim : ℝ)
    mUpperBound := nextafter dim 0
    mFaces := fun f => (self.mFaces f).reset }

/-- Constructor `Cubemap(dim)`: default members, then `resetDimensions(dim)`. -/
def create (nextafter : ℝ → ℝ → ℝ) (dim : ℕ) : Cubemap :=
  resetDimensions nextafter
    { mDimensions := 0, mScale := 1, mUpperBound := 0, mFaces := fun _ => Image.default } dim

/-- Method `Cubemap::setImageForFace`. -/
def setImageForFace (self : Cubemap) (face : Face) (image : Image) : Cubemap :=
  { self with mFaces := Function.update self.mFaces face ((self.mFaces face).set image) }

/-- Method `Cubemap::getImageForFace`. -/
def getImageForFace (self : Cubemap) (face : Face) : Image := self.mFaces face

/-- Method `Cubemap::getDimensions`. -/
def getDimensions (self : Cubemap) : ℕ := self.mDimensions

/-- Method `Cubemap::getDirectionFor(Face, double, double)`. -/
def getDirectionFor (self : Cubemap) (face : Face) (x y : ℝ) : double3 :=
  let cx := (x * self.mScale) - 1
  let cy := 1 - (y * self.mScale)
  let l := Real.sqrt (cx * cx + cy * cy + 1)
  let dir : double3 :=
    match face with
    | Face.PX => ⟨1, cy, -cx⟩
    | Face.NX => ⟨-1, cy, cx⟩
    | Face.PY => ⟨cx, 1, -cy⟩
    | Face.NY => ⟨cx, -1, cy⟩
    | Face.PZ => ⟨cx, cy, 1⟩
    | Face.NZ => ⟨-cx, cy, -1⟩
  dir * (1 / l)

/-- Method `Cubemap::getDirectionFor(Face, size_t, size_t)`: the direction of
the texel centre. -/
def getDirectionForTexel (self : Cubemap) (face : Face) (x y : ℕ) : double3 :=
  self.getDirectionFor face ((x : ℝ) + 0.5) ((y : ℝ) + 0.5)

/-- Locals of `Cubemap::getAddressFor` when the face cascade is done, before
`addr.s` and `addr.t` are assigned. -/
structure MajorAxis where
  face : Face
  sc : ℝ
  tc : ℝ
  ma : ℝ

/-- Face cascade of `Cubemap::getAddressFor` (the `if / else if / else`). -/
def getAddressForMajor (r : double3) : MajorAxis :=
  let rx := |r.x|
  let ry := |r.y|
  let rz := |r.z|
  if rx ≥ ry ∧ rx ≥ rz then
    if r.x ≥ 0 then { face := Face.PX, sc := -r.z, tc := -r.y, ma := rx }
    else { face := Face.NX, sc := r.z, tc := -r.y, ma := rx }
  else if ry ≥ rx ∧ ry ≥ rz then
    if r.y ≥ 0 then { face := Face.PY, sc := r.x, tc := r.z, ma := ry }
    else { face := Face.NY, sc := r.x, tc := -r.z, ma := ry }
  else
    if r.z ≥ 0 then { face := Face.PZ, sc := r.x, tc := -r.y, ma := rz }
    else { face := Face.NZ, sc := -r.x, tc := -r.y, ma := rz }

/-- Static method `Cubemap::getAddressFor`. -/
def getAddressFor (r : double3) : Address :=
  let m := getAddressForMajor r
  { face := m.face
    s := (m.sc / m.ma + 1) * 0.5
    t := (m.tc / m.ma + 1) * 0.5 }

/-- Static method `Cubemap::sampleAt(const void*)`: the texel stored at `data`. -/
def sampleAtPtr (mem : Memory) (data : Ptr) : float3 := mem data

/-- Static method `Cubemap::writeAt`: stores `texel` at `data`. -/
def writeAt (mem : Memory) (data : Ptr) (texel : float3) : Memory :=
  Function.update mem data texel

/-- Conversion `size_t(v)` of a double: truncation, which is the floor for the
non-negative values that are representable. -/
def toSizeT (v : ℝ) : ℕ := ⌊v⌋₊ % SIZE_WRAP

/-- Texel indices `(x, y)` computed by `Cubemap::sampleAt(direction)`. -/
def sampleAtIndex (self : Cubemap) (direction : double3) : ℕ × ℕ :=
  let addr := getAddressFor direction
  let x := min (toSizeT (addr.s * self.mDimensions)) ((self.mDimensions + SIZE_WRAP - 1) % SIZE_WRAP)
  let y := min (toSizeT (addr.t * self.mDimensions)) ((self.mDimensions + SIZE_WRAP - 1) % SIZE_WRAP)
  (x, y)

/-- Method `Cubemap::sampleAt(direction)`: nearest-texel lookup. -/
def sampleAt (mem : Memory) (self : Cubemap) (direction : double3) : float3 :=
  let addr := getAddressFor direction
  let xy := self.sampleAtIndex direction
  sampleAtPtr mem ((self.getImageForFace addr.face).getPixelRef xy.1 xy.2)

end Cubemap

/-- Constant `PI` of spherical_harmonics.cpp (the source writes pi to 32
significant digits). -/
def PI : ℝ := Real.pi

/-- Constant `INV_PI`. -/
def INV_PI : ℝ := 1 / PI

end

/-- Loop `for ( ; n > d; n--) r *= n` of `factorial`, started with the
accumulator `r`. -/
def factorialLoop (d : ℕ) : ℕ → ℚ → ℚ
  | 0, r => r
  | n + 1, r => if n + 1 > d then factorialLoop d n (r * ((n + 1 : ℕ) : ℚ)) else r

/-- Function `factorial(n, d)` of spherical_harmonics.cpp; the second loop is
the first one with the roles of `n` and `d` exchanged. -/
def factorial (n : ℕ) (d : ℕ := 1) : ℚ :=
  let d := max 1 d
  let n := max 1 n
  if n = d then 1
  else if n > d then factorialLoop d n 1
  else 1 / factorialLoop n d 1

/-- Expression `(1 << l)` on a 32-bit `int`: the power of two for `l <= 30`,
wrapped into the signed 32-bit range beyond. -/
def oneShl (l : ℕ) : ℤ := ((2 : ℤ) ^ l).bmod (2 ^ 32)

noncomputable section

/-- Function `computeTruncatedCosSh`. -/
def computeTruncatedCosSh (l : ℕ) : ℝ :=
  if l = 0 then PI
  else if l = 1 then 2 * PI / 3
  else if l &&& 1 ≠ 0 then 0
  else
    let l_2 := l / 2
    let A0 : ℝ := (if l_2 &&& 1 ≠ 0 then 1.0 else -1.0) /
      ((((l + 2) * ((l + SIZE_WRAP - 1) % SIZE_WRAP)) % SIZE_WRAP : ℕ) : ℝ)
    let A1 : ℝ := (factorial l l_2 : ℝ) / ((factorial l_2 : ℝ) * (oneShl l : ℝ))
    2 * PI * A0 * A1

/-- Library function `std::atan2(y, x)`: the angle of the point `(x, y)`,
in `(-pi, pi]`. -/
def atan2 (y x : ℝ) : ℝ :=
  if 0 < x then Real.arctan (y / x)
  else if x < 0 then (if 0 ≤ y then Real.arctan (y / x) + Real.pi else Real.arctan (y / x) - Real.pi)
  else if 0 < y then Real.pi / 2
  else if y < 0 then -(Real.pi / 2)
  else 0

/-- Function `sphereQuadrantArea`. -/
def sphereQuadrantArea (x y : ℝ) : ℝ :=
  atan2 (x * y) (Real.sqrt (x * x + y * y + 1))

/-- Function `solidAngle(dim, u, v)`. -/
def solidAngle (dim u v : ℕ) : ℝ :=
  let iDim : ℝ := 1 / (dim : ℝ)
  let s : ℝ := (((u : ℝ) + 0.5) * 2 * iDim) - 1
  let t : ℝ := (((v : ℝ) + 0.5) * 2 * iDim) - 1
  let x0 := s - iDim
  let y0 := t - iDim
  let x1 := s + iDim
  let y1 := t + iDim
  let solidAngle := sphereQuadrantArea x0 y0
                  - sphereQuadrantArea x0 y1
                  - sphereQuadrantArea x1 y0
                  + sphereQuadrantArea x1 y1
  solidAngle

/-- Local array `A[9]` of `computeIrradianceSH3Bands`. -/
def computeIrradianceSH3Bands.A : Fin 9 → ℝ :=
  let c0 := computeTruncatedCosSh 0
  let c1 := computeTruncatedCosSh 1
  let c2 := computeTruncatedCosSh 2
  ![(INV_PI * INV_PI / 4) * c0,
    (INV_PI * INV_PI / 4) * 3 * c1,
    (INV_PI * INV_PI / 4) * 3 * c1,
    (INV_PI * INV_PI / 4) * 3 * c1,
    (INV_PI * INV_PI / 4) * 15 * c2,
    (INV_PI * INV_PI / 4) * 15 * c2,
    (INV_PI * INV_PI / 16) * 5 * c2,
    (INV_PI * INV_PI / 4) * 15 * c2,
    (INV_PI * INV_PI / 16) * 15 * c2]

/-- Local structure `State` of `computeIrradianceSH3Bands`: the nine
accumulators of one face task. -/
structure State where
  SH : Fin 9 → double3

/-- Value-initialised `State`: `SH[9] = {}`. -/
def State.init : State := ⟨fun _ => 0⟩

/-- Body of the `x` loop of the projector's `proc` lambda, for the texel at
`data`. -/
def computeIrradianceSH3Bands.procTexel (cm : Cubemap) (A : Fin 9 → ℝ) (mem : Memory)
    (state : State) (y : ℕ) (f : Face) (data : Ptr) (dim x : ℕ) : State :=
  let s : double3 := cm.getDirectionForTexel f x y
  let color : double3 := Cubemap.sampleAtPtr mem data
  let color : double3 := color * solidAngle dim x y
  { SH := ![state.SH 0 + color * A 0,
            state.SH 1 + color * A 1 * s.y,
            state.SH 2 + color * A 2 * s.z,
            state.SH 3 + color * A 3 * s.x,
            state.SH 4 + color * A 4 * s.y * s.x,
            state.SH 5 + color * A 5 * s.y * s.z,
            state.SH 6 + color * A 6 * (3 * s.z * s.z - 1),
            state.SH 7 + color * A 7 * s.z * s.x,
            state.SH 8 + color * A 8 * (s.x * s.x - s.y * s.y)] }

/-- Lambda `proc` of `computeIrradianceSH3Bands`: one row, `x = 0 .. dim-1`,
`data` advancing by one texel per step. -/
def computeIrradianceSH3Bands.proc (cm : Cubemap) (A : Fin 9 → ℝ) (mem : Memory)
    (state : State) (y : ℕ) (f : Face) (data : Ptr) (dim : ℕ) : State :=
  ((List.range dim).foldl
    (fun (acc : State × Ptr) x =>
      (computeIrradianceSH3Bands.procTexel cm A mem acc.1 y f acc.2 dim x,
        (acc.2 + sizeofFloat3) % SIZE_WRAP))
    (state, data)).1

/-- Task of `computeIrradianceSH3Bands` for face `f`: all rows of the face,
accumulated into the task's own state `s`. -/
def computeIrradianceSH3Bands.task (cm : Cubemap) (A : Fin 9 → ℝ) (mem : Memory)
    (s : State) (f : Face) (dim : ℕ) : State :=
  let image := cm.getImageForFace f
  (List.range dim).foldl
    (fun st y => computeIrradianceSH3Bands.proc cm A mem st y f (image.getPixelRef 0 y) dim) s

/-- Function `computeIrradianceSH3Bands`: the six face tasks, then the sum of
their states into the nine coefficients. -/
def computeIrradianceSH3Bands (mem : Memory) (cm : Cubemap) : Fin 9 → double3 :=
  let A := computeIrradianceSH3Bands.A
  let dim := cm.getDimensions
  let states : Face → State :=
    fun f => computeIrradianceSH3Bands.task cm A mem State.init f dim
  Face.all.foldl (fun SH f => fun i => SH i + (states f).SH i) (fun _ => 0)

/-- Body of the `x` loop of the reconstructor's `proc` lambda. -/
def renderPreScaledSH3Bands.procTexel (cm : Cubemap) (sh : Fin 9 → double3) (mem : Memory)
    (y : ℕ) (f : Face) (data : Ptr) (x : ℕ) : Memory :=
  let s : double3 := cm.getDirectionForTexel f x y
  let c : double3 := TVec3.splat 0
  let c := c + sh 0
  let c := c + sh 1 * s.y
  let c := c + sh 2 * s.z
  let c := c + sh 3 * s.x
  let c := c + sh 4 * s.y * s.x
  let c := c + sh 5 * s.y * s.z
  let c := c + sh 6 * (3 * s.z * s.z - 1)
  let c := c + sh 7 * s.z * s.x
  let c := c + sh 8 * (s.x * s.x - s.y * s.y)
  Cubemap.writeAt mem data c

/-- Lambda `proc` of `renderPreScaledSH3Bands`: one row. -/
def renderPreScaledSH3Bands.proc (cm : Cubemap) (sh : Fin 9 → double3) (mem : Memory)
    (y : ℕ) (f : Face) (data : Ptr) (dim : ℕ) : Memory :=
  ((List.range dim).foldl
    (fun (acc : Memory × Ptr) x =>
      (renderPreScaledSH3Bands.procTexel cm sh acc.1 y f acc.2 x,
        (acc.2 + sizeofFloat3) % SIZE_WRAP))
    (mem, data)).1

/-- Task of `renderPreScaledSH3Bands` for face `f`. -/
def renderPreScaledSH3Bands.task (cm : Cubemap) (sh : Fin 9 → double3) (mem : Memory)
    (f : Face) (dim : ℕ) : Memory :=
  let image := cm.getImageForFace f
  (List.range dim).foldl
    (fun m y => renderPreScaledSH3Bands.proc cm sh m y f (image.getPixelRef 0 y) dim) mem

/-- Function `renderPreScaledSH3Bands`: the pixel memory after the six face
tasks. -/
def renderPreScaledSH3Bands (mem : Memory) (cm : Cubemap) (sh : Fin 9 → double3) : Memory :=
  let dim := cm.getDimensions
  Face.all.foldl (fun m f => renderPreScaledSH3Bands.task cm sh m f dim) mem

/-- The three coordinate axes, in the priority order `X`, `Y`, `Z`. -/
inductive Axis where
  | X | Y | Z
deriving DecidableEq, Repr

/-- Rank of an axis in the priority order `X`, then `Y`, then `Z`. -/
def Axis.priority : Axis → ℕ
  | Axis.X => 0 | Axis.Y => 1 | Axis.Z => 2

/-- Component of `d` along an axis. -/
def Axis.component (a : Axis) (d : double3) : ℝ :=
  match a with
  | Axis.X => d.x | Axis.Y => d.y | Axis.Z => d.z

/-- Axis a face lies on. -/
def Face.axis : Face → Axis
  | Face.NX => Axis.X | Face.PX => Axis.X
  | Face.NY => Axis.Y | Face.PY => Axis.Y
  | Face.NZ => Axis.Z | Face.PZ => Axis.Z

/-- Whether a face is the positive one of its axis. -/
def Face.positive : Face → Bool
  | Face.PX => true | Face.PY => true | Face.PZ => true
  | Face.NX => false | Face.NY => false | Face.NZ => false

/-- Coordinate in `[-1, 1]` of the `k`-th texel boundary of a face of
dimension `dim`: the values `x0`, `x1`, `y0`, `y1` of `solidAngle` are
`corner dim u`, `corner dim (u + 1)`, `corner dim v`, `corner dim (v + 1)`. -/
def corner (dim k : ℕ) : ℝ := 2 * (k : ℝ) * (1 / (dim : ℝ)) - 1

/-- The nine factors that multiply `color * A[i]` in the projector's `proc`
and `sh[i]` in the reconstructor's `proc`, in the order of the source. -/
def shBasis (i : Fin 9) (s : double3) : ℝ :=
  ![1, s.y, s.z, s.x, s.y * s.x, s.y * s.z, 3 * s.z * s.z - 1, s.z * s.x,
    s.x * s.x - s.y * s.y] i

/-- Every texel of all six faces of `cm` holds the colour `C`. -/
def Cubemap.IsUniform (mem : Memory) (cm : Cubemap) (C : float3) : Prop :=
  ∀ f x y, x < cm.mDimensions → y < cm.mDimensions →
    Cubemap.sampleAtPtr mem ((cm.getImageForFace f).getPixelRef x y) = C

/-- Term that the texel `(x, y)` of face `f` adds to component `a` of
coefficient `i`. -/
def shTerm (mem : Memory) (cm : Cubemap) (a : Axis) (i : Fin 9) (f : Face) (x y : ℕ) : ℝ :=
  a.component (Cubemap.sampleAtPtr mem ((cm.getImageForFace f).getPixelRef x y))
    * solidAngle cm.mDimensions x y * computeIrradianceSH3Bands.A i
    * shBasis i (cm.getDirectionForTexel f x y)

/-- Sum of a quantity over the six faces, in face-index order. -/
def sumFaces (g : Face → ℝ) : ℝ :=
  g Face.NX + g Face.PX + g Face.NY + g Face.PY + g Face.NZ + g Face.PZ

/-- Sum over the six faces of the `i`-th basis factor at texel `(x, y)`. -/
def faceBasisSum (cm : Cubemap) (i : Fin 9) (x y : ℕ) : ℝ :=
  sumFaces (fun f => shBasis i (cm.getDirectionForTexel f x y))

/-- Value `cx` of `getDirectionFor` at the centre of column `x`. -/
def texelU (cm : Cubemap) (x : ℕ) : ℝ := (((x : ℝ) + 0.5) * cm.mScale) - 1

/-- Value `cy` of `getDirectionFor` at the centre of row `y`. -/
def texelV (cm : Cubemap) (y : ℕ) : ℝ := 1 - (((y : ℝ) + 0.5) * cm.mScale)

/-- Factor `1 / l` of `getDirectionFor` at the centre of texel `(x, y)`. -/
def texelR (cm : Cubemap) (x y : ℕ) : ℝ :=
  1 / Real.sqrt (texelU cm x * texelU cm x + texelV cm y * texelV cm y + 1)

/-- A cubemap of dimension `dim` assembled as `createCubemap` of shgen.cpp
does: constructed by `Cubemap(dim)`, then every face set to an image wrapping
its own buffer of `dim * dim` texels; the six buffers lie one after the other
from address `4096`. -/
def packedCubemap (dim : ℕ) : Cubemap :=
  Face.all.foldl
    (fun cm f => cm.setImageForFace f
      (Image.wrap (4096 + f.toIndex * (dim * dim * sizeofFloat3)) dim dim))
    (Cubemap.create (fun a _ => a) dim)

/-- Pixel memory in which every texel is `C`. -/
def constMemory (C : float3) : Memory := fun _ => C

/-- Pixel memory for `packedCubemap 1` holding the band-1 function `s.y`: the
single texel of face `+Y` (address `4132`) is `(1, 1, 1)`, that of face `-Y`
(address `4120`) is `(-1, -1, -1)`, every other texel is `(0, 0, 0)`. -/
def bandOneMemory : Memory :=
  fun p => if p = 4132 then ⟨1, 1, 1⟩ else if p = 4120 then ⟨-1, -1, -1⟩ else ⟨0, 0, 0⟩

/-- Coefficient vectors of the band-1 function `s.y`: `c_1 = (1, 1, 1)`, all
others zero. -/
def bandOneCoefs : Fin 9 → double3 :=
  fun i => if i = 1 then ⟨1, 1, 1⟩ else ⟨0, 0, 0⟩

/-- The texels of `cm` are exactly the band-at-most-2 function with the nine
coefficient vectors `c`: texel `(f, x, y)` is the sum over `i` of
`c i * basis_i (getDirectionFor f x y)`, component by component. -/
def Cubemap.IsSHFunction (mem : Memory) (cm : Cubemap) (c : Fin 9 → double3) : Prop :=
  ∀ f x y, x < cm.mDimensions → y < cm.mDimensions → ∀ a : Axis,
    a.component (Cubemap.sampleAtPtr mem ((cm.getImageForFace f).getPixelRef x y)) =
      ∑ i : Fin 9, a.component (c i) * shBasis i (cm.getDirectionForTexel f x y)

/-- Value `c` that the reconstructor's `proc` writes for the direction `s`. -/
def shEval (sh : Fin 9 → double3) (s : double3) : double3 :=
  let c : double3 := TVec3.splat 0
  let c := c + sh 0
  let c := c + sh 1 * s.y
  let c := c + sh 2 * s.z
  let c := c + sh 3 * s.x
  let c := c + sh 4 * s.y * s.x
  let c := c + sh 5 * s.y * s.z
  let c := c + sh 6 * (3 * s.z * s.z - 1)
  let c := c + sh 7 * s.z * s.x
  let c := c + sh 8 * (s.x * s.x - s.y * s.y)
  c

/-- A four-by-four cubemap as `Cubemap(4)` constructs it, used as a concrete
input. -/
def exampleCubemap : Cubemap := Cubemap.create (fun a _ => a) 4

/-- Reference map of the specification for the direction of a face coordinate:
with `scale = 2 / dimension`, `cx = x * scale - 1` and `cy = 1 - y * scale`, the
raw vector of the face's row of the table, divided by `sqrt (cx^2 + cy^2 + 1)`. -/
def directionForSpec (dimension : ℕ) (face : Face) (x y : ℝ) : double3 :=
  let scale : ℝ := 2 / (dimension : ℝ)
  let cx := x * scale - 1
  let cy := 1 - y * scale
  let n := Real.sqrt (cx ^ 2 + cy ^ 2 + 1)
  match face with
  | Face.PX => ⟨1 / n, cy / n, -cx / n⟩
  | Face.NX => ⟨-1 / n, cy / n, cx / n⟩
  | Face.PY => ⟨cx / n, 1 / n, -cy / n⟩
  | Face.NY => ⟨cx / n, -1 / n, cy / n⟩
  | Face.PZ => ⟨cx / n, cy / n, 1 / n⟩
  | Face.NZ => ⟨-cx / n, cy / n, -1 / n⟩

/-- Sum over `i = 0 .. 8` of `sh[i] * basis_i (s)`, component by component: the
value the specification gives for the reconstructed texel of direction `s`. -/
def shSum (sh : Fin 9 → double3) (s : double3) : double3 :=
  ⟨∑ i : Fin 9, (sh i).x * shBasis i s, ∑ i : Fin 9, (sh i).y * shBasis i s,
    ∑ i : Fin 9, (sh i).z * shBasis i s⟩

/-- The texels `(f, x, y)` of a cubemap in the order the reconstructor visits
them: faces in index order, rows `y`, then columns `x`. -/
def Cubemap.texelKeys (cm : Cubemap) : List (Face × ℕ × ℕ) :=
  Face.all.flatMap fun f =>
    (List.range cm.mDimensions).flatMap fun y =>
      (List.range cm.mDimensions).map fun x => (f, x, y)

/-- Address of the texel `k = (f, x, y)`. -/
def Cubemap.texelAddr (cm : Cubemap) (k : Face × ℕ × ℕ) : Ptr :=
  (cm.getImageForFace k.1).getPixelRef k.2.1 k.2.2

/-- Direction of the centre of the texel `k = (f, x, y)`. -/
def Cubemap.texelDir (cm : Cubemap) (k : Face × ℕ × ℕ) : double3 :=
  cm.getDirectionForTexel k.1 k.2.1 k.2.2

/-- No two texels of the cubemap share an address: the six face buffers do not
overlap and the rows of a face do not overlap. -/
def Cubemap.TexelsDistinct (cm : Cubemap) : Prop :=
  ∀ k ∈ cm.texelKeys, ∀ k' ∈ cm.texelKeys, cm.texelAddr k = cm.texelAddr k' → k = k'

/-- Program state a call `renderPreScaledSH3Bands(cm, sh)` works on: the
`Cubemap` object passed by reference (its dimension, scale and six face
descriptors), the coefficient array, and the pixel memory. -/
structure RenderState where
  cm : Cubemap
  sh : Fin 9 → double3
  mem : Memory

/-- Lambda `proc` of `renderPreScaledSH3Bands` on the program state: every
iteration reads `cm` and `sh` from the current state and stores one texel
through `Cubemap::writeAt`. -/
def renderPreScaledSH3Bands.procState (st : RenderState) (y : ℕ) (f : Face) (data : Ptr)
    (dim : ℕ) : RenderState :=
  ((List.range dim).foldl
    (fun (acc : RenderState × Ptr) x =>
      ({ acc.1 with
          mem := renderPreScaledSH3Bands.procTexel acc.1.cm acc.1.sh acc.1.mem y f acc.2 x },
        (acc.2 + sizeofFloat3) % SIZE_WRAP))
    (st, data)).1

/-- Task of `renderPreScaledSH3Bands` for face `f` on the program state. -/
def renderPreScaledSH3Bands.taskState (st : RenderState) (f : Face) (dim : ℕ) : RenderState :=
  (List.range dim).foldl
    (fun s y => renderPreScaledSH3Bands.procState s y f
      ((s.cm.getImageForFace f).getPixelRef 0 y) dim) st

/-- Function `renderPreScaledSH3Bands` on the program state: `dim` is read once,
then the six face tasks run. -/
def renderPreScaledSH3Bands.run (st : RenderState) : RenderState :=
  let dim := st.cm.getDimensions
  Face.all.foldl (fun s f => renderPreScaledSH3Bands.taskState s f dim) st

/-- Pixel memory whose texel at every address is `α` times the texel of `m1`
plus `β` times the texel of `m2`. -/
def mixMemory (α β : ℝ) (m1 m2 : Memory) : Memory := fun p => m1 p * α + m2 p * β

/-- Unnormalised direction of the point `(cx, cy)` of a face: the table of
`getDirectionFor`. -/
def faceVector (face : Face) (cx cy : ℝ) : double3 :=
  match face with
  | Face.PX => ⟨1, cy, -cx⟩
  | Face.NX => ⟨-1, cy, cx⟩
  | Face.PY => ⟨cx, 1, -cy⟩
  | Face.NY => ⟨cx, -1, cy⟩
  | Face.PZ => ⟨cx, cy, 1⟩
  | Face.NZ => ⟨-cx, cy, -1⟩

/-- Class invariant of `Cubemap`: `mScale` is `2.0 / mDimensions`, as
`resetDimensions` (the only writer of both members) leaves them. -/
def Cubemap.WellFormed (cm : Cubemap) : Prop := cm.mScale = 2 / (cm.mDimensions : ℝ)

end

/-! ## Command line of shgen (shgen.cpp) and the wildcard matcher (fsutil.cpp) -/

/-- Test `arg[0] == '-'` on a C string; the first char of an empty string is the terminator. -/
def firstIsDash (arg : String) : Bool := arg.data.head? == some '-'

/-- A `std::map<std::string, std::vector<std::string>>`: association list kept sorted by key. -/
abbrev Options := List (String × List String)

/-- Action `f(options[key])` of `operator[]`: the entry is created empty when the key is absent;
keys are kept in the lexicographic order of their chars. -/
def Options.update (f : List String → List String) (key : String) : Options → Options
  | [] => [(key, f [])]
  | (k, v) :: rest =>
    if key = k then (k, f v) :: rest
    else if key.data < k.data then (key, f []) :: (k, v) :: rest
    else (k, v) :: Options.update f key rest

/-- Local variables of `parseOptions`; `unknown` lists the arguments reported on stdout. -/
structure ParseState where
  argPos : ℕ
  options : Options
  suggestHelp : Bool
  unknown : List String
deriving DecidableEq

/-- Inner loop `while (pos+1 < argc) { if (argv[pos+1][0] == '-') break; ++pos; }`, run on the
arguments after position `pos`. -/
def parseOptions.scan : List String → ℕ → ℕ
  | [], pos => pos
  | a :: rest, pos => if firstIsDash a then pos else parseOptions.scan rest (pos + 1)

/-- One iteration of the body of `while (argPos < argc)` in `parseOptions`. -/
def parseOptions.step (argv : List String) (st : ParseState) : ParseState :=
  let arg := argv.getD st.argPos ""
  if !firstIsDash arg then
    { st with suggestHelp := true, unknown := st.unknown ++ [arg] }
  else
    let pos := parseOptions.scan (argv.drop (st.argPos + 1)) st.argPos
    let count := pos - st.argPos
    if count ≤ 0 then
      { st with options := st.options.update (fun _ => []) arg, argPos := st.argPos + 1 }
    else
      { st with
        options := ((List.range count).map (fun k => st.argPos + 1 + k)).foldl
          (fun o i => o.update (fun v => v ++ [argv.getD i ""]) arg) st.options,
        argPos := st.argPos + (1 + count) }

/-- Loop `while (argPos < argc)` of `parseOptions`; `none` when the fuel runs out. -/
def parseOptions.loop (argv : List String) : ℕ → ParseState → Option ParseState
  | 0, _ => none
  | fuel + 1, st =>
    if st.argPos < argv.length then parseOptions.loop argv fuel (parseOptions.step argv st)
    else some st

/-- Function `parseOptions(argc, argv)` with `argc = argv.length`: the final state holds the
returned map. -/
def parseOptions (fuel : ℕ) (argv : List String) : Option ParseState :=
  parseOptions.loop argv fuel { argPos := 1, options := [], suggestHelp := false, unknown := [] }

/-- Struct `Spec` of shgen.cpp with its default member initialisers. -/
structure Spec where
  source : String := ""
  output : String := "diffuse.json"
  diffuse : String := "diffuse.dds"
  verboseSpecified : Bool := false
deriving DecidableEq

/-- Locals of `parseArguments` that the loop over the options updates. -/
structure ArgState where
  spec : Spec
  inputSpecified : Bool
  outputSpecified : Bool
deriving DecidableEq

/-- Loop `for (auto& kv : options)` of `parseArguments`: `Except.error 1` is the `ABORT` of the
help case, `continue` goes on with the remaining entries. -/
def parseArguments.scanOptions : Options → ArgState → Except ℤ ArgState
  | [], st => .ok st
  | (k, v) :: rest, st =>
    if k = "-i" ∨ k = "--input" then
      if v.length < 1 then parseArguments.scanOptions rest st
      else parseArguments.scanOptions rest
        { st with inputSpecified := true, spec := { st.spec with source := v.getD 0 "" } }
    else if k = "-o" ∨ k = "--output" then
      if v.length < 1 then parseArguments.scanOptions rest st
      else parseArguments.scanOptions rest
        { st with outputSpecified := true, spec := { st.spec with output := v.getD 0 "" } }
    else if k = "-v" ∨ k = "--verbose" then
      parseArguments.scanOptions rest { st with spec := { st.spec with verboseSpecified := true } }
    else if k = "-h" ∨ k = "--help" then .error 1
    else parseArguments.scanOptions rest st

/-- Function `parseArguments(spec, argc, argv)`: the returned status with the updated `spec`;
`none` when `parseOptions` does not return within the fuel. The text written by `puts` is not
modelled. -/
def parseArguments (fuel : ℕ) (spec : Spec) (argv : List String) : Option (ℤ × Spec) :=
  match parseOptions fuel argv with
  | none => none
  | some ps =>
    match parseArguments.scanOptions ps.options
        { spec := spec, inputSpecified := false, outputSpecified := false } with
    | .error status => some (status, spec)
    | .ok st => if !st.inputSpecified then some (1, st.spec) else some (0, st.spec)

/-- Char read at the terminator of a string. -/
def NUL : Char := Char.ofNat 0

/-- Inner loop `while (strIt != tmpStr.end() && *strIt != *patIt) ++strIt;` of `match`, run on
the chars from `strIt` on. -/
def matchStr.scan (c : Char) : List Char → ℕ → ℕ
  | [], strIt => strIt
  | d :: rest, strIt => if d ≠ c then matchStr.scan c rest (strIt + 1) else strIt

/-- Iterators of `match` as indices; the index `length` is `end()`. -/
structure MatchState where
  strIt : ℕ
  patIt : ℕ
  lastWildcardIt : ℕ
deriving DecidableEq

/-- Loop of `match`; `none` when the fuel runs out. -/
def matchStr.loop (str pat : List Char) : ℕ → MatchState → Option Bool
  | 0, _ => none
  | fuel + 1, st =>
    if st.strIt ≠ str.length ∧ st.patIt ≠ pat.length then
      if pat.getD st.patIt NUL = '*' then
        if st.patIt + 1 = pat.length then
          matchStr.loop str pat fuel
            { strIt := str.length, patIt := st.patIt + 1, lastWildcardIt := st.patIt }
        else
          matchStr.loop str pat fuel
            { strIt := matchStr.scan (pat.getD (st.patIt + 1) NUL) (str.drop st.strIt) st.strIt,
              patIt := st.patIt + 1, lastWildcardIt := st.patIt }
      else
        if pat.getD st.patIt NUL ≠ str.getD st.strIt NUL then
          if st.lastWildcardIt ≠ pat.length then
            matchStr.loop str pat fuel
              { st with patIt := st.lastWildcardIt, lastWildcardIt := pat.length }
          else some false
        else
          matchStr.loop str pat fuel { st with patIt := st.patIt + 1, strIt := st.strIt + 1 }
    else some (decide (st.patIt = pat.length ∧ st.strIt = str.length))

/-- Function `match(str, pattern)` of fsutil.cpp, a string being the list of its chars. -/
def matchStr (fuel : ℕ) (str pattern : List Char) : Option Bool :=
  matchStr.loop str pattern fuel { strIt := 0, patIt := 0, lastWildcardIt := pattern.length }

/-- Glob semantics as the specification words it: a star stands for any, possibly empty,
sequence of chars (the rest of the pattern matches some suffix of the string), every other
char stands for itself. -/
def globMatches : List Char → List Char → Bool
  | [], str => str.isEmpty
  | p :: ps, str =>
    if p = '*' then str.tails.any (fun t => globMatches ps t)
    else
      match str with
      | [] => false
      | c :: t => decide (c = p) && globMatches ps t

/-- No entry of the map gives a value to an input flag. -/
def Options.NoInput (o : Options) : Prop :=
  ∀ k v, (k, v) ∈ o → (k = "-i" ∨ k = "--input") → v = []

/-- No input flag of the argument vector is followed by a value. -/
def NoInputValue (argv : List String) : Prop :=
  ∀ j, 1 ≤ j → j + 1 < argv.length → (argv.getD j "" = "-i" ∨ argv.getD j "" = "--input") →
    firstIsDash (argv.getD (j + 1) "") = true


/-! ## Vector components -/

namespace math.TVec3

@[simp] theorem add_x (a b : TVec3 ℝ) : (a + b).x = a.x + b.x := rfl
@[simp] theorem add_y (a b : TVec3 ℝ) : (a + b).y = a.y + b.y := rfl
@[simp] theorem add_z (a b : TVec3 ℝ) : (a + b).z = a.z + b.z := rfl
@[simp] theorem mul_x (a : TVec3 ℝ) (b : ℝ) : (a * b).x = a.x * b := rfl
@[simp] theorem mul_y (a : TVec3 ℝ) (b : ℝ) : (a * b).y = a.y * b := rfl
@[simp] theorem mul_z (a : TVec3 ℝ) (b : ℝ) : (a * b).z = a.z * b := rfl
@[simp] theorem zero_x : (0 : TVec3 ℝ).x = 0 := rfl
@[simp] theorem zero_y : (0 : TVec3 ℝ).y = 0 := rfl
@[simp] theorem zero_z : (0 : TVec3 ℝ).z = 0 := rfl
@[simp] theorem splat_x (v : ℝ) : (splat v).x = v := rfl
@[simp] theorem splat_y (v : ℝ) : (splat v).y = v := rfl
@[simp] theorem splat_z (v : ℝ) : (splat v).z = v := rfl

end math.TVec3

/-! ## Cubemap addressing -/

theorem Cubemap.wellFormed_create (nextafter : ℝ → ℝ → ℝ) (dim : ℕ) :
    (Cubemap.create nextafter dim).WellFormed := rfl

theorem Cubemap.wellFormed_setImageForFace (cm : Cubemap) (f : Face) (img : Image)
    (h : cm.WellFormed) : (cm.setImageForFace f img).WellFormed := h

theorem Cubemap.wellFormed_resetDimensions (nextafter : ℝ → ℝ → ℝ) (cm : Cubemap) (dim : ℕ) :
    (cm.resetDimensions nextafter dim).WellFormed := rfl

theorem Cubemap.mDimensions_create (nextafter : ℝ → ℝ → ℝ) (dim : ℕ) :
    (Cubemap.create nextafter dim).mDimensions = dim := rfl

/-- Texel coordinate `v * dim` scaled by `2 / dim` and recentred gives back
the ratio `sc / ma` it was built from. -/
theorem scale_back (v : ℝ) (n : ℕ) (hn : 1 ≤ n) :
    ((v + 1) * 0.5 * (n : ℝ)) * (2 / (n : ℝ)) - 1 = v := by
  have h : (n : ℝ) ≠ 0 := by positivity
  field_simp
  ring

theorem scale_back_neg (v : ℝ) (n : ℕ) (hn : 1 ≤ n) :
    1 - ((v + 1) * 0.5 * (n : ℝ)) * (2 / (n : ℝ)) = -v := by
  have h := scale_back v n hn
  linarith

/-- Length of the unnormalised face vector `(u, v, 1)` when `m * (u, v, 1)` is
the unit vector `(p, q, m)`. -/
theorem sqrt_face (u v m p q : ℝ) (hm : 0 < m) (hu : u * m = p) (hv : v * m = q)
    (h : p ^ 2 + q ^ 2 + m ^ 2 = 1) :
    Real.sqrt (u * u + v * v + 1) = 1 / m := by
  have e : u * u + v * v + 1 = (1 / m) ^ 2 := by
    have hm2 : m ≠ 0 := hm.ne.symm
    subst hu hv
    field_simp
    linear_combination h
  rw [e, Real.sqrt_sq (by positivity)]

/-- The component of largest magnitude of a unit vector is not zero. -/
theorem dominant_pos (a b c : ℝ) (h : a ^ 2 + b ^ 2 + c ^ 2 = 1) (hb : |b| ≤ |a|)
    (hc : |c| ≤ |a|) : 0 < |a| := by
  rcases (abs_nonneg a).lt_or_eq with h0 | h0
  · exact h0
  · exfalso
    have ha : a = 0 := abs_eq_zero.mp h0.symm
    have hb0 : b = 0 := abs_eq_zero.mp (le_antisymm (by rw [h0]; exact hb) (abs_nonneg b))
    have hc0 : c = 0 := abs_eq_zero.mp (le_antisymm (by rw [h0]; exact hc) (abs_nonneg c))
    rw [ha, hb0, hc0] at h
    norm_num at h

/-- C1. Face-addressing round trip: for a cubemap of dimension at least 1 and a
unit-length direction `d`, the direction of the address of `d`, taken at the
texel coordinates `s * dim` and `t * dim`, is `d` itself. -/
theorem getDirectionFor_getAddressFor (cm : Cubemap) (d : double3)
    (hdim : 1 ≤ cm.mDimensions) (hcm : cm.WellFormed)
    (hd : d.x ^ 2 + d.y ^ 2 + d.z ^ 2 = 1) :
    cm.getDirectionFor (Cubemap.getAddressFor d).face
      ((Cubemap.getAddressFor d).s * cm.mDimensions)
      ((Cubemap.getAddressFor d).t * cm.mDimensions) = d := by
  obtain ⟨x, y, z⟩ := d
  simp only at hd
  unfold Cubemap.getAddressFor Cubemap.getAddressForMajor Cubemap.getDirectionFor
  rw [hcm]
  simp only
  split_ifs with h1 h2 h3 h4 h5
  · have hm : 0 < |x| := dominant_pos x y z hd h1.1 h1.2
    rw [abs_of_nonneg h2] at hm ⊢
    simp only [scale_back _ _ hdim, scale_back_neg _ _ hdim]
    rw [sqrt_face (-z / x) (-(-y / x)) x (-z) y hm (by field_simp) (by field_simp)
      (by linear_combination hd)]
    ext <;> simp <;> field_simp
  · have hm : 0 < |x| := dominant_pos x y z hd h1.1 h1.2
    rw [abs_of_neg (not_le.mp h2)] at hm ⊢
    have hne : x ≠ 0 := fun h => by simp [h] at hm
    simp only [scale_back _ _ hdim, scale_back_neg _ _ hdim]
    rw [sqrt_face (z / -x) (-(-y / -x)) (-x) z y hm (by field_simp) (by field_simp)
      (by linear_combination hd)]
    ext <;> simp <;> field_simp
  · have hm : 0 < |y| := dominant_pos y x z (by linear_combination hd) h3.1 h3.2
    rw [abs_of_nonneg h4] at hm ⊢
    simp only [scale_back _ _ hdim, scale_back_neg _ _ hdim]
    rw [sqrt_face (x / y) (-(z / y)) y x (-z) hm (by field_simp) (by field_simp)
      (by linear_combination hd)]
    ext <;> simp <;> field_simp
  · have hm : 0 < |y| := dominant_pos y x z (by linear_combination hd) h3.1 h3.2
    rw [abs_of_neg (not_le.mp h4)] at hm ⊢
    have hne : y ≠ 0 := fun h => by simp [h] at hm
    simp only [scale_back _ _ hdim, scale_back_neg _ _ hdim]
    rw [sqrt_face (x / -y) (-(-z / -y)) (-y) x z hm (by field_simp) (by field_simp)
      (by linear_combination hd)]
    ext <;> simp <;> field_simp
  · have hz : |x| ≤ |z| ∧ |y| ≤ |z| := by
      rcases le_total |x| |y| with hxy | hxy
      · have hyz : |y| ≤ |z| := by
          by_contra hc
          exact h3 ⟨hxy, (not_le.mp hc).le⟩
        exact ⟨hxy.trans hyz, hyz⟩
      · have hxz : |x| ≤ |z| := by
          by_contra hc
          exact h1 ⟨hxy, (not_le.mp hc).le⟩
        exact ⟨hxz, hxy.trans hxz⟩
    have hm : 0 < |z| := dominant_pos z x y (by linear_combination hd) hz.1 hz.2
    rw [abs_of_nonneg h5] at hm ⊢
    simp only [scale_back _ _ hdim, scale_back_neg _ _ hdim]
    rw [sqrt_face (x / z) (-(-y / z)) z x y hm (by field_simp) (by field_simp)
      (by linear_combination hd)]
    ext <;> simp <;> field_simp
  · have hz : |x| ≤ |z| ∧ |y| ≤ |z| := by
      rcases le_total |x| |y| with hxy | hxy
      · have hyz : |y| ≤ |z| := by
          by_contra hc
          exact h3 ⟨hxy, (not_le.mp hc).le⟩
        exact ⟨hxy.trans hyz, hyz⟩
      · have hxz : |x| ≤ |z| := by
          by_contra hc
          exact h1 ⟨hxy, (not_le.mp hc).le⟩
        exact ⟨hxz, hxy.trans hxz⟩
    have hm : 0 < |z| := dominant_pos z x y (by linear_combination hd) hz.1 hz.2
    rw [abs_of_neg (not_le.mp h5)] at hm ⊢
    have hne : z ≠ 0 := fun h => by simp [h] at hm
    simp only [scale_back _ _ hdim, scale_back_neg _ _ hdim]
    rw [sqrt_face (-x / -z) (-(-y / -z)) (-z) (-x) y hm (by field_simp) (by field_simp)
      (by linear_combination hd)]
    ext <;> simp <;> field_simp

/-- C1 at the unit vector `(3/5, 4/5, 0)` and a cubemap of dimension 4. -/
theorem getDirectionFor_getAddressFor_witness :
    exampleCubemap.getDirectionFor (Cubemap.getAddressFor ⟨3 / 5, 4 / 5, 0⟩).face
      ((Cubemap.getAddressFor ⟨3 / 5, 4 / 5, 0⟩).s * exampleCubemap.mDimensions)
      ((Cubemap.getAddressFor ⟨3 / 5, 4 / 5, 0⟩).t * exampleCubemap.mDimensions)
      = ⟨3 / 5, 4 / 5, 0⟩ :=
  getDirectionFor_getAddressFor exampleCubemap ⟨3 / 5, 4 / 5, 0⟩
    (by simp [exampleCubemap, Cubemap.create, Cubemap.resetDimensions])
    (Cubemap.wellFormed_create _ 4) (by norm_num)

/-- The last branch of the face cascade is reached only when `z` dominates
strictly. -/
theorem cascade_else (x y z : ℝ) (h1 : ¬(|x| ≥ |y| ∧ |x| ≥ |z|))
    (h3 : ¬(|y| ≥ |x| ∧ |y| ≥ |z|)) : |x| < |z| ∧ |y| < |z| := by
  rcases le_total |x| |y| with hxy | hxy
  · have hyz : |y| < |z| := by
      by_contra hc
      exact h3 ⟨hxy, not_lt.mp hc⟩
    exact ⟨lt_of_le_of_lt hxy hyz, hyz⟩
  · have hxz : |x| < |z| := by
      by_contra hc
      exact h1 ⟨hxy, not_lt.mp hc⟩
    exact ⟨hxz, lt_of_le_of_lt hxy hxz⟩

/-- C7. The face returned by `getAddressFor` lies on an axis whose component of
`d` has the largest absolute value; among axes of equal magnitude it is the
first in the order X, Y, Z; and it is the positive face exactly when that
component is `>= 0`. -/
theorem getAddressFor_face_dominant (d : double3) :
    (∀ a : Axis, |a.component d| ≤ |(Cubemap.getAddressFor d).face.axis.component d|) ∧
    (∀ a : Axis, |a.component d| = |(Cubemap.getAddressFor d).face.axis.component d| →
      (Cubemap.getAddressFor d).face.axis.priority ≤ a.priority) ∧
    ((Cubemap.getAddressFor d).face.positive = true ↔
      0 ≤ (Cubemap.getAddressFor d).face.axis.component d) := by
  obtain ⟨x, y, z⟩ := d
  unfold Cubemap.getAddressFor Cubemap.getAddressForMajor
  simp only
  split_ifs with h1 h2 h3 h4 h5
  · refine ⟨fun a => ?_, fun a _ => ?_, ?_⟩
    · cases a <;> simp [Face.axis, Axis.component, h1.1, h1.2]
    · simp [Face.axis, Axis.priority]
    · simpa [Face.axis, Axis.component, Face.positive] using h2
  · refine ⟨fun a => ?_, fun a _ => ?_, ?_⟩
    · cases a <;> simp [Face.axis, Axis.component, h1.1, h1.2]
    · simp [Face.axis, Axis.priority]
    · simpa [Face.axis, Axis.component, Face.positive] using h2
  · have hx : |x| < |y| := by
      by_contra hc
      exact h1 ⟨not_lt.mp hc, (not_lt.mp hc).trans' h3.2⟩
    refine ⟨fun a => ?_, fun a ha => ?_, ?_⟩
    · cases a <;> simp [Face.axis, Axis.component, h3.1, h3.2]
    · cases a <;> simp [Face.axis, Axis.priority, Axis.component] at ha ⊢
      exact absurd ha hx.ne
    · simpa [Face.axis, Axis.component, Face.positive] using h4
  · have hx : |x| < |y| := by
      by_contra hc
      exact h1 ⟨not_lt.mp hc, (not_lt.mp hc).trans' h3.2⟩
    refine ⟨fun a => ?_, fun a ha => ?_, ?_⟩
    · cases a <;> simp [Face.axis, Axis.component, h3.1, h3.2]
    · cases a <;> simp [Face.axis, Axis.priority, Axis.component] at ha ⊢
      exact absurd ha hx.ne
    · simpa [Face.axis, Axis.component, Face.positive] using h4
  · obtain ⟨hx, hy⟩ := cascade_else x y z h1 h3
    refine ⟨fun a => ?_, fun a ha => ?_, ?_⟩
    · cases a <;> simp [Face.axis, Axis.component, hx.le, hy.le]
    · cases a <;> simp [Face.axis, Axis.priority, Axis.component] at ha ⊢
      · exact absurd ha hx.ne
      · exact absurd ha hy.ne
    · simpa [Face.axis, Axis.component, Face.positive] using h5
  · obtain ⟨hx, hy⟩ := cascade_else x y z h1 h3
    refine ⟨fun a => ?_, fun a ha => ?_, ?_⟩
    · cases a <;> simp [Face.axis, Axis.component, hx.le, hy.le]
    · cases a <;> simp [Face.axis, Axis.priority, Axis.component] at ha ⊢
      · exact absurd ha hx.ne
      · exact absurd ha hy.ne
    · simpa [Face.axis, Axis.component, Face.positive] using h5

/-- C8. Each of the six axis-aligned unit directions is addressed to the face of
its name, at the face centre `s = 0.5`, `t = 0.5`. -/
theorem getAddressFor_axes :
    ((Cubemap.getAddressFor ⟨1, 0, 0⟩).face = Face.PX ∧
      (Cubemap.getAddressFor ⟨1, 0, 0⟩).s = 0.5 ∧ (Cubemap.getAddressFor ⟨1, 0, 0⟩).t = 0.5) ∧
    ((Cubemap.getAddressFor ⟨-1, 0, 0⟩).face = Face.NX ∧
      (Cubemap.getAddressFor ⟨-1, 0, 0⟩).s = 0.5 ∧ (Cubemap.getAddressFor ⟨-1, 0, 0⟩).t = 0.5) ∧
    ((Cubemap.getAddressFor ⟨0, 1, 0⟩).face = Face.PY ∧
      (Cubemap.getAddressFor ⟨0, 1, 0⟩).s = 0.5 ∧ (Cubemap.getAddressFor ⟨0, 1, 0⟩).t = 0.5) ∧
    ((Cubemap.getAddressFor ⟨0, -1, 0⟩).face = Face.NY ∧
      (Cubemap.getAddressFor ⟨0, -1, 0⟩).s = 0.5 ∧ (Cubemap.getAddressFor ⟨0, -1, 0⟩).t = 0.5) ∧
    ((Cubemap.getAddressFor ⟨0, 0, 1⟩).face = Face.PZ ∧
      (Cubemap.getAddressFor ⟨0, 0, 1⟩).s = 0.5 ∧ (Cubemap.getAddressFor ⟨0, 0, 1⟩).t = 0.5) ∧
    ((Cubemap.getAddressFor ⟨0, 0, -1⟩).face = Face.NZ ∧
      (Cubemap.getAddressFor ⟨0, 0, -1⟩).s = 0.5 ∧ (Cubemap.getAddressFor ⟨0, 0, -1⟩).t = 0.5) := by
  refine ⟨?_, ?_, ?_, ?_, ?_, ?_⟩ <;>
    (simp [Cubemap.getAddressFor, Cubemap.getAddressForMajor] <;> norm_num)

/-- After the face cascade `ma` is the largest of the three magnitudes, and
`sc`, `tc` are the two other components up to sign. -/
theorem getAddressForMajor_bounds (d : double3) (hd : d.x ≠ 0 ∨ d.y ≠ 0 ∨ d.z ≠ 0) :
    0 < (Cubemap.getAddressForMajor d).ma ∧
    |(Cubemap.getAddressForMajor d).sc| ≤ (Cubemap.getAddressForMajor d).ma ∧
    |(Cubemap.getAddressForMajor d).tc| ≤ (Cubemap.getAddressForMajor d).ma := by
  obtain ⟨x, y, z⟩ := d
  simp only at hd
  have hpos : ∀ a b c : ℝ, (a ≠ 0 ∨ b ≠ 0 ∨ c ≠ 0) → |b| ≤ |a| → |c| ≤ |a| → 0 < |a| := by
    intro a b c h hb hc
    rcases (abs_nonneg a).lt_or_eq with h0 | h0
    · exact h0
    · exfalso
      have ha : a = 0 := abs_eq_zero.mp h0.symm
      have hb0 : b = 0 := abs_eq_zero.mp (le_antisymm (by rw [h0]; exact hb) (abs_nonneg b))
      have hc0 : c = 0 := abs_eq_zero.mp (le_antisymm (by rw [h0]; exact hc) (abs_nonneg c))
      rcases h with h | h | h
      · exact h ha
      · exact h hb0
      · exact h hc0
  unfold Cubemap.getAddressForMajor
  simp only
  split_ifs with h1 h2 h3 h4 h5
  · exact ⟨hpos x y z hd h1.1 h1.2, by simpa using h1.2, by simpa using h1.1⟩
  · exact ⟨hpos x y z hd h1.1 h1.2, by simpa using h1.2, by simpa using h1.1⟩
  · exact ⟨hpos y x z (by tauto) h3.1 h3.2, by simpa using h3.1, by simpa using h3.2⟩
  · exact ⟨hpos y x z (by tauto) h3.1 h3.2, by simpa using h3.1, by simpa using h3.2⟩
  · obtain ⟨hx, hy⟩ := cascade_else x y z h1 h3
    exact ⟨hpos z x y (by tauto) hx.le hy.le, by simpa using hx.le, by simpa using hy.le⟩
  · obtain ⟨hx, hy⟩ := cascade_else x y z h1 h3
    exact ⟨hpos z x y (by tauto) hx.le hy.le, by simpa using hx.le, by simpa using hy.le⟩

/-- A ratio of magnitude at most one, shifted and halved, lies in `[0, 1]`. -/
theorem unit_interval_of_ratio (c m : ℝ) (hm : 0 < m) (hc : |c| ≤ m) :
    0 ≤ (c / m + 1) * 0.5 ∧ (c / m + 1) * 0.5 ≤ 1 := by
  have h1 : -1 ≤ c / m := by
    rw [le_div_iff₀ hm]
    have := neg_abs_le c
    linarith
  have h2 : c / m ≤ 1 := by
    rw [div_le_iff₀ hm]
    have := le_abs_self c
    linarith
  constructor <;> norm_num <;> linarith

/-- C9. For a non-zero direction the divisor `ma` of `getAddressFor` is strictly
positive and at least `|sc|` and `|tc|`, so the returned `s` and `t` lie in
`[0, 1]`. -/
theorem getAddressFor_unit_square (d : double3) (hd : d.x ≠ 0 ∨ d.y ≠ 0 ∨ d.z ≠ 0) :
    (0 < (Cubemap.getAddressForMajor d).ma ∧
      |(Cubemap.getAddressForMajor d).sc| ≤ (Cubemap.getAddressForMajor d).ma ∧
      |(Cubemap.getAddressForMajor d).tc| ≤ (Cubemap.getAddressForMajor d).ma) ∧
    (0 ≤ (Cubemap.getAddressFor d).s ∧ (Cubemap.getAddressFor d).s ≤ 1) ∧
    (0 ≤ (Cubemap.getAddressFor d).t ∧ (Cubemap.getAddressFor d).t ≤ 1) := by
  obtain ⟨hma, hsc, htc⟩ := getAddressForMajor_bounds d hd
  exact ⟨⟨hma, hsc, htc⟩, unit_interval_of_ratio _ _ hma hsc, unit_interval_of_ratio _ _ hma htc⟩

/-- C9 at the direction `(1, -1, 1/2)`. -/
theorem getAddressFor_unit_square_witness :
    (0 < (Cubemap.getAddressForMajor ⟨1, -1, 1 / 2⟩).ma ∧
      |(Cubemap.getAddressForMajor ⟨1, -1, 1 / 2⟩).sc| ≤ (Cubemap.getAddressForMajor ⟨1, -1, 1 / 2⟩).ma ∧
      |(Cubemap.getAddressForMajor ⟨1, -1, 1 / 2⟩).tc| ≤ (Cubemap.getAddressForMajor ⟨1, -1, 1 / 2⟩).ma) ∧
    (0 ≤ (Cubemap.getAddressFor ⟨1, -1, 1 / 2⟩).s ∧ (Cubemap.getAddressFor ⟨1, -1, 1 / 2⟩).s ≤ 1) ∧
    (0 ≤ (Cubemap.getAddressFor ⟨1, -1, 1 / 2⟩).t ∧ (Cubemap.getAddressFor ⟨1, -1, 1 / 2⟩).t ≤ 1) :=
  getAddressFor_unit_square ⟨1, -1, 1 / 2⟩ (Or.inl (by norm_num))

/-- C10. For a cubemap of dimension `dim >= 1` (a `size_t`), the texel indices
that `sampleAt` computes for any direction are both below `dim`; when `s` (or
`t`) is exactly `1.0` the index is the last one, `dim - 1`. -/
theorem sampleAtIndex_lt (cm : Cubemap) (d : double3)
    (hdim : 1 ≤ cm.mDimensions) (hsz : cm.mDimensions < SIZE_WRAP) :
    ((cm.sampleAtIndex d).1 < cm.mDimensions ∧ (cm.sampleAtIndex d).2 < cm.mDimensions) ∧
    ((Cubemap.getAddressFor d).s = 1 → (cm.sampleAtIndex d).1 = cm.mDimensions - 1) ∧
    ((Cubemap.getAddressFor d).t = 1 → (cm.sampleAtIndex d).2 = cm.mDimensions - 1) := by
  have hw : (cm.mDimensions + SIZE_WRAP - 1) % SIZE_WRAP = cm.mDimensions - 1 := by
    have e : cm.mDimensions + SIZE_WRAP - 1 = (cm.mDimensions - 1) + SIZE_WRAP := by omega
    rw [e, Nat.add_mod_right, Nat.mod_eq_of_lt (by omega)]
  have hfl : Cubemap.toSizeT (1 * (cm.mDimensions : ℝ)) = cm.mDimensions := by
    unfold Cubemap.toSizeT
    rw [one_mul, Nat.floor_natCast, Nat.mod_eq_of_lt hsz]
  unfold Cubemap.sampleAtIndex
  simp only [hw]
  refine ⟨⟨?_, ?_⟩, fun hs => ?_, fun ht => ?_⟩
  · exact lt_of_le_of_lt (min_le_right _ _) (by omega)
  · exact lt_of_le_of_lt (min_le_right _ _) (by omega)
  · rw [hs, hfl]
    exact min_eq_right (by omega)
  · rw [ht, hfl]
    exact min_eq_right (by omega)

/-- C10 at the cube corner `(1, -1, -1)`, where `s = t = 1`, and dimension 4. -/
theorem sampleAtIndex_lt_witness :
    ((exampleCubemap.sampleAtIndex ⟨1, -1, -1⟩).1 < exampleCubemap.mDimensions ∧
      (exampleCubemap.sampleAtIndex ⟨1, -1, -1⟩).2 < exampleCubemap.mDimensions) ∧
    ((Cubemap.getAddressFor ⟨1, -1, -1⟩).s = 1 →
      (exampleCubemap.sampleAtIndex ⟨1, -1, -1⟩).1 = exampleCubemap.mDimensions - 1) ∧
    ((Cubemap.getAddressFor ⟨1, -1, -1⟩).t = 1 →
      (exampleCubemap.sampleAtIndex ⟨1, -1, -1⟩).2 = exampleCubemap.mDimensions - 1) :=
  sampleAtIndex_lt exampleCubemap ⟨1, -1, -1⟩
    (by simp [exampleCubemap, Cubemap.create, Cubemap.resetDimensions])
    (by simp [exampleCubemap, Cubemap.create, Cubemap.resetDimensions, SIZE_WRAP])

/-! ## Solid angle -/

theorem atan2_of_pos (y x : ℝ) (hx : 0 < x) : atan2 y x = Real.arctan (y / x) := by
  unfold atan2
  rw [if_pos hx]

theorem sqrt_face_pos (x y : ℝ) : 0 < Real.sqrt (x * x + y * y + 1) :=
  Real.sqrt_pos.mpr (by nlinarith [mul_self_nonneg x, mul_self_nonneg y])

theorem sphereQuadrantArea_eq (x y : ℝ) :
    sphereQuadrantArea x y = Real.arctan (x * y / Real.sqrt (x * x + y * y + 1)) :=
  atan2_of_pos _ _ (sqrt_face_pos x y)

theorem sphereQuadrantArea_neg_left (x y : ℝ) :
    sphereQuadrantArea (-x) y = -sphereQuadrantArea x y := by
  rw [sphereQuadrantArea_eq, sphereQuadrantArea_eq, ← Real.arctan_neg]
  congr 1
  rw [neg_mul_neg, neg_mul, neg_div]

theorem sphereQuadrantArea_comm (x y : ℝ) : sphereQuadrantArea x y = sphereQuadrantArea y x := by
  rw [sphereQuadrantArea_eq, sphereQuadrantArea_eq, mul_comm x y, add_comm (x * x) (y * y)]

theorem sphereQuadrantArea_neg_right (x y : ℝ) :
    sphereQuadrantArea x (-y) = -sphereQuadrantArea x y := by
  rw [sphereQuadrantArea_comm, sphereQuadrantArea_neg_left, sphereQuadrantArea_comm]

theorem sphereQuadrantArea_one_one : sphereQuadrantArea 1 1 = Real.pi / 6 := by
  rw [sphereQuadrantArea_eq]
  have e : (1 : ℝ) * 1 + 1 * 1 + 1 = 3 := by norm_num
  rw [e, one_mul]
  refine Real.arctan_eq_of_tan_eq Real.tan_pi_div_six ⟨?_, ?_⟩ <;>
    linarith [Real.pi_pos]

/-- The weight of a texel in terms of its four corners. -/
theorem solidAngle_eq_corners (dim u v : ℕ) :
    solidAngle dim u v =
      sphereQuadrantArea (corner dim u) (corner dim v)
      - sphereQuadrantArea (corner dim u) (corner dim (v + 1))
      - sphereQuadrantArea (corner dim (u + 1)) (corner dim v)
      + sphereQuadrantArea (corner dim (u + 1)) (corner dim (v + 1)) := by
  have e0 : ∀ k : ℕ, (((k : ℝ) + 0.5) * 2 * (1 / (dim : ℝ))) - 1 - 1 / (dim : ℝ) = corner dim k := by
    intro k
    unfold corner
    ring
  have e1 : ∀ k : ℕ,
      (((k : ℝ) + 0.5) * 2 * (1 / (dim : ℝ))) - 1 + 1 / (dim : ℝ) = corner dim (k + 1) := by
    intro k
    unfold corner
    push_cast
    ring
  unfold solidAngle
  simp only [e0, e1]

theorem corner_zero (dim : ℕ) : corner dim 0 = -1 := by
  unfold corner
  simp

theorem corner_dim (dim : ℕ) (h : 1 ≤ dim) : corner dim dim = 1 := by
  unfold corner
  have h0 : (dim : ℝ) ≠ 0 := by positivity
  field_simp
  ring

/-- Inclusion-exclusion terms over a grid telescope to the four outer corners. -/
theorem sum_corners_telescope (G : ℕ → ℕ → ℝ) (n m : ℕ) :
    ∑ u in Finset.range n, ∑ v in Finset.range m,
        (G u v - G u (v + 1) - G (u + 1) v + G (u + 1) (v + 1))
      = G 0 0 - G 0 m - G n 0 + G n m := by
  have inner : ∀ u, ∑ v in Finset.range m,
      (G u v - G u (v + 1) - G (u + 1) v + G (u + 1) (v + 1))
        = (G u 0 - G u m) - (G (u + 1) 0 - G (u + 1) m) := by
    intro u
    induction m with
    | zero => simp
    | succ k ih => rw [Finset.sum_range_succ, ih]; ring
  simp only [inner]
  induction n with
  | zero => simp
  | succ k ih => rw [Finset.sum_range_succ, ih]; ring

/-- Sum of the weights of all texels of one face. -/
theorem sum_solidAngle_face (N : ℕ) (hN : 1 ≤ N) :
    ∑ u in Finset.range N, ∑ v in Finset.range N, solidAngle N u v = 4 * Real.pi / 6 := by
  simp only [solidAngle_eq_corners]
  rw [sum_corners_telescope (fun u v => sphereQuadrantArea (corner N u) (corner N v)) N N]
  simp only [corner_zero, corner_dim N hN, sphereQuadrantArea_neg_left,
    sphereQuadrantArea_neg_right, sphereQuadrantArea_one_one]
  ring

/-- C2. For every dimension `N >= 1` the weights `solidAngle N u v` of all texels
`u, v < N` of a face add up to `4 * pi / 6`, one sixth of the sphere. -/
theorem solidAngle_sum (N : ℕ) (hN : 1 ≤ N) :
    ∑ u in Finset.range N, ∑ v in Finset.range N, solidAngle N u v = 4 * Real.pi / 6 :=
  sum_solidAngle_face N hN

/-- C2 at dimension 4. -/
theorem solidAngle_sum_witness :
    ∑ u in Finset.range 4, ∑ v in Finset.range 4, solidAngle 4 u v = 4 * Real.pi / 6 :=
  solidAngle_sum 4 (by decide)

/-! ## Projection as a sum over texels -/

theorem Axis.component_add (a : Axis) (u v : double3) :
    a.component (u + v) = a.component u + a.component v := by
  cases a <;> rfl

theorem Axis.component_mul (a : Axis) (u : double3) (b : ℝ) :
    a.component (u * b) = a.component u * b := by
  cases a <;> rfl

theorem Axis.component_zero (a : Axis) : a.component (0 : double3) = 0 := by
  cases a <;> rfl

theorem Axis.component_ext (u v : double3) (h : ∀ a : Axis, a.component u = a.component v) :
    u = v :=
  TVec3.ext (h Axis.X) (h Axis.Y) (h Axis.Z)

theorem Face.all_eq : Face.all = [Face.NX, Face.PX, Face.NY, Face.PY, Face.NZ, Face.PZ] := rfl

/-! Entries of a nine-element vector literal. -/

section Vec9

variable {α : Type} (a0 a1 a2 a3 a4 a5 a6 a7 a8 : α)

@[simp] theorem vec9_0 : (![a0, a1, a2, a3, a4, a5, a6, a7, a8] : Fin 9 → α) 0 = a0 := rfl
@[simp] theorem vec9_1 : (![a0, a1, a2, a3, a4, a5, a6, a7, a8] : Fin 9 → α) 1 = a1 := rfl
@[simp] theorem vec9_2 : (![a0, a1, a2, a3, a4, a5, a6, a7, a8] : Fin 9 → α) 2 = a2 := rfl
@[simp] theorem vec9_3 : (![a0, a1, a2, a3, a4, a5, a6, a7, a8] : Fin 9 → α) 3 = a3 := rfl
@[simp] theorem vec9_4 : (![a0, a1, a2, a3, a4, a5, a6, a7, a8] : Fin 9 → α) 4 = a4 := rfl
@[simp] theorem vec9_5 : (![a0, a1, a2, a3, a4, a5, a6, a7, a8] : Fin 9 → α) 5 = a5 := rfl
@[simp] theorem vec9_6 : (![a0, a1, a2, a3, a4, a5, a6, a7, a8] : Fin 9 → α) 6 = a6 := rfl
@[simp] theorem vec9_7 : (![a0, a1, a2, a3, a4, a5, a6, a7, a8] : Fin 9 → α) 7 = a7 := rfl
@[simp] theorem vec9_8 : (![a0, a1, a2, a3, a4, a5, a6, a7, a8] : Fin 9 → α) 8 = a8 := rfl

end Vec9

/-- One texel step of the projector adds `color * solidAngle * A[i] * basis_i`
to accumulator `i`. -/
theorem procTexel_component (cm : Cubemap) (A : Fin 9 → ℝ) (mem : Memory) (state : State)
    (y : ℕ) (f : Face) (data : Ptr) (dim x : ℕ) (a : Axis) (i : Fin 9) :
    a.component ((computeIrradianceSH3Bands.procTexel cm A mem state y f data dim x).SH i) =
      a.component (state.SH i) +
        a.component (Cubemap.sampleAtPtr mem data) * solidAngle dim x y * A i
          * shBasis i (cm.getDirectionForTexel f x y) := by
  unfold computeIrradianceSH3Bands.procTexel
  fin_cases i <;>
    simp [shBasis, Axis.component_add, Axis.component_mul] <;> ring

/-- A loop over `0 .. n-1` whose every step adds `g k` to a measured quantity
adds the sum of the `g k`. -/
theorem foldl_range_sum {σ : Type} (φ : σ → ℝ) (step : σ → ℕ → σ) (g : ℕ → ℝ)
    (h : ∀ s k, φ (step s k) = φ s + g k) (s0 : σ) (n : ℕ) :
    φ ((List.range n).foldl step s0) = φ s0 + ∑ k in Finset.range n, g k := by
  induction n with
  | zero => simp
  | succ k ih =>
    rw [List.range_succ, List.foldl_append, List.foldl_cons, List.foldl_nil, h, ih,
      Finset.sum_range_succ, add_assoc]

/-- Walking `x` texels from the start of row `y` reaches texel `(x, y)`. -/
theorem getPixelRef_walk (img : Image) (x y : ℕ) :
    (img.getPixelRef 0 y + sizeofFloat3 * x) % SIZE_WRAP = img.getPixelRef x y := by
  unfold Image.getPixelRef Image.getBytesPerPixel
  rw [Nat.mod_add_mod, zero_mul, add_zero, Nat.mul_comm sizeofFloat3 x]

theorem getPixelRef_lt (img : Image) (x y : ℕ) : img.getPixelRef x y < SIZE_WRAP :=
  Nat.mod_lt _ (by unfold SIZE_WRAP; positivity)

/-- State of the projector's row loop after `n` texels: the pointer has
advanced by `n` texels and every accumulator has gained the `n` texel terms. -/
theorem proc_fold (cm : Cubemap) (A : Fin 9 → ℝ) (mem : Memory) (state : State) (y : ℕ)
    (f : Face) (data : Ptr) (dim : ℕ) (hdata : data < SIZE_WRAP) (n : ℕ) :
    ((List.range n).foldl
        (fun (acc : State × Ptr) x =>
          (computeIrradianceSH3Bands.procTexel cm A mem acc.1 y f acc.2 dim x,
            (acc.2 + sizeofFloat3) % SIZE_WRAP))
        (state, data)).2 = (data + sizeofFloat3 * n) % SIZE_WRAP ∧
    ∀ (a : Axis) (i : Fin 9),
      a.component (((List.range n).foldl
        (fun (acc : State × Ptr) x =>
          (computeIrradianceSH3Bands.procTexel cm A mem acc.1 y f acc.2 dim x,
            (acc.2 + sizeofFloat3) % SIZE_WRAP))
        (state, data)).1.SH i) =
      a.component (state.SH i) + ∑ x in Finset.range n,
        a.component (Cubemap.sampleAtPtr mem ((data + sizeofFloat3 * x) % SIZE_WRAP))
          * solidAngle dim x y * A i * shBasis i (cm.getDirectionForTexel f x y) := by
  induction n with
  | zero =>
    refine ⟨?_, fun a i => ?_⟩
    · simp [Nat.mod_eq_of_lt hdata]
    · simp
  | succ k ih =>
    obtain ⟨ihp, ihs⟩ := ih
    rw [List.range_succ, List.foldl_append, List.foldl_cons, List.foldl_nil]
    refine ⟨?_, fun a i => ?_⟩
    · simp only [ihp]
      rw [Nat.mod_add_mod, Nat.mul_succ, add_assoc]
    · simp only [procTexel_component, ihs, ihp]
      rw [Finset.sum_range_succ, add_assoc]

/-- One row of the projector. -/
theorem proc_component (cm : Cubemap) (A : Fin 9 → ℝ) (mem : Memory) (state : State) (y : ℕ)
    (f : Face) (dim : ℕ) (a : Axis) (i : Fin 9) :
    a.component ((computeIrradianceSH3Bands.proc cm A mem state y f
        ((cm.getImageForFace f).getPixelRef 0 y) dim).SH i) =
      a.component (state.SH i) + ∑ x in Finset.range dim,
        a.component (Cubemap.sampleAtPtr mem ((cm.getImageForFace f).getPixelRef x y))
          * solidAngle dim x y * A i * shBasis i (cm.getDirectionForTexel f x y) := by
  unfold computeIrradianceSH3Bands.proc
  rw [(proc_fold cm A mem state y f _ dim (getPixelRef_lt _ 0 y) dim).2 a i]
  simp only [getPixelRef_walk]

/-- One face task of the projector. -/
theorem task_component (cm : Cubemap) (mem : Memory) (s : State) (f : Face) (a : Axis)
    (i : Fin 9) :
    a.component ((computeIrradianceSH3Bands.task cm computeIrradianceSH3Bands.A mem s f
        cm.mDimensions).SH i) =
      a.component (s.SH i) + ∑ y in Finset.range cm.mDimensions,
        ∑ x in Finset.range cm.mDimensions, shTerm mem cm a i f x y := by
  have h := foldl_range_sum (fun st : State => a.component (st.SH i))
    (fun st y => computeIrradianceSH3Bands.proc cm computeIrradianceSH3Bands.A mem st y f
      ((cm.getImageForFace f).getPixelRef 0 y) cm.mDimensions)
    (fun y => ∑ x in Finset.range cm.mDimensions, shTerm mem cm a i f x y)
    (fun st y => proc_component cm _ mem st y f cm.mDimensions a i) s cm.mDimensions
  exact h

/-- Every component of every coefficient is the sum of the texel terms over
the six faces, the rows and the columns. -/
theorem coef_component (mem : Memory) (cm : Cubemap) (a : Axis) (i : Fin 9) :
    a.component (computeIrradianceSH3Bands mem cm i) =
      sumFaces (fun f => ∑ y in Finset.range cm.mDimensions,
        ∑ x in Finset.range cm.mDimensions, shTerm mem cm a i f x y) := by
  unfold computeIrradianceSH3Bands Cubemap.getDimensions sumFaces
  have h0 : a.component (State.init.SH i) = 0 := Axis.component_zero a
  simp only [Face.all_eq, List.foldl_cons, List.foldl_nil, Axis.component_add, task_component,
    Axis.component_zero, h0]
  ring

/-! ## Uniform cubemaps -/

/-- For a cubemap filled with `C`, a coefficient is `C * A[i]` times the
weighted sum of the basis factor over all texels. -/
theorem uniform_coef (mem : Memory) (cm : Cubemap) (C : float3) (hu : cm.IsUniform mem C)
    (a : Axis) (i : Fin 9) :
    a.component (computeIrradianceSH3Bands mem cm i) =
      a.component C * computeIrradianceSH3Bands.A i *
        ∑ y in Finset.range cm.mDimensions, ∑ x in Finset.range cm.mDimensions,
          solidAngle cm.mDimensions x y * faceBasisSum cm i x y := by
  have hface : ∀ f, ∑ y in Finset.range cm.mDimensions,
      ∑ x in Finset.range cm.mDimensions, shTerm mem cm a i f x y =
      a.component C * computeIrradianceSH3Bands.A i *
        ∑ y in Finset.range cm.mDimensions, ∑ x in Finset.range cm.mDimensions,
          solidAngle cm.mDimensions x y * shBasis i (cm.getDirectionForTexel f x y) := by
    intro f
    rw [Finset.mul_sum]
    refine Finset.sum_congr rfl (fun y hy => ?_)
    rw [Finset.mul_sum]
    refine Finset.sum_congr rfl (fun x hx => ?_)
    unfold shTerm
    rw [hu f x y (Finset.mem_range.mp hx) (Finset.mem_range.mp hy)]
    ring
  rw [coef_component]
  unfold sumFaces
  simp only [hface]
  unfold faceBasisSum sumFaces
  simp only [mul_add, Finset.sum_add_distrib]

theorem faceBasisSum_zero (cm : Cubemap) (x y : ℕ) : faceBasisSum cm 0 x y = 6 := by
  unfold faceBasisSum sumFaces shBasis
  simp only [vec9_0]
  norm_num

theorem A_zero : computeIrradianceSH3Bands.A 0 = 1 / (4 * Real.pi) := by
  have hpi : Real.pi ≠ 0 := Real.pi_ne_zero
  simp only [computeIrradianceSH3Bands.A, vec9_0, computeTruncatedCosSh, if_true, INV_PI, PI]
  field_simp
  ring

/-- Band 0 of a cubemap filled with `C` is `C`. -/
theorem coef_zero_uniform (mem : Memory) (cm : Cubemap) (C : float3)
    (hdim : 1 ≤ cm.mDimensions) (hu : cm.IsUniform mem C) :
    computeIrradianceSH3Bands mem cm 0 = C := by
  refine Axis.component_ext _ _ (fun a => ?_)
  rw [uniform_coef mem cm C hu a 0]
  simp only [faceBasisSum_zero]
  have hs : ∑ y in Finset.range cm.mDimensions, ∑ x in Finset.range cm.mDimensions,
      solidAngle cm.mDimensions x y * 6 = 4 * Real.pi := by
    rw [Finset.sum_comm]
    simp only [← Finset.sum_mul]
    rw [sum_solidAngle_face _ hdim]
    ring
  rw [hs, A_zero]
  have hpi : Real.pi ≠ 0 := Real.pi_ne_zero
  field_simp

/-- C3. Projecting a cubemap of dimension at least 1 whose every texel is `C`
gives coefficient 0 equal to `C` scaled by `4 * pi * A[0]`, and that factor is
1: coefficient 0 is `C`. -/
theorem computeIrradianceSH3Bands_uniform_band0 (mem : Memory) (cm : Cubemap) (C : float3)
    (hdim : 1 ≤ cm.mDimensions) (hu : cm.IsUniform mem C) :
    computeIrradianceSH3Bands mem cm 0 = C * (4 * Real.pi * computeIrradianceSH3Bands.A 0) ∧
    4 * Real.pi * computeIrradianceSH3Bands.A 0 = 1 ∧
    computeIrradianceSH3Bands mem cm 0 = C := by
  have hA : 4 * Real.pi * computeIrradianceSH3Bands.A 0 = 1 := by
    have hpi : Real.pi ≠ 0 := Real.pi_ne_zero
    rw [A_zero]
    field_simp
  refine ⟨?_, hA, coef_zero_uniform mem cm C hdim hu⟩
  rw [hA, coef_zero_uniform mem cm C hdim hu]
  ext <;> simp

theorem texelR_sq (cm : Cubemap) (x y : ℕ) :
    texelR cm x y * texelR cm x y *
      (texelU cm x * texelU cm x + texelV cm y * texelV cm y + 1) = 1 := by
  have hpos := sqrt_face_pos (texelU cm x) (texelV cm y)
  have hsq := Real.mul_self_sqrt
    (show 0 ≤ texelU cm x * texelU cm x + texelV cm y * texelV cm y + 1 by
      nlinarith [mul_self_nonneg (texelU cm x), mul_self_nonneg (texelV cm y)])
  unfold texelR
  field_simp
  linarith

/-- Directions of the six faces at a texel centre, in terms of `cx`, `cy`, `1 / l`. -/
theorem getDirectionForTexel_eq (cm : Cubemap) (f : Face) (x y : ℕ) :
    cm.getDirectionForTexel f x y =
      (match f with
        | Face.PX => (⟨1, texelV cm y, -texelU cm x⟩ : double3)
        | Face.NX => ⟨-1, texelV cm y, texelU cm x⟩
        | Face.PY => ⟨texelU cm x, 1, -texelV cm y⟩
        | Face.NY => ⟨texelU cm x, -1, texelV cm y⟩
        | Face.PZ => ⟨texelU cm x, texelV cm y, 1⟩
        | Face.NZ => ⟨-texelU cm x, texelV cm y, -1⟩) * texelR cm x y := by
  cases f <;> rfl

/-- Face sums of the nine basis factors at a texel. -/
theorem faceBasisSum_eq (cm : Cubemap) (i : Fin 9) (x y : ℕ) :
    faceBasisSum cm i x y =
      ![6, 4 * texelV cm y * texelR cm x y, 0, 2 * texelU cm x * texelR cm x y, 0,
        -2 * texelV cm y * (texelR cm x y * texelR cm x y), 0, 0,
        4 * (texelU cm x * texelU cm x - texelV cm y * texelV cm y)
          * (texelR cm x y * texelR cm x y)] i := by
  have hr := texelR_sq cm x y
  unfold faceBasisSum sumFaces shBasis
  simp only [getDirectionForTexel_eq, TVec3.mul_x, TVec3.mul_y, TVec3.mul_z]
  fin_cases i <;> simp <;> first | ring1 | linear_combination 6 * hr

/-! ## Symmetries of the texel grid -/

theorem texelV_eq_neg_texelU (cm : Cubemap) (k : ℕ) : texelV cm k = -texelU cm k := by
  unfold texelV texelU
  ring

theorem texelU_reflect (cm : Cubemap) (hwf : cm.WellFormed) (x : ℕ) (hx : x < cm.mDimensions) :
    texelU cm (cm.mDimensions - 1 - x) = -texelU cm x := by
  have hn : (cm.mDimensions : ℝ) ≠ 0 := by
    have : 0 < cm.mDimensions := by omega
    positivity
  have hc : ((cm.mDimensions - 1 - x : ℕ) : ℝ) = (cm.mDimensions : ℝ) - 1 - x := by
    rw [Nat.sub_sub, Nat.cast_sub (by omega)]
    push_cast
    ring
  unfold texelU
  rw [hc, hwf]
  field_simp
  ring

theorem texelV_reflect (cm : Cubemap) (hwf : cm.WellFormed) (y : ℕ) (hy : y < cm.mDimensions) :
    texelV cm (cm.mDimensions - 1 - y) = -texelV cm y := by
  rw [texelV_eq_neg_texelU, texelV_eq_neg_texelU, texelU_reflect cm hwf y hy]

theorem texelR_reflect_x (cm : Cubemap) (hwf : cm.WellFormed) (x y : ℕ)
    (hx : x < cm.mDimensions) : texelR cm (cm.mDimensions - 1 - x) y = texelR cm x y := by
  unfold texelR
  rw [texelU_reflect cm hwf x hx, neg_mul_neg]

theorem texelR_reflect_y (cm : Cubemap) (hwf : cm.WellFormed) (x y : ℕ)
    (hy : y < cm.mDimensions) : texelR cm x (cm.mDimensions - 1 - y) = texelR cm x y := by
  unfold texelR
  rw [texelV_reflect cm hwf y hy, neg_mul_neg]

theorem texelR_swap (cm : Cubemap) (x y : ℕ) : texelR cm y x = texelR cm x y := by
  unfold texelR
  simp only [texelV_eq_neg_texelU, neg_mul_neg]
  rw [add_comm (texelU cm y * texelU cm y)]

theorem corner_reflect (n k : ℕ) (hk : k ≤ n) (hn : 1 ≤ n) :
    corner n (n - k) = -corner n k := by
  have h0 : (n : ℝ) ≠ 0 := by positivity
  unfold corner
  rw [Nat.cast_sub hk]
  field_simp
  ring

theorem solidAngle_reflect_u (n u v : ℕ) (hu : u < n) :
    solidAngle n (n - 1 - u) v = solidAngle n u v := by
  have e1 : n - 1 - u = n - (u + 1) := by omega
  have e2 : n - (u + 1) + 1 = n - u := by omega
  rw [solidAngle_eq_corners, solidAngle_eq_corners, e1, e2,
    corner_reflect n (u + 1) (by omega) (by omega), corner_reflect n u (by omega) (by omega)]
  simp only [sphereQuadrantArea_neg_left]
  ring

theorem solidAngle_swap (n u v : ℕ) : solidAngle n v u = solidAngle n u v := by
  rw [solidAngle_eq_corners, solidAngle_eq_corners]
  simp only [sphereQuadrantArea_comm (corner n v), sphereQuadrantArea_comm (corner n (v + 1))]
  ring

theorem solidAngle_reflect_v (n u v : ℕ) (hv : v < n) :
    solidAngle n u (n - 1 - v) = solidAngle n u v := by
  rw [solidAngle_swap n (n - 1 - v) u, solidAngle_reflect_u n v u hv, solidAngle_swap]

/-- A sum over `0 .. n-1` of a function that is odd under the reflection
`k -> n - 1 - k` is zero. -/
theorem sum_reflect_odd (n : ℕ) (h : ℕ → ℝ) (hodd : ∀ k, k < n → h (n - 1 - k) = -h k) :
    ∑ k in Finset.range n, h k = 0 := by
  have e : ∑ k in Finset.range n, h (n - 1 - k) = ∑ k in Finset.range n, -h k :=
    Finset.sum_congr rfl (fun k hk => hodd k (Finset.mem_range.mp hk))
  rw [Finset.sum_range_reflect, Finset.sum_neg_distrib] at e
  linarith

/-- A double sum over the square of a function that is antisymmetric under
exchanging its arguments is zero. -/
theorem sum_swap_antisymm (n : ℕ) (h : ℕ → ℕ → ℝ)
    (hanti : ∀ x y, x < n → y < n → h y x = -h x y) :
    ∑ y in Finset.range n, ∑ x in Finset.range n, h x y = 0 := by
  have e : ∑ y in Finset.range n, ∑ x in Finset.range n, h x y
      = ∑ y in Finset.range n, ∑ x in Finset.range n, -h y x :=
    Finset.sum_congr rfl (fun y hy => Finset.sum_congr rfl (fun x hx =>
      hanti y x (Finset.mem_range.mp hy) (Finset.mem_range.mp hx)))
  have e2 : ∑ y in Finset.range n, ∑ x in Finset.range n, -h y x
      = -∑ y in Finset.range n, ∑ x in Finset.range n, h x y := by
    simp only [Finset.sum_neg_distrib]
    rw [Finset.sum_comm]
  rw [e2] at e
  linarith

/-- For every band above 0 the weighted sum of the face sums of the basis
factor over all texels vanishes. -/
theorem weighted_faceBasisSum_zero (cm : Cubemap) (hwf : cm.WellFormed) (i : Fin 9)
    (hi : i ≠ 0) :
    ∑ y in Finset.range cm.mDimensions, ∑ x in Finset.range cm.mDimensions,
      solidAngle cm.mDimensions x y * faceBasisSum cm i x y = 0 := by
  simp only [faceBasisSum_eq]
  fin_cases i
  · exact absurd rfl hi
  · simp only [Fin.mk_one, vec9_1]
    refine sum_reflect_odd cm.mDimensions
      (fun y => ∑ x in Finset.range cm.mDimensions,
        solidAngle cm.mDimensions x y * (4 * texelV cm y * texelR cm x y)) (fun y hy => ?_)
    simp only
    rw [← Finset.sum_neg_distrib]
    refine Finset.sum_congr rfl (fun x _ => ?_)
    rw [solidAngle_reflect_v _ _ _ hy, texelV_reflect cm hwf y hy, texelR_reflect_y cm hwf x y hy]
    ring
  · simp
  · simp only [vec9_3]
    refine Finset.sum_eq_zero (fun y _ => ?_)
    refine sum_reflect_odd cm.mDimensions
      (fun x => solidAngle cm.mDimensions x y * (2 * texelU cm x * texelR cm x y))
      (fun x hx => ?_)
    simp only
    rw [solidAngle_reflect_u _ _ _ hx, texelU_reflect cm hwf x hx, texelR_reflect_x cm hwf x y hx]
    ring
  · simp
  · simp only [vec9_5]
    refine sum_reflect_odd cm.mDimensions
      (fun y => ∑ x in Finset.range cm.mDimensions,
        solidAngle cm.mDimensions x y * (-2 * texelV cm y * (texelR cm x y * texelR cm x y)))
      (fun y hy => ?_)
    simp only
    rw [← Finset.sum_neg_distrib]
    refine Finset.sum_congr rfl (fun x _ => ?_)
    rw [solidAngle_reflect_v _ _ _ hy, texelV_reflect cm hwf y hy, texelR_reflect_y cm hwf x y hy]
    ring
  · simp
  · simp
  · simp only [vec9_8]
    refine sum_swap_antisymm cm.mDimensions
      (fun x y => solidAngle cm.mDimensions x y *
        (4 * (texelU cm x * texelU cm x - texelV cm y * texelV cm y)
          * (texelR cm x y * texelR cm x y))) (fun x y _ _ => ?_)
    simp only
    rw [solidAngle_swap, texelR_swap, texelV_eq_neg_texelU, texelV_eq_neg_texelU]
    ring

/-- Bands 1 to 8 of a cubemap filled with one colour are zero. -/
theorem coef_succ_uniform (mem : Memory) (cm : Cubemap) (C : float3) (hwf : cm.WellFormed)
    (hu : cm.IsUniform mem C) (i : Fin 9) (hi : i ≠ 0) :
    computeIrradianceSH3Bands mem cm i = 0 := by
  refine Axis.component_ext _ _ (fun a => ?_)
  rw [uniform_coef mem cm C hu a i, weighted_faceBasisSum_zero cm hwf i hi, mul_zero,
    Axis.component_zero]

/-- C4. Projecting a cubemap (of any dimension, in particular every `dim >= 1`)
whose every texel on all six faces is `C` gives coefficients 1 to 8 all equal
to `(0, 0, 0)`. -/
theorem computeIrradianceSH3Bands_uniform_higher (mem : Memory) (cm : Cubemap) (C : float3)
    (hwf : cm.WellFormed) (hu : cm.IsUniform mem C) :
    ∀ i : Fin 9, 1 ≤ i.val → computeIrradianceSH3Bands mem cm i = ⟨0, 0, 0⟩ := by
  intro i hi
  have h0 : i ≠ 0 := by
    intro h
    rw [h] at hi
    simp at hi
  exact coef_succ_uniform mem cm C hwf hu i h0

theorem packedCubemap_wellFormed (dim : ℕ) : (packedCubemap dim).WellFormed := rfl

theorem packedCubemap_mDimensions (dim : ℕ) : (packedCubemap dim).mDimensions = dim := rfl

theorem constMemory_isUniform (cm : Cubemap) (C : float3) : cm.IsUniform (constMemory C) C :=
  fun _ _ _ _ _ => rfl

/-- C3 at a dimension-2 cubemap filled with `(1/4, 1/2, 3/4)`. -/
theorem computeIrradianceSH3Bands_uniform_band0_witness :
    computeIrradianceSH3Bands (constMemory ⟨1 / 4, 1 / 2, 3 / 4⟩) (packedCubemap 2) 0
      = (⟨1 / 4, 1 / 2, 3 / 4⟩ : float3) * (4 * Real.pi * computeIrradianceSH3Bands.A 0) ∧
    4 * Real.pi * computeIrradianceSH3Bands.A 0 = 1 ∧
    computeIrradianceSH3Bands (constMemory ⟨1 / 4, 1 / 2, 3 / 4⟩) (packedCubemap 2) 0
      = ⟨1 / 4, 1 / 2, 3 / 4⟩ :=
  computeIrradianceSH3Bands_uniform_band0 (constMemory ⟨1 / 4, 1 / 2, 3 / 4⟩) (packedCubemap 2)
    ⟨1 / 4, 1 / 2, 3 / 4⟩ (by rw [packedCubemap_mDimensions]; decide)
    (constMemory_isUniform _ _)

/-- C4 at a dimension-3 cubemap filled with `(1/4, 1/2, 3/4)`, coefficients 1, 6
and 8. -/
theorem computeIrradianceSH3Bands_uniform_higher_witness :
    computeIrradianceSH3Bands (constMemory ⟨1 / 4, 1 / 2, 3 / 4⟩) (packedCubemap 3) 1
        = ⟨0, 0, 0⟩ ∧
    computeIrradianceSH3Bands (constMemory ⟨1 / 4, 1 / 2, 3 / 4⟩) (packedCubemap 3) 6
        = ⟨0, 0, 0⟩ ∧
    computeIrradianceSH3Bands (constMemory ⟨1 / 4, 1 / 2, 3 / 4⟩) (packedCubemap 3) 8
        = ⟨0, 0, 0⟩ :=
  ⟨computeIrradianceSH3Bands_uniform_higher (constMemory ⟨1 / 4, 1 / 2, 3 / 4⟩) (packedCubemap 3)
      ⟨1 / 4, 1 / 2, 3 / 4⟩ (packedCubemap_wellFormed 3) (constMemory_isUniform _ _) 1
      (by decide),
    computeIrradianceSH3Bands_uniform_higher (constMemory ⟨1 / 4, 1 / 2, 3 / 4⟩) (packedCubemap 3)
      ⟨1 / 4, 1 / 2, 3 / 4⟩ (packedCubemap_wellFormed 3) (constMemory_isUniform _ _) 6
      (by decide),
    computeIrradianceSH3Bands_uniform_higher (constMemory ⟨1 / 4, 1 / 2, 3 / 4⟩) (packedCubemap 3)
      ⟨1 / 4, 1 / 2, 3 / 4⟩ (packedCubemap_wellFormed 3) (constMemory_isUniform _ _) 8
      (by decide)⟩

/-! ## The concrete scenario of dimension 4 -/

/-- C5, as the code behaves: for a dimension-4 cubemap with all six faces filled
with `(1, 1, 1)`, coefficient vector 0 is `(1, 1, 1)`. -/
theorem computeIrradianceSH3Bands_dim4_ones (mem : Memory) (cm : Cubemap)
    (h4 : cm.mDimensions = 4) (hu : cm.IsUniform mem ⟨1, 1, 1⟩) :
    computeIrradianceSH3Bands mem cm 0 = ⟨1, 1, 1⟩ :=
  coef_zero_uniform mem cm ⟨1, 1, 1⟩ (by rw [h4]; decide) hu

/-- The dimension-4 scenario at the packed cubemap filled with `(1, 1, 1)`. -/
theorem computeIrradianceSH3Bands_dim4_ones_witness :
    computeIrradianceSH3Bands (constMemory ⟨1, 1, 1⟩) (packedCubemap 4) 0 = ⟨1, 1, 1⟩ :=
  computeIrradianceSH3Bands_dim4_ones (constMemory ⟨1, 1, 1⟩) (packedCubemap 4)
    (packedCubemap_mDimensions 4) (constMemory_isUniform _ _)

/-- C5 as stated fails: for the dimension-4 cubemap filled with `(1, 1, 1)` the
components of coefficient vector 0 are not within `2` of `3.14`. -/
theorem computeIrradianceSH3Bands_dim4_not_pi :
    ¬ (|(computeIrradianceSH3Bands (constMemory ⟨1, 1, 1⟩) (packedCubemap 4) 0).x - 3.14| ≤ 2 ∧
       |(computeIrradianceSH3Bands (constMemory ⟨1, 1, 1⟩) (packedCubemap 4) 0).y - 3.14| ≤ 2 ∧
       |(computeIrradianceSH3Bands (constMemory ⟨1, 1, 1⟩) (packedCubemap 4) 0).z - 3.14| ≤ 2) := by
  rw [coef_zero_uniform (constMemory ⟨1, 1, 1⟩) (packedCubemap 4) ⟨1, 1, 1⟩
    (by rw [packedCubemap_mDimensions]; decide) (constMemory_isUniform _ _)]
  intro h
  have h1 := h.1
  simp only at h1
  rw [abs_le] at h1
  norm_num at h1

/-! ## Projection followed by reconstruction -/

theorem packedCubemap_one_pixelRef (f : Face) :
    ((packedCubemap 1).getImageForFace f).getPixelRef 0 0 = 4096 + 12 * f.toIndex := by
  cases f <;> rfl

theorem packedCubemap_one_mScale : (packedCubemap 1).mScale = 2 := by
  have h : (packedCubemap 1).mScale = 2 / ((1 : ℕ) : ℝ) := rfl
  rw [h]
  norm_num

theorem packedCubemap_one_direction (f : Face) :
    (packedCubemap 1).getDirectionForTexel f 0 0 =
      (match f with
        | Face.PX => (⟨1, 0, 0⟩ : double3)
        | Face.NX => ⟨-1, 0, 0⟩
        | Face.PY => ⟨0, 1, 0⟩
        | Face.NY => ⟨0, -1, 0⟩
        | Face.PZ => ⟨0, 0, 1⟩
        | Face.NZ => ⟨0, 0, -1⟩) := by
  have hu : texelU (packedCubemap 1) 0 = 0 := by
    unfold texelU
    rw [packedCubemap_one_mScale]
    norm_num
  have hv : texelV (packedCubemap 1) 0 = 0 := by
    rw [texelV_eq_neg_texelU, hu, neg_zero]
  have hr : texelR (packedCubemap 1) 0 0 = 1 := by
    unfold texelR
    rw [hu, hv]
    norm_num
  rw [getDirectionForTexel_eq, hu, hv, hr]
  cases f <;> ext <;> simp

theorem solidAngle_one : solidAngle 1 0 0 = 4 * Real.pi / 6 := by
  have h := sum_solidAngle_face 1 le_rfl
  simpa using h

theorem A_one : computeIrradianceSH3Bands.A 1 = 1 / (2 * Real.pi) := by
  have hpi : Real.pi ≠ 0 := Real.pi_ne_zero
  simp only [computeIrradianceSH3Bands.A, vec9_1, computeTruncatedCosSh, INV_PI, PI]
  norm_num
  field_simp
  ring

/-- Coefficients of the band-1 cubemap of dimension 1: only coefficient 1 is
non-zero, and it is `2/3` of the `c_1` the cubemap was built from. -/
theorem bandOne_coefs (i : Fin 9) :
    computeIrradianceSH3Bands bandOneMemory (packedCubemap 1) i =
      if i = 1 then ⟨2 / 3, 2 / 3, 2 / 3⟩ else ⟨0, 0, 0⟩ := by
  refine Axis.component_ext _ _ (fun a => ?_)
  rw [coef_component, packedCubemap_mDimensions]
  simp only [Finset.sum_range_one, sumFaces, shTerm, packedCubemap_one_pixelRef,
    packedCubemap_one_direction, packedCubemap_mDimensions, solidAngle_one,
    Cubemap.sampleAtPtr, bandOneMemory, Face.toIndex]
  norm_num
  have hpi : Real.pi ≠ 0 := Real.pi_ne_zero
  cases a <;> fin_cases i <;> simp [Axis.component, shBasis, A_one] <;> field_simp <;> ring

theorem render_procTexel_eq (cm : Cubemap) (sh : Fin 9 → double3) (mem : Memory) (y : ℕ)
    (f : Face) (data : Ptr) (x : ℕ) :
    renderPreScaledSH3Bands.procTexel cm sh mem y f data x =
      Cubemap.writeAt mem data (shEval sh (cm.getDirectionForTexel f x y)) := rfl

/-- State of the reconstructor's row loop after `n` texels: the pointer has
advanced by `n` texels and the texels `0 .. n-1` of the row have been written. -/
theorem render_proc_fold (cm : Cubemap) (sh : Fin 9 → double3) (mem : Memory) (y : ℕ)
    (f : Face) (data : Ptr) (hdata : data < SIZE_WRAP) (n : ℕ) :
    (List.range n).foldl
        (fun (acc : Memory × Ptr) x =>
          (renderPreScaledSH3Bands.procTexel cm sh acc.1 y f acc.2 x,
            (acc.2 + sizeofFloat3) % SIZE_WRAP))
        (mem, data) =
      ((List.range n).foldl
        (fun m x => Cubemap.writeAt m ((data + sizeofFloat3 * x) % SIZE_WRAP)
          (shEval sh (cm.getDirectionForTexel f x y))) mem,
        (data + sizeofFloat3 * n) % SIZE_WRAP) := by
  induction n with
  | zero => simp [Nat.mod_eq_of_lt hdata]
  | succ k ih =>
    rw [List.range_succ, List.foldl_append, List.foldl_append, ih]
    simp only [List.foldl_cons, List.foldl_nil, render_procTexel_eq]
    rw [Nat.mod_add_mod, Nat.mul_succ, add_assoc]

/-- The reconstructor as a sequence of texel writes: for every face, row and
column in loop order, texel `(x, y)` of face `f` is overwritten by the value
of the coefficients at its direction. -/
theorem render_eq_writes (mem : Memory) (cm : Cubemap) (sh : Fin 9 → double3) :
    renderPreScaledSH3Bands mem cm sh =
      Face.all.foldl (fun m f =>
        (List.range cm.mDimensions).foldl (fun m y =>
          (List.range cm.mDimensions).foldl (fun m x =>
            Cubemap.writeAt m ((cm.getImageForFace f).getPixelRef x y)
              (shEval sh (cm.getDirectionForTexel f x y))) m) m) mem := by
  unfold renderPreScaledSH3Bands renderPreScaledSH3Bands.task renderPreScaledSH3Bands.proc
    Cubemap.getDimensions
  simp only [render_proc_fold _ _ _ _ _ _ (getPixelRef_lt _ 0 _), getPixelRef_walk]

theorem range_one_eq : List.range 1 = [0] := rfl

/-- C6 as stated fails. The dimension-1 cubemap whose texels are the band-1
function `s.y` (coefficient vectors `c_1 = (1, 1, 1)`, all others zero) is
exactly a band-at-most-2 function, its `+Y` texel is `(1, 1, 1)`, and after
projection and reconstruction that texel is `(2/3, 2/3, 2/3)`. -/
theorem roundtrip_band1_counterexample :
    (packedCubemap 1).IsSHFunction bandOneMemory bandOneCoefs ∧
    Cubemap.sampleAtPtr bandOneMemory
      (((packedCubemap 1).getImageForFace Face.PY).getPixelRef 0 0) = ⟨1, 1, 1⟩ ∧
    Cubemap.sampleAtPtr
      (renderPreScaledSH3Bands bandOneMemory (packedCubemap 1)
        (computeIrradianceSH3Bands bandOneMemory (packedCubemap 1)))
      (((packedCubemap 1).getImageForFace Face.PY).getPixelRef 0 0) = ⟨2 / 3, 2 / 3, 2 / 3⟩ := by
  refine ⟨?_, ?_, ?_⟩
  · intro f x y hx hy a
    rw [packedCubemap_mDimensions] at hx hy
    have hx0 : x = 0 := by omega
    have hy0 : y = 0 := by omega
    subst hx0 hy0
    rw [Finset.sum_eq_single (1 : Fin 9)]
    · simp only [packedCubemap_one_pixelRef, packedCubemap_one_direction, Cubemap.sampleAtPtr,
        bandOneMemory, bandOneCoefs, shBasis, vec9_1, if_true]
      cases f <;> cases a <;> simp [Face.toIndex, Axis.component]
    · intro i _ hi
      have h0 : a.component (bandOneCoefs i) = 0 := by
        unfold bandOneCoefs
        rw [if_neg hi]
        cases a <;> rfl
      rw [h0, zero_mul]
    · intro h
      exact absurd (Finset.mem_univ _) h
  · rw [packedCubemap_one_pixelRef]
    simp [Cubemap.sampleAtPtr, bandOneMemory, Face.toIndex]
  · rw [render_eq_writes]
    simp only [packedCubemap_mDimensions, Face.all_eq, List.foldl_cons, List.foldl_nil,
      range_one_eq, packedCubemap_one_pixelRef, packedCubemap_one_direction, Cubemap.writeAt,
      Cubemap.sampleAtPtr, Face.toIndex]
    norm_num [Function.update]
    unfold shEval
    simp only [bandOne_coefs]
    have h6 : ¬ ((6 : Fin 9) = 1) := by decide
    have h8 : ¬ ((8 : Fin 9) = 1) := by decide
    ext <;> norm_num [h6, h8]

/-- A property of the loop state that every step preserves holds after the loop. -/
theorem foldl_invariant {σ β : Type} (P : σ → Prop) (step : σ → β → σ)
    (h : ∀ s b, P s → P (step s b)) (l : List β) (s0 : σ) (h0 : P s0) :
    P (l.foldl step s0) := by
  induction l generalizing s0 with
  | nil => exact h0
  | cons b t ih => exact ih _ (h s0 b h0)

/-- A band-0 function is a uniform cubemap of colour `c 0`. -/
theorem isUniform_of_band0 (mem : Memory) (cm : Cubemap) (c : Fin 9 → double3)
    (hc : cm.IsSHFunction mem c) (hzero : ∀ i : Fin 9, 1 ≤ i.val → c i = ⟨0, 0, 0⟩) :
    cm.IsUniform mem (c 0) := by
  intro f x y hx hy
  refine Axis.component_ext _ _ (fun a => ?_)
  rw [hc f x y hx hy a, Finset.sum_eq_single (0 : Fin 9)]
  · simp [shBasis]
  · intro i _ hi
    have h1 : 1 ≤ i.val := Nat.one_le_iff_ne_zero.mpr (fun h => hi (Fin.ext h))
    rw [hzero i h1]
    have h0 : a.component (⟨0, 0, 0⟩ : double3) = 0 := by cases a <;> rfl
    rw [h0, zero_mul]
  · intro h
    exact absurd (Finset.mem_univ _) h

/-- Coefficients with only band 0 set evaluate to that colour in every
direction. -/
theorem shEval_band0 (sh : Fin 9 → double3) (C : double3) (h0 : sh 0 = C)
    (hi : ∀ i : Fin 9, i ≠ 0 → sh i = 0) (s : double3) : shEval sh s = C := by
  unfold shEval
  rw [h0, hi 1 (by decide), hi 2 (by decide), hi 3 (by decide), hi 4 (by decide),
    hi 5 (by decide), hi 6 (by decide), hi 7 (by decide), hi 8 (by decide)]
  ext <;> simp

/-- Reconstruction from coefficients with only band 0 set leaves at every
address either the colour `C` or the previous contents. -/
theorem render_band0_values (mem : Memory) (cm : Cubemap) (sh : Fin 9 → double3) (C : double3)
    (h0 : sh 0 = C) (hi : ∀ i : Fin 9, i ≠ 0 → sh i = 0) (p : Ptr) :
    renderPreScaledSH3Bands mem cm sh p = C ∨ renderPreScaledSH3Bands mem cm sh p = mem p := by
  rw [render_eq_writes]
  refine foldl_invariant (fun m : Memory => m p = C ∨ m p = mem p) _ (fun m f hm => ?_) _ mem
    (Or.inr rfl)
  refine foldl_invariant (fun m : Memory => m p = C ∨ m p = mem p) _ (fun m y hm => ?_) _ m hm
  refine foldl_invariant (fun m : Memory => m p = C ∨ m p = mem p) _ (fun m x hm => ?_) _ m hm
  simp only [shEval_band0 sh C h0 hi, Cubemap.writeAt]
  by_cases hp : p = (cm.getImageForFace f).getPixelRef x y
  · left
    rw [hp, Function.update_same]
  · rw [Function.update_noteq hp]
    exact hm

/-- C6, as the code behaves: for a cubemap of dimension at least 1 that is exactly
a band-0 function (the coefficient vectors of bands 1 and 2 are zero),
projection followed by reconstruction leaves every texel equal to its
original value. -/
theorem roundtrip_band0 (mem : Memory) (cm : Cubemap) (c : Fin 9 → double3)
    (hdim : 1 ≤ cm.mDimensions) (hwf : cm.WellFormed) (hc : cm.IsSHFunction mem c)
    (hzero : ∀ i : Fin 9, 1 ≤ i.val → c i = ⟨0, 0, 0⟩) :
    ∀ f x y, x < cm.mDimensions → y < cm.mDimensions →
      Cubemap.sampleAtPtr (renderPreScaledSH3Bands mem cm (computeIrradianceSH3Bands mem cm))
          ((cm.getImageForFace f).getPixelRef x y) =
        Cubemap.sampleAtPtr mem ((cm.getImageForFace f).getPixelRef x y) := by
  intro f x y hx hy
  have hu := isUniform_of_band0 mem cm c hc hzero
  have h := render_band0_values mem cm (computeIrradianceSH3Bands mem cm) (c 0)
    (coef_zero_uniform mem cm (c 0) hdim hu)
    (fun i hi => coef_succ_uniform mem cm (c 0) hwf hu i hi)
    ((cm.getImageForFace f).getPixelRef x y)
  unfold Cubemap.sampleAtPtr
  rcases h with h | h
  · rw [h]
    exact (hu f x y hx hy).symm
  · exact h

/-- The band-0 round trip at texel `(1, 0)` of face `+Y` of a dimension-2
cubemap filled with `(1/4, 1/2, 3/4)`. -/
theorem roundtrip_band0_witness :
    Cubemap.sampleAtPtr
        (renderPreScaledSH3Bands (constMemory ⟨1 / 4, 1 / 2, 3 / 4⟩) (packedCubemap 2)
          (computeIrradianceSH3Bands (constMemory ⟨1 / 4, 1 / 2, 3 / 4⟩) (packedCubemap 2)))
        (((packedCubemap 2).getImageForFace Face.PY).getPixelRef 1 0) =
      Cubemap.sampleAtPtr (constMemory ⟨1 / 4, 1 / 2, 3 / 4⟩)
        (((packedCubemap 2).getImageForFace Face.PY).getPixelRef 1 0) :=
  roundtrip_band0 (constMemory ⟨1 / 4, 1 / 2, 3 / 4⟩) (packedCubemap 2)
    (fun i => if i = 0 then ⟨1 / 4, 1 / 2, 3 / 4⟩ else ⟨0, 0, 0⟩)
    (by rw [packedCubemap_mDimensions]; decide) (packedCubemap_wellFormed 2)
    (by
      intro f x y _ _ a
      rw [Finset.sum_eq_single (0 : Fin 9)]
      · simp [shBasis, Cubemap.sampleAtPtr, constMemory]
      · intro i _ hi
        beta_reduce
        rw [if_neg hi]
        have h0 : a.component (⟨0, 0, 0⟩ : double3) = 0 := by cases a <;> rfl
        rw [h0, zero_mul]
      · intro h
        exact absurd (Finset.mem_univ _) h)
    (by
      intro i hi
      have h0 : i ≠ 0 := fun h => by rw [h] at hi; simp at hi
      beta_reduce
      rw [if_neg h0])
    Face.PY 1 0 (by rw [packedCubemap_mDimensions]; decide)
    (by rw [packedCubemap_mDimensions]; decide)

/-! ## Directions of face coordinates -/

/-- Every direction returned by `getDirectionFor` has unit length. -/
theorem getDirectionFor_unit (cm : Cubemap) (f : Face) (x y : ℝ) :
    (cm.getDirectionFor f x y).x ^ 2 + (cm.getDirectionFor f x y).y ^ 2
      + (cm.getDirectionFor f x y).z ^ 2 = 1 := by
  have hpos := sqrt_face_pos ((x * cm.mScale) - 1) (1 - (y * cm.mScale))
  have hsq := Real.mul_self_sqrt
    (show 0 ≤ ((x * cm.mScale) - 1) * ((x * cm.mScale) - 1)
        + (1 - (y * cm.mScale)) * (1 - (y * cm.mScale)) + 1 by
      nlinarith [mul_self_nonneg ((x * cm.mScale) - 1), mul_self_nonneg (1 - (y * cm.mScale))])
  unfold Cubemap.getDirectionFor
  cases f <;> simp only [TVec3.mul_x, TVec3.mul_y, TVec3.mul_z] <;> field_simp <;> nlinarith

/-- C11. For every cubemap (in particular of every dimension `dim >= 1`), every
face and all real coordinates `(x, y)`, `getDirectionFor` returns a vector of
unit length, and the integer overload at `(x, y)` is the direction of the texel
centre `(x + 0.5, y + 0.5)`. -/
theorem getDirectionFor_unit_length (cm : Cubemap) (f : Face) (x y : ℝ) (i j : ℕ) :
    (cm.getDirectionFor f x y).x ^ 2 + (cm.getDirectionFor f x y).y ^ 2
      + (cm.getDirectionFor f x y).z ^ 2 = 1 ∧
    cm.getDirectionForTexel f i j = cm.getDirectionFor f ((i : ℝ) + 0.5) ((j : ℝ) + 0.5) :=
  ⟨getDirectionFor_unit cm f x y, rfl⟩

/-- C12. For a cubemap whose scale is `2 / dimension` (as `resetDimensions` sets
it), `getDirectionFor` is the reference map of the specification: the raw
vector of the face's table row in `cx = x * scale - 1`, `cy = 1 - y * scale`,
divided by `sqrt (cx^2 + cy^2 + 1)`. -/
theorem getDirectionFor_eq_spec (cm : Cubemap) (hwf : cm.WellFormed) (f : Face) (x y : ℝ) :
    cm.getDirectionFor f x y = directionForSpec cm.mDimensions f x y := by
  unfold Cubemap.getDirectionFor directionForSpec
  rw [hwf]
  cases f <;> ext <;> simp only [TVec3.mul_x, TVec3.mul_y, TVec3.mul_z, pow_two, mul_one_div]

/-- C12 on face `+Y` of a cubemap of dimension 4, at the coordinate `(1, 3.5)`. -/
theorem getDirectionFor_eq_spec_witness :
    exampleCubemap.getDirectionFor Face.PY 1 3.5
      = directionForSpec exampleCubemap.mDimensions Face.PY 1 3.5 :=
  getDirectionFor_eq_spec exampleCubemap (Cubemap.wellFormed_create _ 4) Face.PY 1 3.5

/-! ## The projection as one sum -/

/-- C13. The nine coefficients returned by `computeIrradianceSH3Bands` (the result
is indexed by `Fin 9`): the accumulators of the task of face `f` hold the sum
over rows and columns of `texel * solidAngle * A[i] * b_i (s)`, and the
reduction over the six tasks gives, for every coefficient `i` and colour
component `a`, the single sum over faces, rows and columns. -/
theorem computeIrradianceSH3Bands_eq_sum (mem : Memory) (cm : Cubemap) (a : Axis) (i : Fin 9) :
    (∀ f : Face,
      a.component ((computeIrradianceSH3Bands.task cm computeIrradianceSH3Bands.A mem
          State.init f cm.getDimensions).SH i) =
        ∑ y in Finset.range cm.getDimensions, ∑ x in Finset.range cm.getDimensions,
          a.component (Cubemap.sampleAtPtr mem ((cm.getImageForFace f).getPixelRef x y))
            * solidAngle cm.getDimensions x y * computeIrradianceSH3Bands.A i
            * shBasis i (cm.getDirectionForTexel f x y)) ∧
    a.component (computeIrradianceSH3Bands mem cm i) =
      sumFaces (fun f =>
        ∑ y in Finset.range cm.getDimensions, ∑ x in Finset.range cm.getDimensions,
          a.component (Cubemap.sampleAtPtr mem ((cm.getImageForFace f).getPixelRef x y))
            * solidAngle cm.getDimensions x y * computeIrradianceSH3Bands.A i
            * shBasis i (cm.getDirectionForTexel f x y)) := by
  refine ⟨fun f => ?_, coef_component mem cm a i⟩
  have h := task_component cm mem State.init f a i
  have h0 : a.component (State.init.SH i) = 0 := Axis.component_zero a
  rw [h0, zero_add] at h
  exact h

/-! ## The reconstruction as texel writes -/

/-- A sum over the nine coefficient indices, written out. -/
theorem sum_fin9 (g : Fin 9 → ℝ) :
    ∑ i, g i = g 0 + g 1 + g 2 + g 3 + g 4 + g 5 + g 6 + g 7 + g 8 := by
  simp only [Fin.sum_univ_succ, Fin.sum_univ_zero]
  show g 0 + (g 1 + (g 2 + (g 3 + (g 4 + (g 5 + (g 6 + (g 7 + (g 8 + 0)))))))) = _
  ring

/-- The value the reconstructor writes is the sum of `sh[i] * basis_i`. -/
theorem shEval_eq_shSum (sh : Fin 9 → double3) (s : double3) : shEval sh s = shSum sh s := by
  unfold shEval shSum
  ext <;> simp [sum_fin9, shBasis] <;> ring

/-- Writes leave every address that none of them targets unchanged. -/
theorem foldl_writes_other {κ : Type} (addr : κ → Ptr) (val : κ → float3) (ks : List κ)
    (m0 : Memory) (p : Ptr) (hp : ∀ k ∈ ks, addr k ≠ p) :
    (ks.foldl (fun m k => Cubemap.writeAt m (addr k) (val k)) m0) p = m0 p := by
  induction ks generalizing m0 with
  | nil => rfl
  | cons k t ih =>
    rw [List.foldl_cons, ih _ (fun k' hk' => hp k' (List.mem_cons_of_mem _ hk'))]
    unfold Cubemap.writeAt
    exact Function.update_noteq (hp k (List.mem_cons_self _ _)).symm _ _

/-- After a sequence of writes in which writes to the same address carry the
same value, every written address holds the value written to it. -/
theorem foldl_writes_get {κ : Type} (addr : κ → Ptr) (val : κ → float3) (ks : List κ)
    (m0 : Memory) (hinj : ∀ k ∈ ks, ∀ k' ∈ ks, addr k = addr k' → val k = val k') :
    ∀ k ∈ ks, (ks.foldl (fun m k => Cubemap.writeAt m (addr k) (val k)) m0) (addr k) = val k := by
  induction ks generalizing m0 with
  | nil => intro k hk; exact absurd hk (List.not_mem_nil k)
  | cons k1 t ih =>
    intro k hk
    rw [List.foldl_cons]
    have hinj' : ∀ a ∈ t, ∀ b ∈ t, addr a = addr b → val a = val b :=
      fun a ha b hb => hinj a (List.mem_cons_of_mem _ ha) b (List.mem_cons_of_mem _ hb)
    by_cases hex : ∃ k' ∈ t, addr k' = addr k
    · obtain ⟨k', hk', he⟩ := hex
      rw [← he, ih _ hinj' k' hk']
      exact hinj k' (List.mem_cons_of_mem _ hk') k hk he
    · have hno : ∀ k' ∈ t, addr k' ≠ addr k := fun k' hk' he => hex ⟨k', hk', he⟩
      rw [foldl_writes_other addr val t _ (addr k) hno]
      rcases List.mem_cons.mp hk with h1 | h1
      · rw [h1]
        unfold Cubemap.writeAt
        exact Function.update_same _ _ _
      · exact absurd rfl (hno k h1)

/-- A loop over a concatenation of lists is the nested loop. -/
theorem foldl_flatMap_eq {σ α β : Type} (f : σ → β → σ) (g : α → List β) (l : List α) (s0 : σ) :
    (l.flatMap g).foldl f s0 = l.foldl (fun s a => (g a).foldl f s) s0 := by
  induction l generalizing s0 with
  | nil => rfl
  | cons a t ih => rw [List.flatMap_cons, List.foldl_append, List.foldl_cons, ih]

/-- The reconstructor is the sequence of writes, one per texel in loop order,
of the value of the coefficients at the texel's direction. -/
theorem render_eq_texel_writes (mem : Memory) (cm : Cubemap) (sh : Fin 9 → double3) :
    renderPreScaledSH3Bands mem cm sh =
      cm.texelKeys.foldl
        (fun m k => Cubemap.writeAt m (cm.texelAddr k) (shSum sh (cm.texelDir k))) mem := by
  rw [render_eq_writes]
  unfold Cubemap.texelKeys Cubemap.texelAddr Cubemap.texelDir
  simp only [foldl_flatMap_eq, List.foldl_map, shEval_eq_shSum]

theorem mem_texelKeys (cm : Cubemap) (f : Face) (x y : ℕ) (hx : x < cm.mDimensions)
    (hy : y < cm.mDimensions) : (f, x, y) ∈ cm.texelKeys := by
  unfold Cubemap.texelKeys
  refine List.mem_flatMap.mpr ⟨f, by cases f <;> decide, ?_⟩
  refine List.mem_flatMap.mpr ⟨y, List.mem_range.mpr hy, ?_⟩
  exact List.mem_map.mpr ⟨x, List.mem_range.mpr hx, rfl⟩

/-- Distinct texels of the packed cubemap of dimension 2 have distinct
addresses. -/
theorem packedCubemap_two_distinct : (packedCubemap 2).TexelsDistinct := by
  unfold Cubemap.TexelsDistinct
  decide

/-- After the reconstructor, a texel of a cubemap without shared texel
addresses holds the sum of `sh[i] * basis_i` at its direction. -/
theorem render_texel_value (mem : Memory) (cm : Cubemap) (sh : Fin 9 → double3)
    (hd : cm.TexelsDistinct) (f : Face) (x y : ℕ) (hx : x < cm.mDimensions)
    (hy : y < cm.mDimensions) :
    renderPreScaledSH3Bands mem cm sh ((cm.getImageForFace f).getPixelRef x y) =
      shSum sh (cm.getDirectionForTexel f x y) := by
  rw [render_eq_texel_writes]
  exact foldl_writes_get cm.texelAddr (fun k => shSum sh (cm.texelDir k)) cm.texelKeys mem
    (fun k hk k' hk' h => by rw [hd k hk k' hk' h]) (f, x, y) (mem_texelKeys cm f x y hx hy)

/-- C14. `renderPreScaledSH3Bands` is the sequence of writes that stores, at
every texel `(f, x, y)` with `x, y < dim`, the sum over `i = 0 .. 8` of
`sh[i] * b_i (s)` for `s = getDirectionFor (f, x, y)`, with the basis factors
of the projector and neither `A[]` nor a solid-angle weight. For a cubemap
whose texels have pairwise distinct addresses, every texel holds that sum
after the call, whatever the memory `mem` or `mem'` held before. -/
theorem renderPreScaledSH3Bands_overwrites (mem mem' : Memory) (cm : Cubemap)
    (sh : Fin 9 → double3) (f : Face) (x y : ℕ) :
    renderPreScaledSH3Bands mem cm sh =
      cm.texelKeys.foldl
        (fun m k => Cubemap.writeAt m (cm.texelAddr k) (shSum sh (cm.texelDir k))) mem ∧
    (cm.TexelsDistinct → x < cm.getDimensions → y < cm.getDimensions →
      Cubemap.sampleAtPtr (renderPreScaledSH3Bands mem cm sh)
          ((cm.getImageForFace f).getPixelRef x y) =
        shSum sh (cm.getDirectionForTexel f x y) ∧
      Cubemap.sampleAtPtr (renderPreScaledSH3Bands mem' cm sh)
          ((cm.getImageForFace f).getPixelRef x y) =
        Cubemap.sampleAtPtr (renderPreScaledSH3Bands mem cm sh)
          ((cm.getImageForFace f).getPixelRef x y)) := by
  refine ⟨render_eq_texel_writes mem cm sh, fun hd hx hy => ?_⟩
  have hx' : x < cm.mDimensions := hx
  have hy' : y < cm.mDimensions := hy
  have h1 := render_texel_value mem cm sh hd f x y hx' hy'
  have h2 := render_texel_value mem' cm sh hd f x y hx' hy'
  unfold Cubemap.sampleAtPtr
  refine ⟨h1, ?_⟩
  rw [h1, h2]

/-- C14 at texel `(1, 0)` of face `-Z` of the packed cubemap of dimension 2, for
the band-1 coefficients and two different initial memories. -/
theorem renderPreScaledSH3Bands_overwrites_witness :
    Cubemap.sampleAtPtr
        (renderPreScaledSH3Bands (constMemory ⟨1, 1, 1⟩) (packedCubemap 2) bandOneCoefs)
        (((packedCubemap 2).getImageForFace Face.NZ).getPixelRef 1 0) =
      shSum bandOneCoefs ((packedCubemap 2).getDirectionForTexel Face.NZ 1 0) ∧
    Cubemap.sampleAtPtr (renderPreScaledSH3Bands bandOneMemory (packedCubemap 2) bandOneCoefs)
        (((packedCubemap 2).getImageForFace Face.NZ).getPixelRef 1 0) =
      Cubemap.sampleAtPtr
        (renderPreScaledSH3Bands (constMemory ⟨1, 1, 1⟩) (packedCubemap 2) bandOneCoefs)
        (((packedCubemap 2).getImageForFace Face.NZ).getPixelRef 1 0) :=
  (renderPreScaledSH3Bands_overwrites (constMemory ⟨1, 1, 1⟩) bandOneMemory (packedCubemap 2)
    bandOneCoefs Face.NZ 1 0).2 packedCubemap_two_distinct (by decide) (by decide)

/-! ## The reconstruction on the program state -/

/-- A loop whose steps only replace the pixel memory leaves the rest of the
program state as it was. -/
theorem foldl_state_mem {β : Type}
    (g : Cubemap → (Fin 9 → double3) → Memory → β → Memory) (l : List β) (st : RenderState) :
    l.foldl (fun s b => ({ s with mem := g s.cm s.sh s.mem b } : RenderState)) st =
      { st with mem := l.foldl (fun m b => g st.cm st.sh m b) st.mem } := by
  induction l generalizing st with
  | nil => rfl
  | cons b t ih => rw [List.foldl_cons, ih, List.foldl_cons]

/-- The same for a loop that also advances a pointer. -/
theorem foldl_state_mem_ptr {β : Type}
    (g : Cubemap → (Fin 9 → double3) → Memory → Ptr → β → Memory) (nxt : Ptr → Ptr)
    (l : List β) (st : RenderState) (data : Ptr) :
    l.foldl (fun (acc : RenderState × Ptr) b =>
        (({ acc.1 with mem := g acc.1.cm acc.1.sh acc.1.mem acc.2 b } : RenderState),
          nxt acc.2)) (st, data) =
      ({ st with mem := (l.foldl (fun (acc : Memory × Ptr) b =>
            (g st.cm st.sh acc.1 acc.2 b, nxt acc.2)) (st.mem, data)).1 },
        (l.foldl (fun (acc : Memory × Ptr) b =>
            (g st.cm st.sh acc.1 acc.2 b, nxt acc.2)) (st.mem, data)).2) := by
  induction l generalizing st data with
  | nil => rfl
  | cons b t ih => rw [List.foldl_cons, ih, List.foldl_cons]

theorem procState_eq (st : RenderState) (y : ℕ) (f : Face) (data : Ptr) (dim : ℕ) :
    renderPreScaledSH3Bands.procState st y f data dim =
      { st with mem := renderPreScaledSH3Bands.proc st.cm st.sh st.mem y f data dim } := by
  unfold renderPreScaledSH3Bands.procState renderPreScaledSH3Bands.proc
  rw [foldl_state_mem_ptr
    (fun cm sh m p x => renderPreScaledSH3Bands.procTexel cm sh m y f p x)
    (fun p => (p + sizeofFloat3) % SIZE_WRAP)]

theorem taskState_eq (st : RenderState) (f : Face) (dim : ℕ) :
    renderPreScaledSH3Bands.taskState st f dim =
      { st with mem := renderPreScaledSH3Bands.task st.cm st.sh st.mem f dim } := by
  unfold renderPreScaledSH3Bands.taskState renderPreScaledSH3Bands.task
  simp only [procState_eq]
  exact foldl_state_mem
    (fun cm sh m y => renderPreScaledSH3Bands.proc cm sh m y f
      ((cm.getImageForFace f).getPixelRef 0 y) dim) (List.range dim) st

/-- The call on the program state changes the pixel memory as
`renderPreScaledSH3Bands` computes it, and nothing else. -/
theorem run_eq (st : RenderState) :
    renderPreScaledSH3Bands.run st =
      { st with mem := renderPreScaledSH3Bands st.mem st.cm st.sh } := by
  unfold renderPreScaledSH3Bands.run renderPreScaledSH3Bands
  simp only [taskState_eq]
  exact foldl_state_mem
    (fun cm sh m f => renderPreScaledSH3Bands.task cm sh m f st.cm.getDimensions) Face.all st

/-- C15. A call of `renderPreScaledSH3Bands` changes only texel contents: the
dimension of the cubemap, the width, height, bytes per row and data pointer of
each of its six faces, and the coefficient array are after the call what they
were before. -/
theorem renderPreScaledSH3Bands_frame (st : RenderState) :
    (renderPreScaledSH3Bands.run st).cm.getDimensions = st.cm.getDimensions ∧
    (∀ f : Face,
      ((renderPreScaledSH3Bands.run st).cm.getImageForFace f).getWidth
          = (st.cm.getImageForFace f).getWidth ∧
      ((renderPreScaledSH3Bands.run st).cm.getImageForFace f).getHeight
          = (st.cm.getImageForFace f).getHeight ∧
      ((renderPreScaledSH3Bands.run st).cm.getImageForFace f).getBytesPerRow
          = (st.cm.getImageForFace f).getBytesPerRow ∧
      ((renderPreScaledSH3Bands.run st).cm.getImageForFace f).getData
          = (st.cm.getImageForFace f).getData) ∧
    (renderPreScaledSH3Bands.run st).sh = st.sh ∧
    (renderPreScaledSH3Bands.run st).mem = renderPreScaledSH3Bands st.mem st.cm st.sh := by
  rw [run_eq]
  exact ⟨rfl, fun _ => ⟨rfl, rfl, rfl, rfl⟩, rfl, rfl⟩

/-! ## Image planes -/

/-- C16 as stated fails: a created image with a stride below its width, a crop
wider than its parent, and a wrapped image whose row size overflows `size_t`
all have `bytesPerRow < width * 12`. -/
theorem image_rowFits_counterexample :
    ¬ (Image.create (fun _ => 4096) 4 1 2).RowFits ∧
    ¬ (Image.default.subset (Image.wrap 4096 2 2) 0 0 3 1).RowFits ∧
    ¬ (Image.wrap 4096 (2 ^ 63) 1).RowFits := by
  refine ⟨?_, ?_, ?_⟩ <;> decide

/-- C16, as the code behaves: the default image satisfies `bytesPerRow >= width * 12`;
a created image does when `stride = 0` or `stride >= w` and the row size does
not overflow `size_t`; a wrapped image does when `w * 12` does not overflow;
`set` copies the property from its argument; `subset` has it when the window is
no wider than a parent that has it. -/
theorem image_rowFits (alloc : ℕ → Ptr) (data : Ptr) (self image : Image)
    (w h stride x y : ℕ) :
    Image.default.RowFits ∧
    ((stride = 0 ∨ w ≤ stride) → (if stride ≠ 0 then stride else w) * sizeofFloat3 < SIZE_WRAP →
      (Image.create alloc w h stride).RowFits) ∧
    (w * sizeofFloat3 < SIZE_WRAP → (Image.wrap data w h).RowFits) ∧
    (image.RowFits → (self.set image).RowFits) ∧
    (w ≤ image.getWidth → image.RowFits → (self.subset image x y w h).RowFits) := by
  refine ⟨by decide, fun hs hlt => ?_, fun hlt => ?_, fun hi => hi, fun hw hi => ?_⟩
  · unfold Image.RowFits Image.create Image.getWidth Image.getBytesPerRow
    simp only
    rw [Nat.mod_eq_of_lt hlt]
    rcases hs with h0 | hle
    · rw [h0]
      simp
    · by_cases h0 : stride = 0
      · rw [h0]
        simp
      · rw [if_pos h0]
        exact Nat.mul_le_mul_right _ hle
  · unfold Image.RowFits Image.wrap Image.getWidth Image.getBytesPerRow
    simp only
    rw [Nat.mod_eq_of_lt hlt]
  · unfold Image.RowFits at hi ⊢
    unfold Image.getWidth at hw
    exact le_trans (Nat.mul_le_mul_right _ hw) hi

/-- The amended C16 at `w = 2`, `stride = 4` and a wrapped four-by-four parent. -/
theorem image_rowFits_witness :
    (Image.create (fun _ => 4096) 2 3 4).RowFits ∧
    (Image.wrap 8192 2 3).RowFits ∧
    (Image.default.set (Image.wrap 8192 4 4)).RowFits ∧
    (Image.default.subset (Image.wrap 8192 4 4) 1 1 2 3).RowFits :=
  ⟨(image_rowFits (fun _ => 4096) 8192 Image.default (Image.wrap 8192 4 4) 2 3 4 1 1).2.1
      (Or.inr (by decide)) (by decide),
    (image_rowFits (fun _ => 4096) 8192 Image.default (Image.wrap 8192 4 4) 2 3 4 1 1).2.2.1
      (by decide),
    (image_rowFits (fun _ => 4096) 8192 Image.default (Image.wrap 8192 4 4) 2 3 4 1 1).2.2.2.1
      (by decide),
    (image_rowFits (fun _ => 4096) 8192 Image.default (Image.wrap 8192 4 4) 2 3 4 1 1).2.2.2.2
      (by decide) (by decide)⟩

/-- C17. After `t.subset(src, x, y, w, h)` the image `t` has width `w`, height `h`
and the bytes per row of `src`, and for all `i`, `j` the address of its texel
`(i, j)` is the address of texel `(x + i, y + j)` of `src`. -/
theorem subset_window (self src : Image) (x y w h i j : ℕ) :
    (self.subset src x y w h).getWidth = w ∧
    (self.subset src x y w h).getHeight = h ∧
    (self.subset src x y w h).getBytesPerRow = src.getBytesPerRow ∧
    (self.subset src x y w h).getPixelRef i j = src.getPixelRef (x + i) (y + j) := by
  refine ⟨rfl, rfl, rfl, ?_⟩
  unfold Image.subset Image.getPixelRef Image.getBytesPerRow Image.getBytesPerPixel
  simp only
  rw [Nat.add_assoc (_ % SIZE_WRAP), Nat.mod_add_mod]
  congr 1
  ring

/-! ## Cubemap faces -/

/-- C18. After `resetDimensions(dim)`, whatever the cubemap held before, the
dimension is `dim`, the scale is `2 / dim`, and each of the six faces is
invalid with width, height and bytes per row `0`. -/
theorem resetDimensions_spec (nextafter : ℝ → ℝ → ℝ) (cm : Cubemap) (dim : ℕ) :
    (cm.resetDimensions nextafter dim).getDimensions = dim ∧
    (cm.resetDimensions nextafter dim).mScale = 2 / (dim : ℝ) ∧
    ∀ f : Face,
      ((cm.resetDimensions nextafter dim).getImageForFace f).isValid = false ∧
      ((cm.resetDimensions nextafter dim).getImageForFace f).getWidth = 0 ∧
      ((cm.resetDimensions nextafter dim).getImageForFace f).getHeight = 0 ∧
      ((cm.resetDimensions nextafter dim).getImageForFace f).getBytesPerRow = 0 :=
  ⟨rfl, rfl, fun _ => ⟨rfl, rfl, rfl, rfl⟩⟩

/-- C19. After `setImageForFace(f, img)` the image of face `f` has the width,
height, bytes per row and data pointer of `img`, the images of the five other
faces are the ones held before, and the dimension is unchanged. -/
theorem setImageForFace_spec (cm : Cubemap) (f : Face) (img : Image) :
    ((cm.setImageForFace f img).getImageForFace f).getWidth = img.getWidth ∧
    ((cm.setImageForFace f img).getImageForFace f).getHeight = img.getHeight ∧
    ((cm.setImageForFace f img).getImageForFace f).getBytesPerRow = img.getBytesPerRow ∧
    ((cm.setImageForFace f img).getImageForFace f).getData = img.getData ∧
    (∀ g : Face, g ≠ f → (cm.setImageForFace f img).getImageForFace g = cm.getImageForFace g) ∧
    (cm.setImageForFace f img).getDimensions = cm.getDimensions := by
  unfold Cubemap.setImageForFace Cubemap.getImageForFace
  simp only [Function.update_same]
  exact ⟨rfl, rfl, rfl, rfl, fun g hg => Function.update_noteq hg _ _, rfl⟩

/-! ## Factorials and the truncated-cosine coefficients -/

/-- The loop of `factorial` multiplies the accumulator by `n! / d!`. -/
theorem factorialLoop_eq (d : ℕ) : ∀ (n : ℕ) (r : ℚ), d ≤ n →
    factorialLoop d n r = r * ((n.factorial : ℚ) / (d.factorial : ℚ)) := by
  intro n
  induction n with
  | zero =>
    intro r hd
    have h0 : d = 0 := Nat.le_zero.mp hd
    subst h0
    simp [factorialLoop]
  | succ k ih =>
    intro r hd
    have hfd : (d.factorial : ℚ) ≠ 0 := by exact_mod_cast d.factorial_ne_zero
    unfold factorialLoop
    by_cases h : k + 1 > d
    · rw [if_pos h, ih _ (Nat.lt_succ_iff.mp h), Nat.factorial_succ]
      push_cast
      field_simp
      ring
    · rw [if_neg h]
      have he : d = k + 1 := le_antisymm hd (not_lt.mp h)
      rw [he, div_self (by exact_mod_cast (k + 1).factorial_ne_zero), mul_one]

theorem factorial_max_one (n : ℕ) : (max 1 n).factorial = n.factorial := by
  rcases Nat.eq_zero_or_pos n with h | h
  · subst h
    rfl
  · rw [max_eq_right h]

/-- The function `factorial(n, d)` is the quotient of the two factorials. -/
theorem factorial_eq (n d : ℕ) : factorial n d = (n.factorial : ℚ) / (d.factorial : ℚ) := by
  have hfn : ((max 1 n).factorial : ℚ) ≠ 0 := by exact_mod_cast (max 1 n).factorial_ne_zero
  have hfd : ((max 1 d).factorial : ℚ) ≠ 0 := by exact_mod_cast (max 1 d).factorial_ne_zero
  unfold factorial
  simp only
  rw [← factorial_max_one n, ← factorial_max_one d]
  by_cases h1 : max 1 n = max 1 d
  · rw [if_pos h1, h1, div_self hfd]
  · rw [if_neg h1]
    by_cases h2 : max 1 n > max 1 d
    · rw [if_pos h2, factorialLoop_eq _ _ _ h2.le, one_mul]
    · rw [if_neg h2, factorialLoop_eq _ _ _ (not_lt.mp h2), one_mul, one_div, inv_div]

/-- C30. For all natural numbers `n` and `d`, `factorial(n, d)` is `n! / d!` as an
exact rational (with `0! = 1`), `factorial(n)` is `n!`, and
`factorial(n, d) * factorial(d, n) = 1`. -/
theorem factorial_spec (n d : ℕ) :
    factorial n d = (n.factorial : ℚ) / (d.factorial : ℚ) ∧
    factorial n = (n.factorial : ℚ) ∧
    factorial n d * factorial d n = 1 := by
  have hfn : (n.factorial : ℚ) ≠ 0 := by exact_mod_cast n.factorial_ne_zero
  have hfd : (d.factorial : ℚ) ≠ 0 := by exact_mod_cast d.factorial_ne_zero
  refine ⟨factorial_eq n d, ?_, ?_⟩
  · rw [factorial_eq n 1]
    simp
  · rw [factorial_eq n d, factorial_eq d n]
    field_simp

/-- For `l <= 30` the shift `1 << l` does not leave the range of a 32-bit `int`. -/
theorem oneShl_eq (l : ℕ) (hl : l ≤ 30) : oneShl l = 2 ^ l := by
  unfold oneShl
  interval_cases l <;> rfl

/-- The sign chosen by `(l_2 & 1) ? 1.0 : -1.0`. -/
theorem cosSh_sign (k : ℕ) (hk : 1 ≤ k) :
    (if k &&& 1 ≠ 0 then (1.0 : ℝ) else -1.0) = (-1) ^ (k - 1) := by
  rw [Nat.and_one_is_mod]
  rcases Nat.even_or_odd k with he | ho
  · have h0 : k % 2 = 0 := Nat.even_iff.mp he
    have hodd : Odd (k - 1) := Nat.Even.sub_odd hk he odd_one
    rw [if_neg (by simp [h0]), hodd.neg_one_pow]
    norm_num
  · have h1 : k % 2 = 1 := Nat.odd_iff.mp ho
    have hev : Even (k - 1) := Nat.Odd.sub_odd ho odd_one
    rw [if_pos (by simp [h1]), hev.neg_one_pow]
    norm_num

/-- The truncated-cosine coefficient of an even band `l` between 2 and 30. -/
theorem computeTruncatedCosSh_even (l : ℕ) (h2 : 2 ≤ l) (h30 : l ≤ 30) (hev : l % 2 = 0) :
    computeTruncatedCosSh l =
      2 * Real.pi * (-1) ^ (l / 2 - 1) / (((l : ℝ) + 2) * ((l : ℝ) - 1))
        * (l.factorial : ℝ) / (2 ^ l * ((l / 2).factorial : ℝ) ^ 2) := by
  have hw : (l + SIZE_WRAP - 1) % SIZE_WRAP = l - 1 := by
    have e : l + SIZE_WRAP - 1 = (l - 1) + SIZE_WRAP := by omega
    rw [e, Nat.add_mod_right, Nat.mod_eq_of_lt (by unfold SIZE_WRAP; omega)]
  have hprod : ((l + 2) * (l - 1)) % SIZE_WRAP = (l + 2) * (l - 1) := by
    apply Nat.mod_eq_of_lt
    have h1 : (l + 2) * (l - 1) ≤ 32 * 29 := Nat.mul_le_mul (by omega) (by omega)
    unfold SIZE_WRAP
    omega
  have hcast : (((l + 2) * (l - 1) : ℕ) : ℝ) = ((l : ℝ) + 2) * ((l : ℝ) - 1) := by
    rw [Nat.cast_mul, Nat.cast_sub (by omega)]
    push_cast
    ring
  have hshl : ((oneShl l : ℤ) : ℝ) = 2 ^ l := by
    rw [oneShl_eq l h30]
    push_cast
    ring
  have hf1 : ((factorial l (l / 2) : ℚ) : ℝ) = (l.factorial : ℝ) / ((l / 2).factorial : ℝ) := by
    rw [factorial_eq]
    push_cast
    ring
  have hf2 : ((factorial (l / 2) : ℚ) : ℝ) = ((l / 2).factorial : ℝ) := by
    rw [factorial_eq (l / 2) 1]
    simp
  have hfac : ((l / 2).factorial : ℝ) ≠ 0 := by exact_mod_cast (l / 2).factorial_ne_zero
  have hden : ((l : ℝ) + 2) * ((l : ℝ) - 1) ≠ 0 := by
    have : (2 : ℝ) ≤ l := by exact_mod_cast h2
    apply mul_ne_zero <;> linarith
  unfold computeTruncatedCosSh
  rw [if_neg (by omega), if_neg (by omega), Nat.and_one_is_mod, if_neg (by simp [hev])]
  simp only [hw, hprod, hcast, hshl, hf1, hf2, cosSh_sign (l / 2) (by omega), PI]
  field_simp
  left
  ring

theorem computeTruncatedCosSh_two : computeTruncatedCosSh 2 = Real.pi / 4 := by
  rw [computeTruncatedCosSh_even 2 le_rfl (by decide) rfl]
  norm_num [Nat.factorial]
  ring

/-- C24. Values of `computeTruncatedCosSh`: `pi` at 0, `2 * pi / 3` at 1, `0` at
every odd `l >= 3`, the factorial-ratio formula at every even `l` with
`2 <= l <= 30`, and `pi / 4` at 2. -/
theorem computeTruncatedCosSh_spec (l : ℕ) :
    computeTruncatedCosSh 0 = Real.pi ∧
    computeTruncatedCosSh 1 = 2 * Real.pi / 3 ∧
    (3 ≤ l → l % 2 = 1 → computeTruncatedCosSh l = 0) ∧
    (2 ≤ l → l ≤ 30 → l % 2 = 0 →
      computeTruncatedCosSh l =
        2 * Real.pi * (-1) ^ (l / 2 - 1) / (((l : ℝ) + 2) * ((l : ℝ) - 1))
          * (l.factorial : ℝ) / (2 ^ l * ((l / 2).factorial : ℝ) ^ 2)) ∧
    computeTruncatedCosSh 2 = Real.pi / 4 := by
  refine ⟨?_, ?_, fun h3 hodd => ?_, computeTruncatedCosSh_even l, computeTruncatedCosSh_two⟩
  · simp [computeTruncatedCosSh, PI]
  · simp [computeTruncatedCosSh, PI]
  · unfold computeTruncatedCosSh
    rw [if_neg (by omega), if_neg (by omega), Nat.and_one_is_mod, if_pos (by simp [hodd])]

/-- C24 at the odd band 3 and the even band 4. -/
theorem computeTruncatedCosSh_spec_witness :
    computeTruncatedCosSh 3 = 0 ∧
    computeTruncatedCosSh 4 =
      2 * Real.pi * (-1) ^ (4 / 2 - 1) / ((((4 : ℕ) : ℝ) + 2) * (((4 : ℕ) : ℝ) - 1))
        * ((Nat.factorial 4 : ℕ) : ℝ) / (2 ^ 4 * ((Nat.factorial (4 / 2) : ℕ) : ℝ) ^ 2) :=
  ⟨(computeTruncatedCosSh_spec 3).2.2.1 (by decide) (by decide),
    (computeTruncatedCosSh_spec 4).2.2.2.1 (by decide) (by decide) (by decide)⟩

/-! ## The band-2 constants -/

/-- Values of the five band-2 constants. -/
theorem A_band2 :
    computeIrradianceSH3Bands.A 4 = 15 / (16 * Real.pi) ∧
    computeIrradianceSH3Bands.A 5 = 15 / (16 * Real.pi) ∧
    computeIrradianceSH3Bands.A 6 = 5 / (64 * Real.pi) ∧
    computeIrradianceSH3Bands.A 7 = 15 / (16 * Real.pi) ∧
    computeIrradianceSH3Bands.A 8 = 15 / (64 * Real.pi) := by
  have hpi : Real.pi ≠ 0 := Real.pi_ne_zero
  simp only [computeIrradianceSH3Bands.A, vec9_4, vec9_5, vec9_6, vec9_7, vec9_8,
    computeTruncatedCosSh_two, INV_PI, PI]
  refine ⟨?_, ?_, ?_, ?_, ?_⟩ <;> field_simp <;> ring

/-- C23 as stated fails: `A[8]` is not equal to `A[4]`, so the four constants
`A[4]`, `A[5]`, `A[7]`, `A[8]` are not all equal. -/
theorem A_band2_counterexample :
    ¬ (computeIrradianceSH3Bands.A 4 = computeIrradianceSH3Bands.A 5 ∧
       computeIrradianceSH3Bands.A 5 = computeIrradianceSH3Bands.A 7 ∧
       computeIrradianceSH3Bands.A 7 = computeIrradianceSH3Bands.A 8 ∧
       computeIrradianceSH3Bands.A 4 = 12 * computeIrradianceSH3Bands.A 6) := by
  obtain ⟨_, _, _, h7, h8⟩ := A_band2
  intro h
  have h78 := h.2.2.1
  rw [h7, h8] at h78
  have hpi : 0 < Real.pi := Real.pi_pos
  have hne : Real.pi ≠ 0 := hpi.ne.symm
  field_simp at h78
  rcases h78 with h | h
  · norm_num at h
  · exact hne h

/-- C23, as the code behaves: `A[4] = A[5] = A[7]` carry the `15 / (4 * pi)`
normalization, `A[6]` the `5 / (16 * pi)` one and `A[8]` the `15 / (16 * pi)`
one, so `A[4] = 12 * A[6]` and `A[4] = 4 * A[8]`. -/
theorem A_band2_relations :
    computeIrradianceSH3Bands.A 4 = computeIrradianceSH3Bands.A 5 ∧
    computeIrradianceSH3Bands.A 5 = computeIrradianceSH3Bands.A 7 ∧
    computeIrradianceSH3Bands.A 4 = 4 * computeIrradianceSH3Bands.A 8 ∧
    computeIrradianceSH3Bands.A 4 = 12 * computeIrradianceSH3Bands.A 6 := by
  obtain ⟨h4, h5, h6, h7, h8⟩ := A_band2
  have hne : Real.pi ≠ 0 := Real.pi_ne_zero
  rw [h4, h5, h6, h7, h8]
  refine ⟨rfl, rfl, ?_, ?_⟩ <;> field_simp <;> ring

/-! ## Linearity of the projection -/

theorem getDirectionForTexel_congr (cm cm' : Cubemap) (h : cm.mScale = cm'.mScale) (f : Face)
    (x y : ℕ) : cm.getDirectionForTexel f x y = cm'.getDirectionForTexel f x y := by
  unfold Cubemap.getDirectionForTexel Cubemap.getDirectionFor
  rw [h]

theorem mScale_eq_of_dim (cm cm' : Cubemap) (hw : cm.WellFormed) (hw' : cm'.WellFormed)
    (hd : cm'.mDimensions = cm.mDimensions) : cm'.mScale = cm.mScale := by
  rw [hw', hw, hd]

/-- The texel sums are linear in the texel data. -/
theorem coef_linear (mem1 mem2 mem3 : Memory) (cm1 cm2 cm3 : Cubemap) (α β : ℝ)
    (hd2 : cm2.mDimensions = cm1.mDimensions) (hd3 : cm3.mDimensions = cm1.mDimensions)
    (hw1 : cm1.WellFormed) (hw2 : cm2.WellFormed) (hw3 : cm3.WellFormed)
    (hmix : ∀ f x y, x < cm1.mDimensions → y < cm1.mDimensions → ∀ a : Axis,
      a.component (Cubemap.sampleAtPtr mem3 ((cm3.getImageForFace f).getPixelRef x y)) =
        α * a.component (Cubemap.sampleAtPtr mem1 ((cm1.getImageForFace f).getPixelRef x y))
        + β * a.component (Cubemap.sampleAtPtr mem2 ((cm2.getImageForFace f).getPixelRef x y)))
    (a : Axis) (i : Fin 9) :
    a.component (computeIrradianceSH3Bands mem3 cm3 i) =
      α * a.component (computeIrradianceSH3Bands mem1 cm1 i)
      + β * a.component (computeIrradianceSH3Bands mem2 cm2 i) := by
  have hface : ∀ f, ∑ y in Finset.range cm1.mDimensions, ∑ x in Finset.range cm1.mDimensions,
      shTerm mem3 cm3 a i f x y =
      α * (∑ y in Finset.range cm1.mDimensions, ∑ x in Finset.range cm1.mDimensions,
        shTerm mem1 cm1 a i f x y)
      + β * (∑ y in Finset.range cm1.mDimensions, ∑ x in Finset.range cm1.mDimensions,
        shTerm mem2 cm2 a i f x y) := by
    intro f
    simp only [Finset.mul_sum, ← Finset.sum_add_distrib]
    refine Finset.sum_congr rfl (fun y hy => Finset.sum_congr rfl (fun x hx => ?_))
    unfold shTerm
    rw [hmix f x y (Finset.mem_range.mp hx) (Finset.mem_range.mp hy) a, hd2, hd3,
      getDirectionForTexel_congr cm3 cm1 (mScale_eq_of_dim cm1 cm3 hw1 hw3 hd3),
      getDirectionForTexel_congr cm2 cm1 (mScale_eq_of_dim cm1 cm2 hw1 hw2 hd2)]
    ring
  rw [coef_component, coef_component, coef_component, hd2, hd3]
  unfold sumFaces
  simp only [hface]
  ring

/-- C28. Projection is linear in the texel data: if the cubemaps have the same
dimension and every texel of the third is `α` times the texel of the first plus
`β` times the texel of the second, then every component of every coefficient
of the third is the same combination of the coefficients of the other two. -/
theorem computeIrradianceSH3Bands_linear (mem1 mem2 mem3 : Memory) (cm1 cm2 cm3 : Cubemap)
    (α β : ℝ)
    (hd2 : cm2.mDimensions = cm1.mDimensions) (hd3 : cm3.mDimensions = cm1.mDimensions)
    (hw1 : cm1.WellFormed) (hw2 : cm2.WellFormed) (hw3 : cm3.WellFormed)
    (hmix : ∀ f x y, x < cm1.mDimensions → y < cm1.mDimensions → ∀ a : Axis,
      a.component (Cubemap.sampleAtPtr mem3 ((cm3.getImageForFace f).getPixelRef x y)) =
        α * a.component (Cubemap.sampleAtPtr mem1 ((cm1.getImageForFace f).getPixelRef x y))
        + β * a.component (Cubemap.sampleAtPtr mem2 ((cm2.getImageForFace f).getPixelRef x y)))
    (a : Axis) (i : Fin 9) :
    a.component (computeIrradianceSH3Bands mem3 cm3 i) =
      α * a.component (computeIrradianceSH3Bands mem1 cm1 i)
      + β * a.component (computeIrradianceSH3Bands mem2 cm2 i) :=
  coef_linear mem1 mem2 mem3 cm1 cm2 cm3 α β hd2 hd3 hw1 hw2 hw3 hmix a i

/-- C28 at the dimension-1 packed cubemap: twice the band-1 texels plus three
times the all-ones texels, coefficient 1, first colour component. -/
theorem computeIrradianceSH3Bands_linear_witness :
    Axis.X.component (computeIrradianceSH3Bands
        (mixMemory 2 3 bandOneMemory (constMemory ⟨1, 1, 1⟩)) (packedCubemap 1) 1) =
      2 * Axis.X.component (computeIrradianceSH3Bands bandOneMemory (packedCubemap 1) 1)
      + 3 * Axis.X.component
          (computeIrradianceSH3Bands (constMemory ⟨1, 1, 1⟩) (packedCubemap 1) 1) :=
  computeIrradianceSH3Bands_linear bandOneMemory (constMemory ⟨1, 1, 1⟩)
    (mixMemory 2 3 bandOneMemory (constMemory ⟨1, 1, 1⟩))
    (packedCubemap 1) (packedCubemap 1) (packedCubemap 1) 2 3 rfl rfl
    (packedCubemap_wellFormed 1) (packedCubemap_wellFormed 1) (packedCubemap_wellFormed 1)
    (fun f x y _ _ a => by
      simp only [Cubemap.sampleAtPtr, mixMemory, Axis.component_add, Axis.component_mul]
      ring)
    Axis.X 1

/-! ## Inverse addressing -/

theorem getDirectionFor_eq_faceVector (cm : Cubemap) (f : Face) (x y : ℝ) :
    cm.getDirectionFor f x y =
      faceVector f ((x * cm.mScale) - 1) (1 - (y * cm.mScale))
        * (1 / Real.sqrt (((x * cm.mScale) - 1) * ((x * cm.mScale) - 1)
            + (1 - (y * cm.mScale)) * (1 - (y * cm.mScale)) + 1)) := by
  cases f <;> rfl

/-- The address of a positive multiple of a face vector whose two free
coordinates are strictly inside `(-1, 1)` is on that face, at `((u+1)/2, (1-v)/2)`. -/
theorem getAddressFor_faceVector (f : Face) (u v r : ℝ) (hr : 0 < r) (hu : |u| < 1)
    (hv : |v| < 1) :
    (Cubemap.getAddressFor (faceVector f u v * r)).face = f ∧
    (Cubemap.getAddressFor (faceVector f u v * r)).s = (u + 1) * 0.5 ∧
    (Cubemap.getAddressFor (faceVector f u v * r)).t = (-v + 1) * 0.5 := by
  have hr0 : r ≠ 0 := hr.ne.symm
  have hur : |u * r| < r := by
    rw [abs_mul, abs_of_pos hr]
    nlinarith
  have hvr : |v * r| < r := by
    rw [abs_mul, abs_of_pos hr]
    nlinarith
  have hur' : |-u * r| < r := by rwa [neg_mul, abs_neg]
  have hvr' : |-v * r| < r := by rwa [neg_mul, abs_neg]
  have h1 : |1 * r| = r := by rw [one_mul, abs_of_pos hr]
  have h1' : |-1 * r| = r := by rw [neg_mul, one_mul, abs_neg, abs_of_pos hr]
  unfold Cubemap.getAddressFor Cubemap.getAddressForMajor
  cases f <;> simp only [faceVector, TVec3.mul_x, TVec3.mul_y, TVec3.mul_z]
  · have c1 : |-1 * r| ≥ |v * r| ∧ |-1 * r| ≥ |u * r| := by
      rw [h1']
      exact ⟨hvr.le, hur.le⟩
    have c2 : ¬ (-1 * r ≥ 0) := by
      intro h
      linarith
    rw [if_pos c1, if_neg c2]
    simp only [h1']
    refine ⟨trivial, ?_, ?_⟩ <;> (field_simp; try ring)
  · have c1 : |1 * r| ≥ |v * r| ∧ |1 * r| ≥ |-u * r| := by
      rw [h1]
      exact ⟨hvr.le, hur'.le⟩
    have c2 : 1 * r ≥ 0 := by linarith
    rw [if_pos c1, if_pos c2]
    simp only [h1]
    refine ⟨trivial, ?_, ?_⟩ <;> (field_simp; try ring)
  · have c1 : ¬ (|u * r| ≥ |-1 * r| ∧ |u * r| ≥ |v * r|) := by
      rw [h1']
      intro h
      linarith [h.1]
    have c3 : |-1 * r| ≥ |u * r| ∧ |-1 * r| ≥ |v * r| := by
      rw [h1']
      exact ⟨hur.le, hvr.le⟩
    have c4 : ¬ (-1 * r ≥ 0) := by
      intro h
      linarith
    rw [if_neg c1, if_pos c3, if_neg c4]
    simp only [h1']
    refine ⟨trivial, ?_, ?_⟩ <;> (field_simp; try ring)
  · have c1 : ¬ (|u * r| ≥ |1 * r| ∧ |u * r| ≥ |-v * r|) := by
      rw [h1]
      intro h
      linarith [h.1]
    have c3 : |1 * r| ≥ |u * r| ∧ |1 * r| ≥ |-v * r| := by
      rw [h1]
      exact ⟨hur.le, hvr'.le⟩
    have c4 : 1 * r ≥ 0 := by linarith
    rw [if_neg c1, if_pos c3, if_pos c4]
    simp only [h1]
    refine ⟨trivial, ?_, ?_⟩ <;> (field_simp; try ring)
  · have c1 : ¬ (|-u * r| ≥ |v * r| ∧ |-u * r| ≥ |-1 * r|) := by
      rw [h1']
      intro h
      linarith [h.2]
    have c3 : ¬ (|v * r| ≥ |-u * r| ∧ |v * r| ≥ |-1 * r|) := by
      rw [h1']
      intro h
      linarith [h.2]
    have c5 : ¬ (-1 * r ≥ 0) := by
      intro h
      linarith
    rw [if_neg c1, if_neg c3, if_neg c5]
    simp only [h1']
    refine ⟨trivial, ?_, ?_⟩ <;> (field_simp; try ring)
  · have c1 : ¬ (|u * r| ≥ |v * r| ∧ |u * r| ≥ |1 * r|) := by
      rw [h1]
      intro h
      linarith [h.2]
    have c3 : ¬ (|v * r| ≥ |u * r| ∧ |v * r| ≥ |1 * r|) := by
      rw [h1]
      intro h
      linarith [h.2]
    have c5 : 1 * r ≥ 0 := by linarith
    rw [if_neg c1, if_neg c3, if_pos c5]
    simp only [h1]
    refine ⟨trivial, ?_, ?_⟩ <;> (field_simp; try ring)

/-- The address of the direction of an interior face coordinate. -/
theorem getAddressFor_getDirectionFor (cm : Cubemap) (hwf : cm.WellFormed) (f : Face)
    (x y : ℝ) (hx0 : 0 < x) (hx1 : x < cm.mDimensions) (hy0 : 0 < y)
    (hy1 : y < cm.mDimensions) :
    (Cubemap.getAddressFor (cm.getDirectionFor f x y)).face = f ∧
    (Cubemap.getAddressFor (cm.getDirectionFor f x y)).s = x / cm.mDimensions ∧
    (Cubemap.getAddressFor (cm.getDirectionFor f x y)).t = y / cm.mDimensions := by
  have hd : (0 : ℝ) < cm.mDimensions := lt_trans hx0 hx1
  have hd0 : (cm.mDimensions : ℝ) ≠ 0 := hd.ne.symm
  have hu : |(x * cm.mScale) - 1| < 1 := by
    rw [hwf, abs_lt]
    constructor
    · have : 0 < x * (2 / (cm.mDimensions : ℝ)) := by positivity
      linarith
    · have : x * (2 / (cm.mDimensions : ℝ)) < 2 := by
        rw [mul_div_assoc', div_lt_iff₀ hd]
        linarith
      linarith
  have hv : |1 - (y * cm.mScale)| < 1 := by
    rw [hwf, abs_lt]
    constructor
    · have : y * (2 / (cm.mDimensions : ℝ)) < 2 := by
        rw [mul_div_assoc', div_lt_iff₀ hd]
        linarith
      linarith
    · have : 0 < y * (2 / (cm.mDimensions : ℝ)) := by positivity
      linarith
  have hr := sqrt_face_pos ((x * cm.mScale) - 1) (1 - (y * cm.mScale))
  obtain ⟨h1, h2, h3⟩ := getAddressFor_faceVector f ((x * cm.mScale) - 1) (1 - (y * cm.mScale))
    _ (one_div_pos.mpr hr) hu hv
  rw [getDirectionFor_eq_faceVector, h1, h2, h3, hwf]
  refine ⟨rfl, ?_, ?_⟩ <;> (field_simp; try ring)

/-- The texel indices computed for the direction of a texel centre are the
indices of that texel. -/
theorem sampleAtIndex_texel (cm : Cubemap) (hwf : cm.WellFormed)
    (hsz : cm.mDimensions < SIZE_WRAP) (f : Face) (ix iy : ℕ) (hx : ix < cm.mDimensions)
    (hy : iy < cm.mDimensions) :
    (Cubemap.getAddressFor (cm.getDirectionForTexel f ix iy)).face = f ∧
    cm.sampleAtIndex (cm.getDirectionForTexel f ix iy) = (ix, iy) := by
  have hd : (0 : ℝ) < cm.mDimensions := by
    have : 0 < cm.mDimensions := by omega
    exact_mod_cast this
  have hd0 : (cm.mDimensions : ℝ) ≠ 0 := hd.ne.symm
  have hxr : (ix : ℝ) + 0.5 < cm.mDimensions := by
    have : (ix : ℝ) + 1 ≤ cm.mDimensions := by exact_mod_cast hx
    linarith
  have hyr : (iy : ℝ) + 0.5 < cm.mDimensions := by
    have : (iy : ℝ) + 1 ≤ cm.mDimensions := by exact_mod_cast hy
    linarith
  obtain ⟨h1, h2, h3⟩ := getAddressFor_getDirectionFor cm hwf f ((ix : ℝ) + 0.5)
    ((iy : ℝ) + 0.5) (by positivity) hxr (by positivity) hyr
  have hfl : ∀ k : ℕ, k < cm.mDimensions →
      Cubemap.toSizeT (((k : ℝ) + 0.5) / cm.mDimensions * cm.mDimensions) = k := by
    intro k hk
    unfold Cubemap.toSizeT
    rw [div_mul_cancel₀ _ hd0]
    have hf : ⌊(k : ℝ) + 0.5⌋₊ = k := by
      rw [Nat.floor_eq_iff (by positivity)]
      constructor <;> norm_num
    rw [hf, Nat.mod_eq_of_lt (by omega)]
  have hw : (cm.mDimensions + SIZE_WRAP - 1) % SIZE_WRAP = cm.mDimensions - 1 := by
    have e : cm.mDimensions + SIZE_WRAP - 1 = (cm.mDimensions - 1) + SIZE_WRAP := by omega
    rw [e, Nat.add_mod_right, Nat.mod_eq_of_lt (by omega)]
  refine ⟨h1, ?_⟩
  unfold Cubemap.sampleAtIndex
  unfold Cubemap.getDirectionForTexel
  simp only [h2, h3, hfl ix hx, hfl iy hy, hw]
  rw [min_eq_left (by omega), min_eq_left (by omega)]

/-- C26. Inverse addressing round trip: for a cubemap of dimension `dim >= 1`,
a face `f` and real coordinates `0 < x < dim`, `0 < y < dim`, the address of
`getDirectionFor (f, x, y)` is face `f` with `s = x / dim` and `t = y / dim`;
and for integer texel indices `ix, iy < dim`, `sampleAt` of the direction of
texel `(ix, iy)` of face `f` reads exactly that texel. -/
theorem inverse_addressing (mem : Memory) (cm : Cubemap) (hwf : cm.WellFormed)
    (hsz : cm.mDimensions < SIZE_WRAP) (f : Face) (x y : ℝ) (ix iy : ℕ) :
    (0 < x → x < cm.mDimensions → 0 < y → y < cm.mDimensions →
      (Cubemap.getAddressFor (cm.getDirectionFor f x y)).face = f ∧
      (Cubemap.getAddressFor (cm.getDirectionFor f x y)).s = x / cm.mDimensions ∧
      (Cubemap.getAddressFor (cm.getDirectionFor f x y)).t = y / cm.mDimensions) ∧
    (ix < cm.mDimensions → iy < cm.mDimensions →
      cm.sampleAt mem (cm.getDirectionForTexel f ix iy) =
        Cubemap.sampleAtPtr mem ((cm.getImageForFace f).getPixelRef ix iy)) := by
  refine ⟨getAddressFor_getDirectionFor cm hwf f x y, fun hx hy => ?_⟩
  obtain ⟨h1, h2⟩ := sampleAtIndex_texel cm hwf hsz f ix iy hx hy
  unfold Cubemap.sampleAt
  simp only [h1, h2]

/-- C26 on face `-Y` of the packed cubemap of dimension 2: the coordinate
`(1/2, 3/2)` and the texel `(1, 0)`. -/
theorem inverse_addressing_witness :
    ((Cubemap.getAddressFor ((packedCubemap 2).getDirectionFor Face.NY (1 / 2) (3 / 2))).face
        = Face.NY ∧
      (Cubemap.getAddressFor ((packedCubemap 2).getDirectionFor Face.NY (1 / 2) (3 / 2))).s
        = (1 / 2) / (packedCubemap 2).mDimensions ∧
      (Cubemap.getAddressFor ((packedCubemap 2).getDirectionFor Face.NY (1 / 2) (3 / 2))).t
        = (3 / 2) / (packedCubemap 2).mDimensions) ∧
    (packedCubemap 2).sampleAt bandOneMemory ((packedCubemap 2).getDirectionForTexel Face.NY 1 0) =
      Cubemap.sampleAtPtr bandOneMemory
        (((packedCubemap 2).getImageForFace Face.NY).getPixelRef 1 0) :=
  ⟨(inverse_addressing bandOneMemory (packedCubemap 2) (packedCubemap_wellFormed 2)
      (by rw [packedCubemap_mDimensions]; decide) Face.NY (1 / 2) (3 / 2) 1 0).1
      (by norm_num) (by rw [packedCubemap_mDimensions]; norm_num) (by norm_num)
      (by rw [packedCubemap_mDimensions]; norm_num),
    (inverse_addressing bandOneMemory (packedCubemap 2) (packedCubemap_wellFormed 2)
      (by rw [packedCubemap_mDimensions]; decide) Face.NY (1 / 2) (3 / 2) 1 0).2
      (by decide) (by decide)⟩

/-! ## Texels of a created image -/

theorem create_getData (alloc : ℕ → Ptr) (w h stride : ℕ) :
    (Image.create alloc w h stride).getData = alloc (Image.createSize w h stride) := rfl

/-- Offsets of texels in different rows are at least one texel apart. -/
theorem offset_rows_apart (B w x x' y y' : ℕ) (hB : w * 12 ≤ B) (hx : x < w) (hy : y < y') :
    y * B + x * 12 + 12 ≤ y' * B + x' * 12 := by
  have h1 : (y + 1) * B ≤ y' * B := Nat.mul_le_mul_right B hy
  have h2 : (y + 1) * B = y * B + B := by ring
  omega

/-- The texel at `(x, y)` ends inside a buffer of `h` rows. -/
theorem offset_in_buffer (B w h x y : ℕ) (hB : w * 12 ≤ B) (hx : x < w) (hy : y < h) :
    y * B + x * 12 + 12 ≤ B * h := by
  have h1 : (y + 1) * B ≤ h * B := Nat.mul_le_mul_right B hy
  have h2 : (y + 1) * B = y * B + B := by ring
  have h3 : h * B = B * h := Nat.mul_comm _ _
  omega

/-- Byte ranges of the texels of a buffer of `h` rows of `B` bytes at address `p`. -/
theorem texel_ranges (p B w h x y x' y' : ℕ) (hw : w * 12 ≤ B) (hx : x < w) (hy : y < h)
    (hx' : x' < w) (hy' : y' < h) :
    p ≤ p + (y * B + x * 12) ∧
    p + (y * B + x * 12) + 12 ≤ p + B * h ∧
    ((x ≠ x' ∨ y ≠ y') →
      p + (y * B + x * 12) + 12 ≤ p + (y' * B + x' * 12) ∨
      p + (y' * B + x' * 12) + 12 ≤ p + (y * B + x * 12)) := by
  have hoff := offset_in_buffer B w h x y hw hx hy
  refine ⟨Nat.le_add_right _ _, by omega, fun hne => ?_⟩
  rcases Nat.lt_trichotomy y y' with hlt | heq | hgt
  · left
    have := offset_rows_apart B w x x' y y' hw hx hlt
    omega
  · subst heq
    rcases hne with hne | hne
    · rcases Nat.lt_or_gt_of_ne hne with h1 | h1
      · left
        omega
      · right
        omega
    · exact absurd rfl hne
  · right
    have := offset_rows_apart B w x' x y' y hw hx' hgt
    omega

/-- C25 as stated fails when the row size overflows `size_t`: `Image(1, 1, 2^63)`
has `stride >= w` but `bytesPerRow = 0` and a buffer of `0` bytes, so its texel
`(0, 0)` does not lie inside the buffer. -/
theorem create_overflow_counterexample :
    (1 : ℕ) ≤ 2 ^ 63 ∧
    (Image.create (fun _ => 4096) 1 1 (2 ^ 63)).getBytesPerRow = 0 ∧
    Image.createSize 1 1 (2 ^ 63) = 0 ∧
    ¬ ((Image.create (fun _ => 4096) 1 1 (2 ^ 63)).getPixelRef 0 0 + 12
        ≤ (Image.create (fun _ => 4096) 1 1 (2 ^ 63)).getData + Image.createSize 1 1 (2 ^ 63)) := by
  refine ⟨by decide, by decide, by decide, by decide⟩

/-- Address of a texel of a created image whose buffer size does not overflow. -/
theorem create_getPixelRef (alloc : ℕ → Ptr) (w h stride x y : ℕ)
    (hs : stride = 0 ∨ w ≤ stride)
    (hrow : (if stride ≠ 0 then stride else w) * 12 < SIZE_WRAP)
    (hbuf : (if stride ≠ 0 then stride else w) * 12 * h < SIZE_WRAP)
    (halloc : alloc (Image.createSize w h stride) + Image.createSize w h stride ≤ SIZE_WRAP)
    (hx : x < w) (hy : y < h) :
    (Image.create alloc w h stride).getBytesPerRow = (if stride ≠ 0 then stride else w) * 12 ∧
    Image.createSize w h stride = (if stride ≠ 0 then stride else w) * 12 * h ∧
    w * 12 ≤ (if stride ≠ 0 then stride else w) * 12 ∧
    (Image.create alloc w h stride).getPixelRef x y =
      alloc (Image.createSize w h stride)
        + (y * ((if stride ≠ 0 then stride else w) * 12) + x * 12) := by
  have hbpr : (Image.create alloc w h stride).getBytesPerRow
      = (if stride ≠ 0 then stride else w) * 12 := by
    unfold Image.create Image.getBytesPerRow sizeofFloat3
    simp only
    rw [Nat.mod_eq_of_lt hrow]
  have hsize : Image.createSize w h stride = (if stride ≠ 0 then stride else w) * 12 * h := by
    unfold Image.createSize sizeofFloat3
    rw [Nat.mod_eq_of_lt hrow, Nat.mod_eq_of_lt hbuf]
  have hw : w * 12 ≤ (if stride ≠ 0 then stride else w) * 12 := by
    apply Nat.mul_le_mul_right
    rcases hs with h0 | hle
    · rw [h0]
      simp
    · by_cases h0 : stride = 0
      · rw [h0]
        simp
      · rw [if_pos h0]
        exact hle
  refine ⟨hbpr, hsize, hw, ?_⟩
  have hoff := offset_in_buffer _ w h x y hw hx hy
  unfold Image.getPixelRef Image.getBytesPerPixel sizeofFloat3
  rw [hbpr]
  have hd : (Image.create alloc w h stride).mData = alloc (Image.createSize w h stride) := rfl
  rw [hd]
  generalize alloc (Image.createSize w h stride) = p at halloc ⊢
  rw [hsize] at halloc
  generalize (if stride ≠ 0 then stride else w) * 12 = B at halloc hoff ⊢
  have hlt : p + y * B + x * 12 < SIZE_WRAP :=
    lt_of_lt_of_le (show p + y * B + x * 12 < p + B * h by
      have h1 : y * B + x * 12 < B * h := by omega
      calc p + y * B + x * 12 = p + (y * B + x * 12) := Nat.add_assoc _ _ _
        _ < p + B * h := Nat.add_lt_add_left h1 p) halloc
  rw [Nat.mod_eq_of_lt hlt]
  exact Nat.add_assoc _ _ _

/-- C25, as the code behaves: for an image created by `Image(w, h, stride)` with
`stride = 0` or `stride >= w`, whose buffer size `h * (stride > 0 ? stride : w) * 12`
does not overflow `size_t` (and whose buffer the allocator placed inside the
address space), the buffer has `h * bytesPerRow` bytes with
`bytesPerRow = (stride > 0 ? stride : w) * 12`, every texel `(x, y)` with
`x < w`, `y < h` lies at offset `y * bytesPerRow + x * 12` and entirely inside
the buffer, and two different in-bounds texels occupy disjoint byte ranges. -/
theorem create_texels_in_buffer (alloc : ℕ → Ptr) (w h stride x y x' y' : ℕ)
    (hs : stride = 0 ∨ w ≤ stride)
    (hrow : (if stride ≠ 0 then stride else w) * 12 < SIZE_WRAP)
    (hbuf : (if stride ≠ 0 then stride else w) * 12 * h < SIZE_WRAP)
    (halloc : alloc (Image.createSize w h stride) + Image.createSize w h stride ≤ SIZE_WRAP)
    (hx : x < w) (hy : y < h) (hx' : x' < w) (hy' : y' < h) :
    (Image.create alloc w h stride).getBytesPerRow = (if stride ≠ 0 then stride else w) * 12 ∧
    Image.createSize w h stride = h * (Image.create alloc w h stride).getBytesPerRow ∧
    (Image.create alloc w h stride).getPixelRef x y =
      (Image.create alloc w h stride).getData
        + (y * (Image.create alloc w h stride).getBytesPerRow + x * 12) ∧
    (Image.create alloc w h stride).getData ≤ (Image.create alloc w h stride).getPixelRef x y ∧
    (Image.create alloc w h stride).getPixelRef x y + 12
      ≤ (Image.create alloc w h stride).getData + Image.createSize w h stride ∧
    ((x ≠ x' ∨ y ≠ y') →
      (Image.create alloc w h stride).getPixelRef x y + 12
          ≤ (Image.create alloc w h stride).getPixelRef x' y' ∨
      (Image.create alloc w h stride).getPixelRef x' y' + 12
          ≤ (Image.create alloc w h stride).getPixelRef x y) := by
  obtain ⟨hbpr, hsize, hw, hp⟩ := create_getPixelRef alloc w h stride x y hs hrow hbuf halloc hx hy
  obtain ⟨_, _, _, hp'⟩ := create_getPixelRef alloc w h stride x' y' hs hrow hbuf halloc hx' hy'
  rw [create_getData, hbpr, hp, hp', hsize]
  obtain ⟨h1, h2, h3⟩ := texel_ranges (alloc ((if stride ≠ 0 then stride else w) * 12 * h))
    ((if stride ≠ 0 then stride else w) * 12) w h x y x' y' hw hx hy hx' hy'
  exact ⟨rfl, Nat.mul_comm _ _, rfl, h1, h2, h3⟩

/-- The amended C25 at `Image(3, 2, 4)`: texels `(2, 0)` and `(0, 1)`. -/
theorem create_texels_in_buffer_witness :
    (Image.create (fun _ => 4096) 3 2 4).getBytesPerRow = (if 4 ≠ 0 then 4 else 3) * 12 ∧
    Image.createSize 3 2 4 = 2 * (Image.create (fun _ => 4096) 3 2 4).getBytesPerRow ∧
    (Image.create (fun _ => 4096) 3 2 4).getPixelRef 2 0 =
      (Image.create (fun _ => 4096) 3 2 4).getData
        + (0 * (Image.create (fun _ => 4096) 3 2 4).getBytesPerRow + 2 * 12) ∧
    (Image.create (fun _ => 4096) 3 2 4).getData
      ≤ (Image.create (fun _ => 4096) 3 2 4).getPixelRef 2 0 ∧
    (Image.create (fun _ => 4096) 3 2 4).getPixelRef 2 0 + 12
      ≤ (Image.create (fun _ => 4096) 3 2 4).getData + Image.createSize 3 2 4 ∧
    ((2 ≠ 0 ∨ 0 ≠ 1) →
      (Image.create (fun _ => 4096) 3 2 4).getPixelRef 2 0 + 12
          ≤ (Image.create (fun _ => 4096) 3 2 4).getPixelRef 0 1 ∨
      (Image.create (fun _ => 4096) 3 2 4).getPixelRef 0 1 + 12
          ≤ (Image.create (fun _ => 4096) 3 2 4).getPixelRef 2 0) :=
  create_texels_in_buffer (fun _ => 4096) 3 2 4 2 0 0 1 (Or.inr (by decide)) (by decide)
    (by decide) (by decide) (by decide) (by decide) (by decide) (by decide)

/-! ## Positivity of the solid angle -/

/-- Derivative of `sphereQuadrantArea` in its first argument. -/
theorem hasDerivAt_sphereQuadrantArea (y x : ℝ) :
    HasDerivAt (fun t => sphereQuadrantArea t y)
      (y / ((x * x + 1) * Real.sqrt (x * x + y * y + 1))) x := by
  have hfun : (fun t => sphereQuadrantArea t y)
      = fun t => Real.arctan (t * y / Real.sqrt (t * t + y * y + 1)) :=
    funext (fun t => sphereQuadrantArea_eq t y)
  have hpos : 0 < x * x + y * y + 1 := by nlinarith [mul_self_nonneg x, mul_self_nonneg y]
  have hr : 0 < Real.sqrt (x * x + y * y + 1) := Real.sqrt_pos.mpr hpos
  have hsq : Real.sqrt (x * x + y * y + 1) ^ 2 = x * x + y * y + 1 := Real.sq_sqrt hpos.le
  have h1 : HasDerivAt (fun t : ℝ => t * t + y * y + 1) (1 * x + x * 1) x :=
    (((hasDerivAt_id x).mul (hasDerivAt_id x)).add_const (y * y)).add_const 1
  have h2 := h1.sqrt hpos.ne.symm
  have h3 : HasDerivAt (fun t : ℝ => t * y) (1 * y) x := (hasDerivAt_id x).mul_const y
  have h4 := (h3.div h2 hr.ne.symm).arctan
  rw [hfun]
  convert h4 using 1
  set r := Real.sqrt (x * x + y * y + 1) with hrdef
  have hr0 : r ≠ 0 := hr.ne.symm
  have hx1 : x * x + 1 ≠ 0 := by nlinarith [mul_self_nonneg x]
  have hden : 1 + (x * y / r) ^ 2 ≠ 0 := by positivity
  field_simp
  linear_combination (-2 * y * r ^ 3 * x ^ 2) * hsq

/-- The function `t / sqrt (c + t^2)` is strictly increasing for `c > 0`. -/
theorem ratio_strictMono (c : ℝ) (hc : 0 < c) (a b : ℝ) (hab : a < b) :
    a / Real.sqrt (c + a * a) < b / Real.sqrt (c + b * b) := by
  have hpa : 0 < c + a * a := by nlinarith [mul_self_nonneg a]
  have hpb : 0 < c + b * b := by nlinarith [mul_self_nonneg b]
  have hra : 0 < Real.sqrt (c + a * a) := Real.sqrt_pos.mpr hpa
  have hrb : 0 < Real.sqrt (c + b * b) := Real.sqrt_pos.mpr hpb
  have hsa : Real.sqrt (c + a * a) ^ 2 = c + a * a := Real.sq_sqrt hpa.le
  have hsb : Real.sqrt (c + b * b) ^ 2 = c + b * b := Real.sq_sqrt hpb.le
  rw [div_lt_div_iff₀ hra hrb]
  set ra := Real.sqrt (c + a * a)
  set rb := Real.sqrt (c + b * b)
  rcases le_or_lt 0 a with ha | ha
  · have hb : 0 < b := lt_of_le_of_lt ha hab
    have h2 : (a * rb) ^ 2 < (b * ra) ^ 2 := by
      have e : (b * ra) ^ 2 - (a * rb) ^ 2 = c * (b * b - a * a) := by
        rw [mul_pow, mul_pow, hsa, hsb]
        ring
      have hp : 0 < c * (b * b - a * a) := by
        apply mul_pos hc
        nlinarith
      linarith
    exact lt_of_pow_lt_pow_left₀ 2 (by positivity) h2
  · rcases le_or_lt b 0 with hb | hb
    · have h2 : (-(b * ra)) ^ 2 < (-(a * rb)) ^ 2 := by
        have e : (-(a * rb)) ^ 2 - (-(b * ra)) ^ 2 = c * (a * a - b * b) := by
          rw [neg_sq, neg_sq, mul_pow, mul_pow, hsa, hsb]
          ring
        have hp : 0 < c * (a * a - b * b) := by
          apply mul_pos hc
          nlinarith
        linarith
      have h3 : -(b * ra) < -(a * rb) :=
        lt_of_pow_lt_pow_left₀ 2 (by nlinarith [mul_nonneg (neg_nonneg.mpr ha.le) hrb.le]) h2
      linarith
    · have h1 : a * rb < 0 := mul_neg_of_neg_of_pos ha hrb
      have h2 : 0 < b * ra := mul_pos hb hra
      linarith

/-- The inclusion-exclusion combination of `sphereQuadrantArea` over a
rectangle `[x0, x1] x [y0, y1]` with `x0 < x1`, `y0 < y1` is positive. -/
theorem sphereQuadrantArea_rect_pos (x0 x1 y0 y1 : ℝ) (hx : x0 < x1) (hy : y0 < y1) :
    0 < sphereQuadrantArea x0 y0 - sphereQuadrantArea x0 y1 - sphereQuadrantArea x1 y0
      + sphereQuadrantArea x1 y1 := by
  have hd : ∀ x, HasDerivAt (fun t => sphereQuadrantArea t y1 - sphereQuadrantArea t y0)
      (y1 / ((x * x + 1) * Real.sqrt (x * x + y1 * y1 + 1))
        - y0 / ((x * x + 1) * Real.sqrt (x * x + y0 * y0 + 1))) x :=
    fun x => (hasDerivAt_sphereQuadrantArea y1 x).sub (hasDerivAt_sphereQuadrantArea y0 x)
  have hmono : StrictMono (fun t => sphereQuadrantArea t y1 - sphereQuadrantArea t y0) := by
    apply strictMono_of_deriv_pos
    intro x
    rw [(hd x).deriv]
    have hx1 : 0 < x * x + 1 := by nlinarith [mul_self_nonneg x]
    have h := ratio_strictMono (x * x + 1) hx1 y0 y1 hy
    have e : ∀ y : ℝ, y / ((x * x + 1) * Real.sqrt (x * x + y * y + 1))
        = (y / Real.sqrt (x * x + 1 + y * y)) / (x * x + 1) := by
      intro y
      rw [show x * x + 1 + y * y = x * x + y * y + 1 by ring, div_div, mul_comm]
    rw [e, e, ← sub_div]
    exact div_pos (by linarith) hx1
  have h := hmono hx
  simp only at h
  linarith

theorem corner_lt_succ (N k : ℕ) (hN : 1 ≤ N) : corner N k < corner N (k + 1) := by
  have hpos : (0 : ℝ) < 1 / (N : ℝ) := by positivity
  unfold corner
  push_cast
  nlinarith

/-- C27. For every dimension `N >= 1` and all texel indices `u`, `v` (in
particular `u, v < N`) the weight `solidAngle N u v` is strictly positive. -/
theorem solidAngle_pos (N u v : ℕ) (hN : 1 ≤ N) : 0 < solidAngle N u v := by
  rw [solidAngle_eq_corners]
  exact sphereQuadrantArea_rect_pos _ _ _ _ (corner_lt_succ N u hN) (corner_lt_succ N v hN)

/-- C27 at texel `(1, 2)` of a face of dimension 4. -/
theorem solidAngle_pos_witness : 0 < solidAngle 4 1 2 :=
  solidAngle_pos 4 1 2 (by decide)

/-! ## Command line parsing and wildcard matching -/

theorem parseOptions_loop_stuck (argv : List String) (st : ParseState)
    (hlt : st.argPos < argv.length) (hd : firstIsDash (argv.getD st.argPos "") = false)
    (fuel : ℕ) : parseOptions.loop argv fuel st = none := by
  induction fuel generalizing st with
  | zero => rfl
  | succ n ih =>
    have hstep : (parseOptions.step argv st).argPos = st.argPos := by
      unfold parseOptions.step
      simp only [hd]
      rfl
    rw [parseOptions.loop, if_pos hlt]
    exact ih _ (by rw [hstep]; exact hlt) (by rw [hstep]; exact hd)

/-- General form of the defect: when the first argument does not start with a dash the
loop of `parseOptions` never leaves it. -/
theorem parseOptions_diverges (argv : List String) (hlen : 1 < argv.length)
    (hd : firstIsDash (argv.getD 1 "") = false) (fuel : ℕ) : parseOptions fuel argv = none :=
  parseOptions_loop_stuck argv _ hlen hd fuel

theorem parseOptions_scan_spec (l : List String) (b : ℕ) :
    b ≤ parseOptions.scan l b ∧ parseOptions.scan l b ≤ b + l.length ∧
    (parseOptions.scan l b - b < l.length →
      firstIsDash (l.getD (parseOptions.scan l b - b) "") = true) ∧
    (b < parseOptions.scan l b → firstIsDash (l.getD 0 "") = false) := by
  induction l generalizing b with
  | nil => simp [parseOptions.scan]
  | cons a rest ih =>
    by_cases ha : firstIsDash a = true
    · simp [parseOptions.scan, ha]
    · have ha' : firstIsDash a = false := by simpa using ha
      obtain ⟨h1, h2, h3, _⟩ := ih (b + 1)
      have hsc : parseOptions.scan (a :: rest) b = parseOptions.scan rest (b + 1) := by
        simp [parseOptions.scan, ha']
      rw [hsc]
      refine ⟨by omega, by simp only [List.length_cons]; omega, ?_, ?_⟩
      · intro hlt
        simp only [List.length_cons] at hlt
        have e : parseOptions.scan rest (b + 1) - b
            = (parseOptions.scan rest (b + 1) - (b + 1)) + 1 := by omega
        rw [e, List.getD_cons_succ]
        exact h3 (by omega)
      · intro _
        simpa using ha'

theorem parseOptions_step_argPos (argv : List String) (st : ParseState)
    (hlt : st.argPos < argv.length) (hd : firstIsDash (argv.getD st.argPos "") = true) :
    st.argPos < (parseOptions.step argv st).argPos ∧
    (parseOptions.step argv st).argPos ≤ argv.length ∧
    ((parseOptions.step argv st).argPos < argv.length →
      firstIsDash (argv.getD (parseOptions.step argv st).argPos "") = true) := by
  obtain ⟨h1, h2, h3, _⟩ := parseOptions_scan_spec (argv.drop (st.argPos + 1)) st.argPos
  have hlen : (argv.drop (st.argPos + 1)).length = argv.length - (st.argPos + 1) := by simp
  have hpos : (parseOptions.step argv st).argPos
      = parseOptions.scan (argv.drop (st.argPos + 1)) st.argPos + 1 := by
    unfold parseOptions.step
    simp only [hd]
    by_cases hc : parseOptions.scan (argv.drop (st.argPos + 1)) st.argPos - st.argPos ≤ 0
    · simp only [Bool.not_true, Bool.false_eq_true, if_false, if_pos hc]
      omega
    · simp only [Bool.not_true, Bool.false_eq_true, if_false, if_neg hc]
      omega
  rw [hpos]
  refine ⟨by omega, by omega, ?_⟩
  intro hlt2
  have h := h3 (by omega)
  rw [List.getD_eq_getElem?_getD, List.getElem?_drop] at h
  rw [List.getD_eq_getElem?_getD]
  have e : st.argPos + 1 + (parseOptions.scan (argv.drop (st.argPos + 1)) st.argPos - st.argPos)
      = parseOptions.scan (argv.drop (st.argPos + 1)) st.argPos + 1 := by omega
  rw [e] at h
  exact h

theorem parseOptions_loop_terminates (argv : List String) (k : ℕ) (st : ParseState)
    (hk : argv.length - st.argPos < k)
    (hd : st.argPos < argv.length → firstIsDash (argv.getD st.argPos "") = true) :
    ∃ ps, parseOptions.loop argv k st = some ps := by
  induction k generalizing st with
  | zero => omega
  | succ n ih =>
    by_cases hlt : st.argPos < argv.length
    · obtain ⟨h1, h2, h3⟩ := parseOptions_step_argPos argv st hlt (hd hlt)
      rw [parseOptions.loop, if_pos hlt]
      exact ih _ (by omega) h3
    · exact ⟨st, by rw [parseOptions.loop, if_neg hlt]⟩

/-- With no argument, or a first argument that starts with a dash, `parseOptions` returns. -/
theorem parseOptions_terminates (argv : List String)
    (h : argv.length ≤ 1 ∨ firstIsDash (argv.getD 1 "") = true) :
    ∃ ps, parseOptions (argv.length + 1) argv = some ps := by
  apply parseOptions_loop_terminates
  · show argv.length - 1 < argv.length + 1
    omega
  · intro hlt
    rcases h with h | h
    · exact absurd hlt (by show ¬ (1 < argv.length); omega)
    · exact h

theorem Options.mem_update (f : List String → List String) (key : String) (o : Options)
    (k : String) (v : List String) (h : (k, v) ∈ Options.update f key o) :
    (k = key ∧ ∃ v0, v = f v0) ∨ (k, v) ∈ o := by
  induction o with
  | nil =>
    simp only [Options.update, List.mem_singleton, Prod.mk.injEq] at h
    exact Or.inl ⟨h.1, [], h.2⟩
  | cons e rest ih =>
    obtain ⟨k0, v0⟩ := e
    unfold Options.update at h
    split_ifs at h with h1 h2
    · rcases List.mem_cons.1 h with h | h
      · simp only [Prod.mk.injEq] at h
        exact Or.inl ⟨h.1.trans h1.symm, v0, h.2⟩
      · exact Or.inr (List.mem_cons_of_mem _ h)
    · rcases List.mem_cons.1 h with h | h
      · simp only [Prod.mk.injEq] at h
        exact Or.inl ⟨h.1, [], h.2⟩
      · exact Or.inr h
    · rcases List.mem_cons.1 h with h | h
      · exact Or.inr (h ▸ List.mem_cons_self _ _)
      · rcases ih h with h | h
        · exact Or.inl h
        · exact Or.inr (List.mem_cons_of_mem _ h)

theorem parseOptions_step_noInput (argv : List String) (hno : NoInputValue argv)
    (st : ParseState) (h1 : 1 ≤ st.argPos) (hP : st.options.NoInput) :
    1 ≤ (parseOptions.step argv st).argPos ∧ (parseOptions.step argv st).options.NoInput := by
  unfold parseOptions.step
  by_cases hd : firstIsDash (argv.getD st.argPos "") = true
  · simp only [hd, Bool.not_true, Bool.false_eq_true, if_false]
    by_cases hc : parseOptions.scan (argv.drop (st.argPos + 1)) st.argPos - st.argPos ≤ 0
    · simp only [if_pos hc]
      refine ⟨by omega, ?_⟩
      intro k v hm hk
      rcases Options.mem_update _ _ _ _ _ hm with ⟨_, v0, hv⟩ | hm
      · exact hv
      · exact hP k v hm hk
    · simp only [if_neg hc]
      refine ⟨by omega, ?_⟩
      obtain ⟨_, s2, _, s4⟩ := parseOptions_scan_spec (argv.drop (st.argPos + 1)) st.argPos
      have hlen : (argv.drop (st.argPos + 1)).length = argv.length - (st.argPos + 1) := by simp
      have hnd := s4 (by omega)
      rw [List.getD_eq_getElem?_getD, List.getElem?_drop, Nat.add_zero,
        ← List.getD_eq_getElem?_getD] at hnd
      have hkey : ¬ (argv.getD st.argPos "" = "-i" ∨ argv.getD st.argPos "" = "--input") := by
        intro hk
        have := hno st.argPos h1 (by omega) hk
        rw [hnd] at this
        exact Bool.false_ne_true this
      generalize (List.range
        (parseOptions.scan (argv.drop (st.argPos + 1)) st.argPos - st.argPos)).map
          (fun k => st.argPos + 1 + k) = idx
      have : ∀ (o : Options), o.NoInput → (idx.foldl
          (fun o i => o.update (fun v => v ++ [argv.getD i ""]) (argv.getD st.argPos "")) o).NoInput := by
        induction idx with
        | nil => intro o ho; exact ho
        | cons i rest ih =>
          intro o ho
          rw [List.foldl_cons]
          apply ih
          intro k v hm hk
          rcases Options.mem_update _ _ _ _ _ hm with ⟨hk0, _⟩ | hm
          · exact absurd (hk0 ▸ hk) hkey
          · exact ho k v hm hk
      exact this _ hP
  · have hd' : firstIsDash (argv.getD st.argPos "") = false := by simpa using hd
    simp only [hd', Bool.not_false, if_true]
    exact ⟨h1, hP⟩

theorem parseOptions_loop_noInput (argv : List String) (hno : NoInputValue argv) (fuel : ℕ)
    (st ps : ParseState) (h : parseOptions.loop argv fuel st = some ps) (h1 : 1 ≤ st.argPos)
    (hP : st.options.NoInput) : ps.options.NoInput := by
  induction fuel generalizing st with
  | zero => simp [parseOptions.loop] at h
  | succ n ih =>
    rw [parseOptions.loop] at h
    split_ifs at h with hlt
    · obtain ⟨a, b⟩ := parseOptions_step_noInput argv hno st h1 hP
      exact ih _ h a b
    · simp only [Option.some.injEq] at h
      exact h ▸ hP

theorem scanOptions_noInput (o : Options) (hP : o.NoInput) (st : ArgState)
    (hst : st.inputSpecified = false) :
    parseArguments.scanOptions o st = .error 1 ∨
    ∃ st2, parseArguments.scanOptions o st = .ok st2 ∧ st2.inputSpecified = false := by
  induction o generalizing st with
  | nil => exact Or.inr ⟨st, rfl, hst⟩
  | cons e rest ih =>
    obtain ⟨k, v⟩ := e
    have hrest : Options.NoInput rest := fun k v hm hk => hP k v (List.mem_cons_of_mem _ hm) hk
    unfold parseArguments.scanOptions
    split_ifs with c1 c2 c3 c4 c5 c6
    · exact ih hrest st hst
    · have := hP k v (List.mem_cons_self _ _) c1
      rw [this] at c2
      simp at c2
    · exact ih hrest st hst
    · exact ih hrest _ hst
    · exact ih hrest _ hst
    · exact Or.inl rfl
    · exact ih hrest st hst

/-- Whenever `parseArguments` returns on a vector in which no input flag is followed by a
value, the status is 1. -/
theorem parseArguments_noInput (fuel : ℕ) (spec : Spec) (argv : List String)
    (hno : NoInputValue argv) (r : ℤ × Spec) (h : parseArguments fuel spec argv = some r) :
    r.1 = 1 := by
  unfold parseArguments at h
  cases hp : parseOptions fuel argv with
  | none => rw [hp] at h; simp at h
  | some ps =>
    rw [hp] at h
    dsimp only at h
    have hP : ps.options.NoInput :=
      parseOptions_loop_noInput argv hno fuel _ ps hp (le_refl 1) (by intro k v hm; simp at hm)
    rcases scanOptions_noInput ps.options hP
      { spec := spec, inputSpecified := false, outputSpecified := false } rfl with he | ⟨st2, he, hi⟩
    · rw [he] at h
      simp only [Option.some.injEq] at h
      rw [← h]
    · rw [he] at h
      simp only [hi, Bool.not_false, if_true, Option.some.injEq] at h
      rw [← h]

/-- C22 (refuted on the code): on the argument vector `shgen foo` the body of the loop of
`parseOptions` leaves `argPos` at 1 and the function returns with no amount of fuel. -/
theorem parseOptions_no_return :
    (parseOptions.step ["shgen", "foo"]
      { argPos := 1, options := [], suggestHelp := false, unknown := [] }).argPos = 1 ∧
    ∀ fuel, parseOptions fuel ["shgen", "foo"] = none :=
  ⟨by decide, fun fuel => parseOptions_diverges _ (by decide) (by decide) fuel⟩

/-- C21 (refuted on the code): the argument vector `shgen foo` has no input flag followed by a
value, and `parseArguments` returns no status on it with any amount of fuel. -/
theorem parseArguments_no_return :
    NoInputValue ["shgen", "foo"] ∧
    ∀ fuel spec, parseArguments fuel spec ["shgen", "foo"] = none := by
  refine ⟨?_, ?_⟩
  · intro j h1 h2 _
    simp only [List.length_cons, List.length_nil] at h2
    omega
  · intro fuel spec
    unfold parseArguments
    rw [parseOptions_diverges _ (by decide) (by decide) fuel]

theorem matchStr_scan_spec (c : Char) (l : List Char) (b : ℕ) :
    b ≤ matchStr.scan c l b ∧ matchStr.scan c l b ≤ b + l.length ∧
    (matchStr.scan c l b - b < l.length → l.getD (matchStr.scan c l b - b) NUL = c) := by
  induction l generalizing b with
  | nil => simp [matchStr.scan]
  | cons d rest ih =>
    by_cases hd : d = c
    · simp [matchStr.scan, hd]
    · obtain ⟨h1, h2, h3⟩ := ih (b + 1)
      have hsc : matchStr.scan c (d :: rest) b = matchStr.scan c rest (b + 1) := by
        simp [matchStr.scan, hd]
      rw [hsc]
      refine ⟨by omega, by simp only [List.length_cons]; omega, ?_⟩
      intro hlt
      simp only [List.length_cons] at hlt
      have e : matchStr.scan c rest (b + 1) - b
          = (matchStr.scan c rest (b + 1) - (b + 1)) + 1 := by omega
      rw [e, List.getD_cons_succ]
      exact h3 (by omega)

theorem matchStr_scan_drop (c : Char) (str : List Char) (s : ℕ) (hs : s ≤ str.length) :
    s ≤ matchStr.scan c (str.drop s) s ∧ matchStr.scan c (str.drop s) s ≤ str.length ∧
    (matchStr.scan c (str.drop s) s ≠ str.length →
      str.getD (matchStr.scan c (str.drop s) s) NUL = c) := by
  obtain ⟨h1, h2, h3⟩ := matchStr_scan_spec c (str.drop s) s
  have hlen : (str.drop s).length = str.length - s := by simp
  refine ⟨h1, by omega, ?_⟩
  intro hne
  have h := h3 (by omega)
  rw [List.getD_eq_getElem?_getD, List.getElem?_drop] at h
  rw [List.getD_eq_getElem?_getD]
  have e : s + (matchStr.scan c (str.drop s) s - s) = matchStr.scan c (str.drop s) s := by omega
  rw [e] at h
  exact h

theorem matchStr_loop_terminates (str pat : List Char) (k : ℕ) (st : MatchState)
    (hs : st.strIt ≤ str.length) (hp : st.patIt ≤ pat.length)
    (hl : st.lastWildcardIt ≠ pat.length → st.lastWildcardIt < st.patIt)
    (hf : st.lastWildcardIt ≠ pat.length → st.patIt = st.lastWildcardIt + 1 →
      st.strIt = str.length ∨ st.patIt = pat.length ∨ pat.getD st.patIt NUL = '*' ∨
        pat.getD st.patIt NUL = str.getD st.strIt NUL)
    (hk : (str.length - st.strIt) * (2 * pat.length + 3) + (pat.length - st.patIt)
      + (if st.lastWildcardIt ≠ pat.length ∧ st.patIt ≠ st.lastWildcardIt + 1
          then pat.length + 2 else 0) < k) :
    ∃ b, matchStr.loop str pat k st = some b := by
  induction k generalizing st with
  | zero => omega
  | succ n ih =>
    obtain ⟨s, p, last⟩ := st
    simp only at hs hp hl hf hk
    rw [matchStr.loop]
    simp only
    by_cases hc : s ≠ str.length ∧ p ≠ pat.length
    · rw [if_pos hc]
      obtain ⟨hsn, hpm⟩ := hc
      by_cases hstar : pat.getD p NUL = '*'
      · rw [if_pos hstar]
        have hφ : (if last ≠ pat.length ∧ p ≠ last + 1 then pat.length + 2 else 0) ≥ 0 :=
          Nat.zero_le _
        by_cases hend : p + 1 = pat.length
        · rw [if_pos hend]
          apply ih
          · exact le_refl _
          · simp only; omega
          · intro _; simp only; omega
          · intro _ _; exact Or.inl rfl
          · simp only [Nat.sub_self, Nat.zero_mul]
            rw [if_neg (by omega)]
            omega
        · rw [if_neg hend]
          obtain ⟨h1, h2, h3⟩ := matchStr_scan_drop (pat.getD (p + 1) NUL) str s hs
          generalize matchStr.scan (pat.getD (p + 1) NUL) (str.drop s) s = s2 at h1 h2 h3 ⊢
          apply ih
          · exact h2
          · simp only; omega
          · intro _; simp only; omega
          · intro _ _
            by_cases hs2 : s2 = str.length
            · exact Or.inl hs2
            · exact Or.inr (Or.inr (Or.inr (h3 hs2).symm))
          · simp only
            rw [if_neg (by omega)]
            have hmono : (str.length - s2) * (2 * pat.length + 3)
                ≤ (str.length - s) * (2 * pat.length + 3) :=
              Nat.mul_le_mul_right _ (by omega)
            generalize (str.length - s2) * (2 * pat.length + 3) = X at hmono ⊢
            generalize (str.length - s) * (2 * pat.length + 3) = Y at hmono hk
            omega
      · rw [if_neg hstar]
        by_cases hmis : pat.getD p NUL ≠ str.getD s NUL
        · rw [if_pos hmis]
          by_cases hlast : last ≠ pat.length
          · rw [if_pos hlast]
            have hlp := hl hlast
            have hnf : p ≠ last + 1 := by
              intro hpe
              rcases hf hlast hpe with h | h | h | h
              · exact hsn h
              · exact hpm h
              · exact hstar h
              · exact hmis h
            apply ih
            · exact hs
            · simp only; omega
            · intro h; exact absurd rfl h
            · intro h; exact absurd rfl h
            · simp only
              rw [if_pos ⟨hlast, hnf⟩] at hk
              rw [if_neg (by intro h; exact h.1 rfl)]
              generalize (str.length - s) * (2 * pat.length + 3) = Y at hk ⊢
              omega
          · rw [if_neg hlast]
            exact ⟨false, rfl⟩
        · rw [if_neg hmis]
          apply ih
          · simp only; omega
          · simp only; omega
          · intro h; have := hl h; simp only; omega
          · intro h he
            have := hl h
            simp only at he
            omega
          · simp only
            have hstep : (str.length - (s + 1)) * (2 * pat.length + 3) + (2 * pat.length + 3)
                = (str.length - s) * (2 * pat.length + 3) := by
              have e : str.length - s = (str.length - (s + 1)) + 1 := by omega
              rw [e, Nat.add_mul, Nat.one_mul]
            have hφ : (if last ≠ pat.length ∧ p + 1 ≠ last + 1 then pat.length + 2 else 0)
                ≤ pat.length + 2 := by
              split_ifs <;> omega
            generalize (if last ≠ pat.length ∧ p + 1 ≠ last + 1 then pat.length + 2 else 0) = F
              at hφ ⊢
            generalize (if last ≠ pat.length ∧ p ≠ last + 1 then pat.length + 2 else 0) = G at hk
            generalize (str.length - (s + 1)) * (2 * pat.length + 3) = X at hstep ⊢
            generalize (str.length - s) * (2 * pat.length + 3) = Y at hstep hk
            omega
    · rw [if_neg hc]
      exact ⟨_, rfl⟩

/-- The loop of `match` ends on every pair of strings, within the fuel shown. -/
theorem matchStr_terminates (str pattern : List Char) :
    ∃ b, matchStr (str.length * (2 * pattern.length + 3) + pattern.length + 1) str pattern
      = some b := by
  apply matchStr_loop_terminates
  · exact Nat.zero_le _
  · exact Nat.zero_le _
  · intro h; exact absurd rfl h
  · intro h; exact absurd rfl h
  · simp only [Nat.sub_zero]
    rw [if_neg (by intro h; exact h.1 rfl)]
    omega

theorem globMatches_append (p1 p2 s1 s2 : List Char) (h1 : globMatches p1 s1 = true)
    (h2 : globMatches p2 s2 = true) : globMatches (p1 ++ p2) (s1 ++ s2) = true := by
  induction p1 generalizing s1 with
  | nil =>
    simp only [globMatches, List.isEmpty_iff] at h1
    simpa [h1] using h2
  | cons c ps ih =>
    by_cases hc : c = '*'
    · simp only [globMatches, hc, if_true, List.any_eq_true, List.mem_tails, List.cons_append]
        at h1 ⊢
      obtain ⟨t, ⟨u, hu⟩, ht⟩ := h1
      exact ⟨t ++ s2, ⟨u, by rw [← hu, List.append_assoc]⟩, ih t ht⟩
    · cases s1 with
      | nil => simp [globMatches, hc] at h1
      | cons d t =>
        simp only [globMatches, hc, if_false, Bool.and_eq_true, decide_eq_true_eq,
          List.cons_append] at h1 ⊢
        exact ⟨h1.1, ih t h1.2⟩

theorem globMatches_star (s : List Char) : globMatches ['*'] s = true := by
  simp only [globMatches, if_true, List.any_eq_true, List.mem_tails]
  exact ⟨[], List.nil_suffix, rfl⟩

theorem globMatches_char (c : Char) (hc : c ≠ '*') : globMatches [c] [c] = true := by
  simp [globMatches, hc]

theorem take_succ_getD (l : List Char) (i : ℕ) (hi : i < l.length) :
    l.take (i + 1) = l.take i ++ [l.getD i NUL] := by
  rw [List.take_succ, List.getD_eq_getElem?_getD, List.getElem?_eq_getElem hi]
  rfl

theorem take_split (l : List Char) (a b : ℕ) (hab : a ≤ b) :
    l.take b = l.take a ++ (l.take b).drop a := by
  have h := List.take_append_drop a (l.take b)
  rw [List.take_take, Nat.min_eq_left hab] at h
  exact h.symm

theorem matchStr_loop_sound (str pat : List Char) (fuel : ℕ) (st : MatchState)
    (hA : globMatches (pat.take st.patIt) (str.take st.strIt) = true ∨
      (st.patIt < pat.length ∧ pat.getD st.patIt NUL = '*' ∧
        ∃ s0, s0 ≤ st.strIt ∧ globMatches (pat.take st.patIt) (str.take s0) = true))
    (hB : st.lastWildcardIt ≠ pat.length → st.lastWildcardIt < pat.length ∧
      pat.getD st.lastWildcardIt NUL = '*' ∧
        ∃ s1, s1 ≤ st.strIt ∧ globMatches (pat.take st.lastWildcardIt) (str.take s1) = true)
    (hs : st.strIt ≤ str.length) (hp : st.patIt ≤ pat.length)
    (h : matchStr.loop str pat fuel st = some true) : globMatches pat str = true := by
  induction fuel generalizing st with
  | zero => simp [matchStr.loop] at h
  | succ n ih =>
    obtain ⟨s, p, last⟩ := st
    simp only at hA hB hs hp
    rw [matchStr.loop] at h
    simp only at h
    by_cases hc : s ≠ str.length ∧ p ≠ pat.length
    · rw [if_pos hc] at h
      obtain ⟨hsn, hpm⟩ := hc
      have hp' : p < pat.length := by omega
      have hs' : s < str.length := by omega
      by_cases hstar : pat.getD p NUL = '*'
      · rw [if_pos hstar] at h
        have hpre : ∃ s0, s0 ≤ s ∧ globMatches (pat.take p) (str.take s0) = true := by
          rcases hA with hA | ⟨_, _, hA⟩
          · exact ⟨s, le_refl _, hA⟩
          · exact hA
        obtain ⟨s0, hs0, hg⟩ := hpre
        have hnew : ∀ s2, s ≤ s2 →
            globMatches (pat.take (p + 1)) (str.take s2) = true := by
          intro s2 hs2
          rw [take_succ_getD pat p hp', hstar, take_split str s0 s2 (by omega)]
          exact globMatches_append _ _ _ _ hg (globMatches_star _)
        by_cases hend : p + 1 = pat.length
        · rw [if_pos hend] at h
          refine ih _ (Or.inl (hnew _ (le_of_lt hs'))) ?_ (le_refl _) (by simp only; omega) h
          intro _
          exact ⟨hp', hstar, s0, by show s0 ≤ str.length; omega, hg⟩
        · rw [if_neg hend] at h
          obtain ⟨h1, h2, _⟩ := matchStr_scan_drop (pat.getD (p + 1) NUL) str s hs
          refine ih _ (Or.inl (hnew _ h1)) ?_ h2 (by simp only; omega) h
          intro _
          exact ⟨hp', hstar, s0, le_trans hs0 h1, hg⟩
      · rw [if_neg hstar] at h
        by_cases hmis : pat.getD p NUL ≠ str.getD s NUL
        · rw [if_pos hmis] at h
          by_cases hlast : last ≠ pat.length
          · rw [if_pos hlast] at h
            obtain ⟨b1, b2, b3⟩ := hB hlast
            refine ih _ (Or.inr ⟨b1, b2, b3⟩) ?_ hs (by simp only; omega) h
            intro hne
            exact absurd rfl hne
          · rw [if_neg hlast] at h
            simp at h
        · rw [if_neg hmis] at h
          have heq : pat.getD p NUL = str.getD s NUL := by
            by_contra hne
            exact hmis hne
          have hg : globMatches (pat.take p) (str.take s) = true := by
            rcases hA with hA | ⟨_, hA, _⟩
            · exact hA
            · exact absurd hA hstar
          refine ih _ (Or.inl ?_) ?_ (by simp only; omega) (by simp only; omega) h
          · simp only
            rw [take_succ_getD pat p hp', take_succ_getD str s hs', ← heq]
            exact globMatches_append _ _ _ _ hg (globMatches_char _ hstar)
          · intro hne
            obtain ⟨b1, b2, s1, b3, b4⟩ := hB hne
            exact ⟨b1, b2, s1, by simp only; omega, b4⟩
    · rw [if_neg hc] at h
      simp only [Option.some.injEq, decide_eq_true_eq] at h
      rcases hA with hA | ⟨hA, _⟩
      · rw [h.1, h.2, List.take_length, List.take_length] at hA
        exact hA
      · omega

/-- Whenever `match` returns true the string matches the pattern under glob semantics. -/
theorem matchStr_sound (fuel : ℕ) (str pattern : List Char)
    (h : matchStr fuel str pattern = some true) : globMatches pattern str = true := by
  refine matchStr_loop_sound str pattern fuel
    { strIt := 0, patIt := 0, lastWildcardIt := pattern.length } (Or.inl ?_) ?_
    (Nat.zero_le _) (Nat.zero_le _) h
  · rfl
  · intro hne
    exact absurd rfl hne

/-- C29 (refuted on the code): the string `a` matches the pattern `a*` and the string `aa`
matches the pattern `*a` under glob semantics, and `match` returns false on both. -/
theorem matchStr_incomplete :
    globMatches ['a', '*'] ['a'] = true ∧
    (∀ fuel, matchStr (fuel + 2) ['a'] ['a', '*'] = some false) ∧
    globMatches ['*', 'a'] ['a', 'a'] = true ∧
    (∀ fuel, matchStr (fuel + 3) ['a', 'a'] ['*', 'a'] = some false) :=
  ⟨by decide, fun _ => rfl, by decide, fun _ => rfl⟩

end ibl
